import Mathlib

/-!
# rest-client: the JSON object extractor of `src/user_stats.cpp`

A shallow embedding of `parseJsonData`, of the helpers next to it and of the
three queries on the extracted objects (`calculateAverageAge`,
`findMostCommonHobby`, `findUsersWithMostFriends`), with the properties of the
extractor and of the queries proved over the embedding.

A `std::string` is a `List Char`.  The texts are read as sequences of Unicode
scalar values (valid UTF-8); every character the code compares against is
ASCII, so the byte loop of the source and the character loop here agree.

`nlohmann::json::parse` is a library call; the library is not part of the
sources.  It is modelled by `jsonParse`, a character-at-a-time machine that
follows the library's lexer (`scan_string`, `scan_number`, `scan_literal`) and
its iterative parser: strict RFC 8259, one value per text, a leading byte-order
mark skipped, duplicate keys overwritten, object members kept in key order.
Numbers are kept exactly, as a decimal mantissa and exponent, where the library
rounds to a machine number; the one place where rounding changes the outcome, a
literal too large for a double (`out_of_range`, not `parse_error`), is modelled
by an exact comparison.  "A text that parses to an object" below always means a
text on which `jsonParse` returns an object.

In the queries a `double` is an IEEE 754 binary64 value (`Double`), with
rounding to nearest, ties to even, infinities, NaN and the two zeros; the `int`
counts are natural numbers.  The `std::map<std::string, int>` is a list of
entries in ascending key order.

The file has three parts: the definitions (the JSON model, the mirror of
`user_stats.cpp`, then the notions the proofs use), the lemmas, and the
theorems of the claims.
-/

namespace RestClient

/-! ## JSON values -/

/-- A JSON value as `nlohmann::json` holds it. -/
inductive Json where
  | null
  | bool (b : Bool)
  | num (mantissa : Int) (exp10 : Int)
  | str (s : List Char)
  | arr (items : List Json)
  | obj (members : List (List Char × Json))

/-- Mirror of `json::is_object`. -/
def Json.is_object : Json → Bool
  | .obj _ => true
  | _ => false

/-- Mirror of `json::is_array`. -/
def Json.is_array : Json → Bool
  | .arr _ => true
  | _ => false

/-- Strict lexicographic order on strings, the `std::less<std::string>` of the object map. -/
def strLt : List Char → List Char → Bool
  | [], [] => false
  | [], _ :: _ => true
  | _ :: _, [] => false
  | a :: as, b :: bs => if a.toNat < b.toNat then true else if b.toNat < a.toNat then false else strLt as bs

/-- Assignment `object[key] = v` in a key-ordered map: a new key is inserted in order, an
existing key has its value replaced. -/
def insertMember (k : List Char) (v : Json) : List (List Char × Json) → List (List Char × Json)
  | [] => [(k, v)]
  | (k', v') :: ms =>
    if strLt k k' then (k, v) :: (k', v') :: ms
    else if strLt k' k then (k', v') :: insertMember k v ms
    else (k, v) :: ms

/-! ## The model of `json::parse` -/

/-- The two ways `json::parse` throws: `parse_error` for a text that is not JSON, and
`out_of_range` for a number literal that does not fit a double. -/
inductive PErr where
  | parseError
  | outOfRange
deriving DecidableEq

/-- States of the number scanner (`lexer::scan_number`). -/
inductive NumSt where
  | minus | zero | any1 | decimal1 | decimal2 | exponent | sign | any2
deriving DecidableEq

/-- A number literal read so far. -/
structure NumAcc where
  st : NumSt
  neg : Bool
  mant : Nat
  frac : Nat
  eneg : Bool
  exp : Nat

/-- The three literal names (`lexer::scan_literal`). -/
inductive LitKind where
  | ltrue | lfalse | lnull
deriving DecidableEq

/-- Spelling of a literal. -/
def LitKind.text : LitKind → List Char
  | .ltrue => ['t', 'r', 'u', 'e']
  | .lfalse => ['f', 'a', 'l', 's', 'e']
  | .lnull => ['n', 'u', 'l', 'l']

/-- What the lexer is in the middle of. -/
inductive Lex where
  | idle
  | inStr (acc : List Char)
  | esc (acc : List Char)
  | hex (acc : List Char) (hi : Option Nat) (n : Nat) (v : Nat)
  | surr1 (acc : List Char) (hi : Nat)
  | surr2 (acc : List Char) (hi : Nat)
  | number (a : NumAcc)
  | lit (k : LitKind) (n : Nat)

/-- A container under construction. -/
inductive Frame where
  | arr (items : List Json)
  | obj (members : List (List Char × Json)) (key : List Char)

/-- What the parser accepts next. -/
inductive Expect where
  | value
  | valueOrClose
  | keyOrClose
  | key
  | colon
  | commaOrClose
  | done (v : Json)

/-- State of the parsing machine. -/
structure PState where
  stack : List Frame
  expect : Expect
  lex : Lex

/-- Value of a literal. -/
def LitKind.value : LitKind → Json
  | .ltrue => .bool true
  | .lfalse => .bool false
  | .lnull => .null

/-- State before the first character. -/
def PState.init : PState := { stack := [], expect := .value, lex := .idle }

/-- JSON whitespace: space, tab, line feed, carriage return. -/
def isJsonWs (c : Char) : Bool := c = ' ' || c = '\t' || c = '\n' || c = '\r'

/-- Decimal digit. -/
def isDigit (c : Char) : Bool := decide (48 ≤ c.toNat) && decide (c.toNat ≤ 57)

/-- Value of a hexadecimal digit. -/
def hexVal (c : Char) : Option Nat :=
  if 48 ≤ c.toNat ∧ c.toNat ≤ 57 then some (c.toNat - 48)
  else if 97 ≤ c.toNat ∧ c.toNat ≤ 102 then some (c.toNat - 87)
  else if 65 ≤ c.toNat ∧ c.toNat ≤ 70 then some (c.toNat - 55)
  else none

/-- The character a one-letter escape stands for. -/
def unescape (c : Char) : Option Char :=
  if c = '"' then some '"'
  else if c = '\\' then some '\\'
  else if c = '/' then some '/'
  else if c = 'b' then some (Char.ofNat 8)
  else if c = 'f' then some (Char.ofNat 12)
  else if c = 'n' then some '\n'
  else if c = 'r' then some '\r'
  else if c = 't' then some '\t'
  else none

/-- A value may start here. -/
def Expect.wantsValue : Expect → Bool
  | .value => true
  | .valueOrClose => true
  | _ => false

/-- A member name may start here. -/
def Expect.wantsKey : Expect → Bool
  | .keyOrClose => true
  | .key => true
  | _ => false

/-- A finished value goes to the container on top of the stack, or becomes the result. -/
def deliver (stack : List Frame) (v : Json) : PState :=
  match stack with
  | [] => { stack := [], expect := .done v, lex := .idle }
  | .arr items :: fs => { stack := .arr (v :: items) :: fs, expect := .commaOrClose, lex := .idle }
  | .obj ms k :: fs => { stack := .obj (insertMember k v ms) k :: fs, expect := .commaOrClose, lex := .idle }

/-- A finished scalar token is accepted where a value may stand. -/
def deliverValue (ps : PState) (v : Json) : Except PErr PState :=
  if ps.expect.wantsValue then .ok (deliver ps.stack v) else .error .parseError

/-- A finished string token: a member name or a value, by position. -/
def deliverString (ps : PState) (s : List Char) : Except PErr PState :=
  if ps.expect.wantsValue then deliverValue ps (.str s)
  else if ps.expect.wantsKey then
    match ps.stack with
    | .obj ms _ :: fs => .ok { stack := .obj ms s :: fs, expect := .colon, lex := .idle }
    | _ => .error .parseError
  else .error .parseError

/-- Smallest magnitude that rounds to infinity as a double: `2^1024 - 2^970`, written as
`(2^54 - 1) * 2^970`. -/
def doubleOverflow : Nat := (2 ^ 54 - 1) <<< 970

/-- The literal `mant * 10^e` is too large for a double. -/
def overflows (mant : Nat) (e : Int) : Bool :=
  if 0 ≤ e then decide (doubleOverflow ≤ mant * 10 ^ e.toNat)
  else decide (doubleOverflow * 10 ^ (-e).toNat ≤ mant)

/-- The number scanner may stop in this state. -/
def NumSt.accepting : NumSt → Bool
  | .zero => true
  | .any1 => true
  | .decimal2 => true
  | .any2 => true
  | _ => false

/-- Decimal exponent of a literal: the written exponent less the fraction digits. -/
def NumAcc.exp10 (a : NumAcc) : Int :=
  (if a.eneg then -(a.exp : Int) else (a.exp : Int)) - (a.frac : Int)

/-- Signed mantissa of a literal. -/
def NumAcc.mantissa (a : NumAcc) : Int :=
  if a.neg then -(a.mant : Int) else (a.mant : Int)

/-- A finished number token. -/
def deliverNumber (ps : PState) (a : NumAcc) : Except PErr PState :=
  if a.st.accepting then
    if ps.expect.wantsValue then
      if overflows a.mant a.exp10 then .error .outOfRange
      else deliverValue ps (.num a.mantissa a.exp10)
    else .error .parseError
  else .error .parseError

/-- One more character of a number literal, if it continues the literal. -/
def numStep (a : NumAcc) (c : Char) : Option NumAcc :=
  match a.st with
  | .minus =>
    if c = '0' then some { a with st := .zero }
    else if isDigit c then some { a with st := .any1, mant := c.toNat - 48 }
    else none
  | .zero =>
    if c = '.' then some { a with st := .decimal1 }
    else if c = 'e' ∨ c = 'E' then some { a with st := .exponent }
    else none
  | .any1 =>
    if isDigit c then some { a with mant := a.mant * 10 + (c.toNat - 48) }
    else if c = '.' then some { a with st := .decimal1 }
    else if c = 'e' ∨ c = 'E' then some { a with st := .exponent }
    else none
  | .decimal1 =>
    if isDigit c then some { a with st := .decimal2, mant := a.mant * 10 + (c.toNat - 48), frac := a.frac + 1 }
    else none
  | .decimal2 =>
    if isDigit c then some { a with mant := a.mant * 10 + (c.toNat - 48), frac := a.frac + 1 }
    else if c = 'e' ∨ c = 'E' then some { a with st := .exponent }
    else none
  | .exponent =>
    if c = '+' then some { a with st := .sign }
    else if c = '-' then some { a with st := .sign, eneg := true }
    else if isDigit c then some { a with st := .any2, exp := c.toNat - 48 }
    else none
  | .sign =>
    if isDigit c then some { a with st := .any2, exp := c.toNat - 48 }
    else none
  | .any2 =>
    if isDigit c then some { a with exp := a.exp * 10 + (c.toNat - 48) }
    else none

/-- A character met between tokens. -/
def stepIdle (ps : PState) (c : Char) : Except PErr PState :=
  if isJsonWs c then .ok ps
  else if c = '{' then
    if ps.expect.wantsValue then .ok { stack := .obj [] [] :: ps.stack, expect := .keyOrClose, lex := .idle }
    else .error .parseError
  else if c = '}' then
    match ps.expect, ps.stack with
    | .keyOrClose, .obj ms _ :: fs => .ok (deliver fs (.obj ms))
    | .commaOrClose, .obj ms _ :: fs => .ok (deliver fs (.obj ms))
    | _, _ => .error .parseError
  else if c = '[' then
    if ps.expect.wantsValue then .ok { stack := .arr [] :: ps.stack, expect := .valueOrClose, lex := .idle }
    else .error .parseError
  else if c = ']' then
    match ps.expect, ps.stack with
    | .valueOrClose, .arr items :: fs => .ok (deliver fs (.arr items.reverse))
    | .commaOrClose, .arr items :: fs => .ok (deliver fs (.arr items.reverse))
    | _, _ => .error .parseError
  else if c = ':' then
    match ps.expect with
    | .colon => .ok { ps with expect := .value }
    | _ => .error .parseError
  else if c = ',' then
    match ps.expect, ps.stack with
    | .commaOrClose, .arr _ :: _ => .ok { ps with expect := .value }
    | .commaOrClose, .obj _ _ :: _ => .ok { ps with expect := .key }
    | _, _ => .error .parseError
  else if c = '"' then
    if ps.expect.wantsValue || ps.expect.wantsKey then .ok { ps with lex := .inStr [] }
    else .error .parseError
  else if ps.expect.wantsValue then
    if c = 't' then .ok { ps with lex := .lit .ltrue 1 }
    else if c = 'f' then .ok { ps with lex := .lit .lfalse 1 }
    else if c = 'n' then .ok { ps with lex := .lit .lnull 1 }
    else if c = '-' then
      .ok { ps with lex := .number { st := .minus, neg := true, mant := 0, frac := 0, eneg := false, exp := 0 } }
    else if c = '0' then
      .ok { ps with lex := .number { st := .zero, neg := false, mant := 0, frac := 0, eneg := false, exp := 0 } }
    else if isDigit c then
      .ok { ps with lex := .number { st := .any1, neg := false, mant := c.toNat - 48, frac := 0, eneg := false, exp := 0 } }
    else .error .parseError
  else .error .parseError

/-- A finished `\uXXXX` code unit: a character, the first half of a surrogate pair, or the
second half completing one. -/
def hexDone (ps : PState) (acc : List Char) (hi : Option Nat) (cp : Nat) : Except PErr PState :=
  match hi with
  | none =>
    if 0xD800 ≤ cp ∧ cp ≤ 0xDBFF then .ok { ps with lex := .surr1 acc cp }
    else if 0xDC00 ≤ cp ∧ cp ≤ 0xDFFF then .error .parseError
    else .ok { ps with lex := .inStr (Char.ofNat cp :: acc) }
  | some h =>
    if 0xDC00 ≤ cp ∧ cp ≤ 0xDFFF then
      .ok { ps with lex := .inStr (Char.ofNat (0x10000 + (h - 0xD800) * 0x400 + (cp - 0xDC00)) :: acc) }
    else .error .parseError

/-- One character of input. -/
def step (ps : PState) (c : Char) : Except PErr PState :=
  match ps.lex with
  | .idle => stepIdle ps c
  | .inStr acc =>
    if c = '"' then deliverString ps acc.reverse
    else if c = '\\' then .ok { ps with lex := .esc acc }
    else if c.toNat < 32 then .error .parseError
    else .ok { ps with lex := .inStr (c :: acc) }
  | .esc acc =>
    match unescape c with
    | some d => .ok { ps with lex := .inStr (d :: acc) }
    | none => if c = 'u' then .ok { ps with lex := .hex acc none 0 0 } else .error .parseError
  | .hex acc hi n v =>
    match hexVal c with
    | none => .error .parseError
    | some d =>
      if n < 3 then .ok { ps with lex := .hex acc hi (n + 1) (v * 16 + d) }
      else hexDone ps acc hi (v * 16 + d)
  | .surr1 acc hi => if c = '\\' then .ok { ps with lex := .surr2 acc hi } else .error .parseError
  | .surr2 acc hi => if c = 'u' then .ok { ps with lex := .hex acc (some hi) 0 0 } else .error .parseError
  | .number a =>
    match numStep a c with
    | some a' => .ok { ps with lex := .number a' }
    | none =>
      match deliverNumber ps a with
      | .ok ps' => stepIdle ps' c
      | .error e => .error e
  | .lit k n =>
    match k.text.get? n with
    | none => .error .parseError
    | some r =>
      if c = r then
        if n + 1 = k.text.length then deliverValue ps k.value
        else .ok { ps with lex := .lit k (n + 1) }
      else .error .parseError

/-- Feed a text to the machine. -/
def run : PState → List Char → Except PErr PState
  | ps, [] => .ok ps
  | ps, c :: cs =>
    match step ps c with
    | .ok ps' => run ps' cs
    | .error e => .error e

/-- End of input: a number still being read is finished, and the text must have held
exactly one value. -/
def finish (ps : PState) : Except PErr Json :=
  match ps.lex with
  | .idle =>
    match ps.expect with
    | .done v => .ok v
    | _ => .error .parseError
  | .number a =>
    match deliverNumber ps a with
    | .ok ps' =>
      match ps'.expect with
      | .done v => .ok v
      | _ => .error .parseError
    | .error e => .error e
  | _ => .error .parseError

/-- Parse a text without byte-order mark. -/
def parseCore (s : List Char) : Except PErr Json :=
  match run PState.init s with
  | .ok ps => finish ps
  | .error e => .error e

/-- Modelled from the spec: `nlohmann::json::parse(text)`, the JSON parser of the library,
which the sources call and do not contain. The specification asks of it that it balance
braces and brackets outside strings and produce a null, bool, number, string, array or
object; the model is the library's strict parser, with a leading byte-order mark skipped. -/
def jsonParse (s : List Char) : Except PErr Json :=
  match s with
  | [] => parseCore []
  | c :: cs => if c = Char.ofNat 0xFEFF then parseCore cs else parseCore (c :: cs)

/-! ## The helpers of `user_stats.cpp` -/

/-- Mirror of `line.find(p) == 0`: the line starts with `p`. -/
def startsWith : List Char → List Char → Bool
  | [], _ => true
  | _ :: _, [] => false
  | p :: ps, c :: cs => if c = p then startsWith ps cs else false

/-- The regex class `\s`: space, tab, line feed, vertical tab, form feed, carriage return. -/
def isSpace (c : Char) : Bool :=
  c = ' ' || c = '\t' || c = '\n' || c = Char.ofNat 11 || c = Char.ofNat 12 || c = '\r'

/-- The regex `.` of ECMAScript matches every character but a line terminator. -/
def isDotChar (c : Char) : Bool := !(c = '\n' || c = '\r')

/-- Match of `\s+.*` against the whole of a text: at least one space character, and after
the run of space characters no line terminator. -/
def matchSpacesThenAny (s : List Char) : Bool :=
  match s with
  | [] => false
  | c :: cs => isSpace c && ((cs.dropWhile isSpace).all isDotChar)

/-- Match of `\s+\d{3}\s+.*` against the whole of a text. -/
def matchStatusTail (s : List Char) : Bool :=
  match s with
  | [] => false
  | c :: cs =>
    isSpace c &&
      (match cs.dropWhile isSpace with
       | d1 :: d2 :: d3 :: rest => isDigit d1 && isDigit d2 && isDigit d3 && matchSpacesThenAny rest
       | _ => false)

/-- Mirror of `isHttpErrorResponse`: `std::regex_match` of the whole text against
`^HTTP/\d\.\d\s+\d{3}\s+.*`. -/
def isHttpErrorResponse (str : List Char) : Bool :=
  match str with
  | 'H' :: 'T' :: 'T' :: 'P' :: '/' :: d1 :: '.' :: d2 :: rest =>
    isDigit d1 && isDigit d2 && matchStatusTail rest
  | _ => false

/-- The test `brackets.empty() || brackets.top() != b` and the `pop` after it (lines 47-50
and 54-57): the stack without its top when the top is `b`, nothing otherwise. -/
def popBracket (b : Char) : List Char → Option (List Char)
  | [] => none
  | top :: rest => if top = b then some rest else none

/-- The character loop of `isCompleteJsonObject` (lines 27-60): `brackets` is the
`std::stack<char>` of open brackets, top first. Returning `false` inside the loop is the
early `return false`. -/
def isCompleteLoop : List Char → Bool → Bool → List Char → Bool
  | brackets, inString, _, [] => brackets.isEmpty && !inString
  | brackets, inString, escapeNext, c :: cs =>
    if escapeNext then isCompleteLoop brackets inString false cs
    else if c = '\\' then isCompleteLoop brackets inString true cs
    else if c = '"' then isCompleteLoop brackets (!inString) false cs
    else if inString then isCompleteLoop brackets inString false cs
    else if c = '{' then isCompleteLoop ('{' :: brackets) inString false cs
    else if c = '}' then
      match popBracket '{' brackets with
      | some rest => isCompleteLoop rest inString false cs
      | none => false
    else if c = '[' then isCompleteLoop ('[' :: brackets) inString false cs
    else if c = ']' then
      match popBracket '[' brackets with
      | some rest => isCompleteLoop rest inString false cs
      | none => false
    else isCompleteLoop brackets inString false cs

/-- Mirror of `isCompleteJsonObject`. -/
def isCompleteJsonObject (str : List Char) : Bool := isCompleteLoop [] false false str

/-! ## `parseJsonData` -/

/-- The two `std::runtime_error`s `parseJsonData` throws: "No valid JSON objects found in
input", and "Failed to parse JSON data: ..." for an exception that is not a `parse_error`. -/
inductive Failure where
  | noValidObjects
  | failedToParse
deriving DecidableEq

/-- Mirror of `MAX_LINES`. -/
def MAX_LINES : Nat := 10000

/-- Mirror of `MAX_OBJECTS`. -/
def MAX_OBJECTS : Nat := 1000

/-- The lines `std::getline` reads from a text: split at each line feed, the line feed
dropped; a text that ends in a line feed has no empty last line. -/
def getlines : List Char → List (List Char)
  | [] => []
  | c :: cs =>
    if c = '\n' then [] :: getlines cs
    else
      match getlines cs with
      | [] => [[c]]
      | l :: ls => (c :: l) :: ls

/-- Mirror of `line.find_first_not_of(" \t\r\n") == std::string::npos`. -/
def allBlank (line : List Char) : Bool :=
  line.all (fun c => c = ' ' || c = '\t' || c = '\r' || c = '\n')

/-- The line test of the NDJSON loop (lines 141-144): the line is skipped. -/
def isSkippedLine (line : List Char) : Bool :=
  line.isEmpty || allBlank line ||
  startsWith "HTTP/".toList line || startsWith "Server:".toList line ||
  startsWith "Date:".toList line || startsWith "Content-Type:".toList line ||
  startsWith "Content-Length:".toList line || startsWith "Connection:".toList line

/-- The local variables of the NDJSON scan. `braceCount` is the `int` of the source, here
without wrap-around. -/
structure Scan where
  users : List Json
  currentObject : List Char
  braceCount : Int
  inString : Bool
  escapeNext : Bool

/-- The local variables before the first line; `users` is empty, the array attempt having
kept nothing. -/
def Scan.init : Scan :=
  { users := [], currentObject := [], braceCount := 0, inString := false, escapeNext := false }

/-- The character loop over one line (lines 149-186). Returning before the end of the line
is the `break`. -/
def scanChars : Scan → List Char → Except Failure Scan
  | st, [] => .ok st
  | st, c :: cs =>
    if st.escapeNext then
      scanChars { st with currentObject := st.currentObject ++ [c], escapeNext := false } cs
    else if c = '\\' then
      scanChars { st with escapeNext := true, currentObject := st.currentObject ++ [c] } cs
    else
      let inString := if c = '"' then !st.inString else st.inString
      let braceCount :=
        if inString then st.braceCount
        else if c = '{' then st.braceCount + 1
        else if c = '}' then st.braceCount - 1
        else st.braceCount
      let currentObject := st.currentObject ++ [c]
      if braceCount = 0 ∧ inString = false ∧ currentObject ≠ [] then
        match jsonParse currentObject with
        | .ok user =>
          if user.is_object then
            let users := st.users ++ [user]
            if MAX_OBJECTS ≤ users.length then
              .ok { users := users, currentObject := [], braceCount := braceCount,
                    inString := inString, escapeNext := false }
            else
              scanChars { users := users, currentObject := [], braceCount := braceCount,
                          inString := inString, escapeNext := false } cs
          else
            scanChars { st with currentObject := currentObject, braceCount := braceCount,
                                inString := inString } cs
        | .error .parseError =>
          scanChars { st with currentObject := [], braceCount := braceCount,
                              inString := inString } cs
        | .error .outOfRange => .error .failedToParse
      else
        scanChars { st with currentObject := currentObject, braceCount := braceCount,
                            inString := inString } cs

/-- The line loop (lines 137-187): `lineCount` lines have been read before `lines`. -/
def scanLines : Scan → Nat → List (List Char) → Except Failure Scan
  | st, _, [] => .ok st
  | st, lineCount, line :: rest =>
    if lineCount < MAX_LINES ∧ st.users.length < MAX_OBJECTS then
      if isSkippedLine line then scanLines st (lineCount + 1) rest
      else
        match scanChars st line with
        | .ok st' => scanLines st' (lineCount + 1) rest
        | .error e => .error e
    else .ok st

/-- The parse of what is left in `currentObject` after the loop (lines 190-199). -/
def finalAttempt (st : Scan) : Except Failure (List Json) :=
  if st.currentObject ≠ [] then
    match jsonParse st.currentObject with
    | .ok user =>
      if user.is_object ∧ st.users.length < MAX_OBJECTS then .ok (st.users ++ [user])
      else .ok st.users
    | .error .parseError => .ok st.users
    | .error .outOfRange => .error .failedToParse
  else .ok st.users

/-- The whole-document attempt (lines 110-124): `some users` when it returns `users`,
`none` when the function goes on to the NDJSON scan. -/
def arrayAttempt (jsonStr : List Char) : Except Failure (Option (List Json)) :=
  match jsonParse jsonStr with
  | .ok (.arr items) =>
    let users := items.filter Json.is_object
    if users.isEmpty then .ok none else .ok (some users)
  | .ok _ => .ok none
  | .error .parseError => .ok none
  | .error .outOfRange => .error .failedToParse

/-- The NDJSON scan and the result policy (lines 126-209). -/
def ndjsonFallback (jsonStr : List Char) : Except Failure (List Json) :=
  match scanLines Scan.init 0 (getlines jsonStr) with
  | .error e => .error e
  | .ok st =>
    match finalAttempt st with
    | .error e => .error e
    | .ok users => if users.isEmpty then .error .noValidObjects else .ok users

/-- Mirror of `parseJsonData`. -/
def parseJsonData (jsonStr : List Char) : Except Failure (List Json) :=
  match arrayAttempt jsonStr with
  | .error e => .error e
  | .ok (some users) => .ok users
  | .ok none => ndjsonFallback jsonStr

/-! ## The three queries -/

/-- The `std::runtime_error`s of the queries: "No users provided for ...", "No hobbies
found in user data", "No users with friends found". -/
inductive StatsFailure where
  | noUsers
  | noHobbies
  | noFriends
deriving DecidableEq

/-- Mirror of `user.contains(key)` followed by `user[key]`: the member of an object with
that key; nothing for a value that is not an object or has no such member. -/
def Json.get? (key : List Char) : Json → Option Json
  | .obj members => members.lookup key
  | _ => none

/-- An IEEE 754 binary64 value, the `double` of the source. Every finite double is a whole
number of units of `2^-1074`, the smallest positive double: `finite neg units` is
`(-1)^neg * units * 2^-1074`, and `finite true 0` is `-0.0`. The arithmetic below is that
of the default floating-point environment: every operation returns the exact result
rounded to nearest, ties to even. -/
inductive Double where
  | finite (neg : Bool) (units : Nat)
  | inf (neg : Bool)
  | nan
deriving DecidableEq

/-- The double `+0.0`. -/
def Double.zero : Double := .finite false 0

/-- The number of low bits of a quotient `a / b` that do not fit in the 53 bits of a double:
the least `j` with `a / (b * 2^j) < 2^53`, that is the largest `j` that is 0 or has
`b * 2^(j + 52) ≤ a`; 2047 when it would be more. It is found by bisection: `j` holds the
binary digits fixed so far, `bits` digits are still to be fixed, from the top down. -/
def dropBits (a b : Nat) : Nat → Nat → Nat
  | 0, j => j
  | bits + 1, j =>
    if b <<< (j + (1 <<< bits) + 52) ≤ a then dropBits a b bits (j + (1 <<< bits))
    else dropBits a b bits j

/-- The whole number nearest to `a / b`, the even one of the two when `a / b` is halfway. -/
def roundHalfEven (a b : Nat) : Nat :=
  if 2 * (a % b) < b then a / b
  else if b < 2 * (a % b) then a / b + 1
  else if a / b % 2 = 0 then a / b
  else a / b + 1

/-- Rounding to nearest, ties to even, the default rounding of binary64 arithmetic: the
double nearest to `(-1)^neg * (a / b) * 2^-1074`. A double has 53 significant bits: the
`dropBits` low bits of the quotient are rounded away. A result of `2^2098` units
(`2^1024`) or more is an infinity; a result that rounds to 0 keeps its sign. -/
def roundNearestEven (neg : Bool) (a b : Nat) : Double :=
  let j := dropBits a b 11 0
  let units := roundHalfEven a (b <<< j) <<< j
  if units < 1 <<< 2098 then .finite neg units else .inf neg

/-- Mirror of `get<double>()` on a JSON number `mantissa * 10 ^ exp10`: the nearest double
(`static_cast<double>` of a literal stored as an integer, the `strtod` value of a literal
stored as a float). A literal `-0.0` is `num 0 e` and is read as `+0.0` here; the sign of a
zero age does not reach the result of `calculateAverageAge`, whose sum starts at `+0.0`. -/
def toDouble (mantissa exp10 : Int) : Double :=
  if 0 ≤ exp10 then
    roundNearestEven (decide (mantissa < 0)) ((mantissa.natAbs * 10 ^ exp10.toNat) <<< 1074) 1
  else
    roundNearestEven (decide (mantissa < 0)) (mantissa.natAbs <<< 1074) (10 ^ (-exp10).toNat)

/-- The `+` of two doubles: the exact sum rounded to nearest. Equal infinities add to
themselves, opposite infinities to a NaN; the sum of a value and its opposite is `+0.0`. -/
def Double.add : Double → Double → Double
  | .finite s a, .finite t b =>
    if s = t then roundNearestEven s (a + b) 1
    else if a = b then .finite false 0
    else if b < a then roundNearestEven s (a - b) 1
    else roundNearestEven t (b - a) 1
  | .finite _ _, .inf t => .inf t
  | .inf s, .finite _ _ => .inf s
  | .inf s, .inf t => if s = t then .inf s else .nan
  | .nan, _ => .nan
  | _, .nan => .nan

/-- The `sum / count` of line 231 for a positive `count`: the `int` is converted to a
double, without rounding as an `int` has fewer than 53 bits, and the exact quotient is
rounded to nearest. -/
def Double.divCount : Double → Nat → Double
  | .finite s a, count => roundNearestEven s a count
  | .inf s, _ => .inf s
  | .nan, _ => .nan

/-- Mirror of the test `0.0 <= x` on doubles (`EXPECT_GE(avgAge, 0.0)` in the tests): true
of both zeros, false of a NaN. -/
def Double.geZero : Double → Bool
  | .finite neg units => !neg || units == 0
  | .inf neg => !neg
  | .nan => false

/-- The test of line 221: the `age` member of a user when it is a number, as the pair of
the mantissa and the decimal exponent of the number. -/
def ageNumber (user : Json) : Option (Int × Int) :=
  match user.get? "age".toList with
  | some (.num m e) => some (m, e)
  | _ => none

/-- Mirror of the test of line 221 and the read of line 222: the age, as a double, of a
user that has a numeric `age`. -/
def ageOf (user : Json) : Option Double :=
  match ageNumber user with
  | some (m, e) => some (toDouble m e)
  | none => none

/-- The loop of lines 220-225 over `(sum, count)`. -/
def sumAges : Double × Nat → List Json → Double × Nat
  | acc, [] => acc
  | acc, user :: rest =>
    match ageOf user with
    | some a => sumAges (acc.1.add a, acc.2 + 1) rest
    | none => sumAges acc rest

/-- Mirror of `calculateAverageAge`. -/
def calculateAverageAge (users : List Json) : Except StatsFailure Double :=
  if users.isEmpty then .error .noUsers
  else
    let r := sumAges (Double.zero, 0) users
    if r.2 = 0 then .ok Double.zero else .ok (r.1.divCount r.2)

/-- Mirror of the test `user.contains("friends") && user["friends"].is_array()`: the
`friends` array of a user that has one. -/
def friendsOf (user : Json) : Option (List Json) :=
  match user.get? "friends".toList with
  | some (.arr friends) => some friends
  | _ => none

/-- The `hobbyCounts[hobby]++` of line 247 on the key-ordered `std::map<std::string, int>`:
a new key enters with count 1 at its place in the order, an existing key has its count
raised. -/
def incrCount (k : List Char) : List (List Char × Nat) → List (List Char × Nat)
  | [] => [(k, 1)]
  | (k', n) :: rest =>
    if strLt k k' then (k, 1) :: (k', n) :: rest
    else if strLt k' k then (k', n) :: incrCount k rest
    else (k', n + 1) :: rest

/-- The loop over the hobbies of one friend (lines 245-249). -/
def countHobbies : List (List Char × Nat) → List Json → List (List Char × Nat)
  | counts, [] => counts
  | counts, hobby :: rest =>
    match hobby with
    | .str s => countHobbies (incrCount s counts) rest
    | _ => countHobbies counts rest

/-- The loop over the friends of one user (lines 243-251). -/
def countFriends : List (List Char × Nat) → List Json → List (List Char × Nat)
  | counts, [] => counts
  | counts, friend_user :: rest =>
    match friend_user.get? "hobbies".toList with
    | some (.arr hobbies) => countFriends (countHobbies counts hobbies) rest
    | _ => countFriends counts rest

/-- The loop over the users (lines 241-253). -/
def countUsers : List (List Char × Nat) → List Json → List (List Char × Nat)
  | counts, [] => counts
  | counts, user :: rest =>
    match friendsOf user with
    | some friends => countUsers (countFriends counts friends) rest
    | none => countUsers counts rest

/-- The loop of `std::max_element` with the comparison `a.second < b.second`: the entry
kept is replaced only by an entry with a strictly larger count. -/
def maxElementFrom (largest : List Char × Nat) : List (List Char × Nat) → List Char × Nat
  | [] => largest
  | e :: rest => if largest.2 < e.2 then maxElementFrom e rest else maxElementFrom largest rest

/-- Mirror of `findMostCommonHobby`. -/
def findMostCommonHobby (users : List Json) : Except StatsFailure (List Char) :=
  if users.isEmpty then .error .noUsers
  else
    match countUsers [] users with
    | [] => .error .noHobbies
    | e :: rest => .ok (maxElementFrom e rest).1

/-- The loop of lines 275-279: the largest `friends` length met so far. -/
def maxFriendsFrom : Nat → List Json → Nat
  | maxFriends, [] => maxFriends
  | maxFriends, user :: rest =>
    match friendsOf user with
    | some friends => maxFriendsFrom (max maxFriends friends.length) rest
    | none => maxFriendsFrom maxFriends rest

/-- The test of lines 288-289: the user has a `friends` array of that length. -/
def hasFriendCount (n : Nat) (user : Json) : Bool :=
  match friendsOf user with
  | some friends => friends.length == n
  | none => false

/-- Mirror of `findUsersWithMostFriends`. -/
def findUsersWithMostFriends (users : List Json) : Except StatsFailure (List Json) :=
  if users.isEmpty then .error .noUsers
  else
    let maxFriends := maxFriendsFrom 0 users
    if maxFriends = 0 then .error .noFriends
    else .ok (users.filter (hasFriendCount maxFriends))

/-! ## Notions used in the proofs -/

/-- Number of object frames on the parser stack. -/
def countObj : List Frame → Int
  | [] => 0
  | .arr _ :: fs => countObj fs
  | .obj _ _ :: fs => countObj fs + 1

/-- The lexer is inside a string literal. -/
def Lex.inString : Lex → Bool
  | .inStr _ => true
  | .esc _ => true
  | .hex _ _ _ _ => true
  | .surr1 _ _ => true
  | .surr2 _ _ => true
  | _ => false

/-- The lexer has just read a backslash. -/
def Lex.escaped : Lex → Bool
  | .esc _ => true
  | .surr2 _ _ => true
  | _ => false

/-- The tracker update of lines 150-166, on the triple `(braceCount, inString, escapeNext)`. -/
def trackStep (t : Int × Bool × Bool) (c : Char) : Int × Bool × Bool :=
  if t.2.2 then (t.1, t.2.1, false)
  else if c = '\\' then (t.1, t.2.1, true)
  else
    let inString := if c = '"' then !t.2.1 else t.2.1
    (if inString then t.1 else if c = '{' then t.1 + 1 else if c = '}' then t.1 - 1 else t.1,
     inString, false)

/-- The tracker triple that corresponds to a parser state. -/
def trackerOf (ps : PState) : Int × Bool × Bool :=
  (countObj ps.stack, ps.lex.inString, ps.lex.escaped)


/-- Characters the tracker reacts to. -/
def isTracked (c : Char) : Bool := c = '\\' || c = '"' || c = '{' || c = '}'


/-- The successful cases of `stepIdle`, one constructor for each. -/
inductive IdleStep (ps : PState) : Char → PState → Prop where
  | ws (c : Char) : isJsonWs c = true → IdleStep ps c ps
  | openObj : ps.expect.wantsValue = true →
      IdleStep ps '{' { stack := .obj [] [] :: ps.stack, expect := .keyOrClose, lex := .idle }
  | closeObj (ms : List (List Char × Json)) (k : List Char) (fs : List Frame) :
      ps.stack = .obj ms k :: fs → (ps.expect = .keyOrClose ∨ ps.expect = .commaOrClose) →
      IdleStep ps '}' (deliver fs (.obj ms))
  | openArr : ps.expect.wantsValue = true →
      IdleStep ps '[' { stack := .arr [] :: ps.stack, expect := .valueOrClose, lex := .idle }
  | closeArr (items : List Json) (fs : List Frame) :
      ps.stack = .arr items :: fs → (ps.expect = .valueOrClose ∨ ps.expect = .commaOrClose) →
      IdleStep ps ']' (deliver fs (.arr items.reverse))
  | colon : ps.expect = .colon → IdleStep ps ':' { ps with expect := .value }
  | commaArr (items : List Json) (fs : List Frame) :
      ps.stack = .arr items :: fs → ps.expect = .commaOrClose →
      IdleStep ps ',' { ps with expect := .value }
  | commaObj (ms : List (List Char × Json)) (k : List Char) (fs : List Frame) :
      ps.stack = .obj ms k :: fs → ps.expect = .commaOrClose →
      IdleStep ps ',' { ps with expect := .key }
  | quote : (ps.expect.wantsValue = true ∨ ps.expect.wantsKey = true) →
      IdleStep ps '"' { ps with lex := .inStr [] }
  | litTrue : ps.expect.wantsValue = true →
      IdleStep ps 't' { ps with lex := .lit .ltrue 1 }
  | litFalse : ps.expect.wantsValue = true →
      IdleStep ps 'f' { ps with lex := .lit .lfalse 1 }
  | litNull : ps.expect.wantsValue = true →
      IdleStep ps 'n' { ps with lex := .lit .lnull 1 }
  | numStart (c : Char) (a : NumAcc) : ps.expect.wantsValue = true →
      (c = '-' ∨ isDigit c = true) → IdleStep ps c { ps with lex := .number a }


/-- The three shapes of a JSON value the extractor tells apart. -/
inductive Kind where
  | object | array | scalar
deriving DecidableEq

/-- Shape of a value. -/
def Json.kind : Json → Kind
  | .obj _ => .object
  | .arr _ => .array
  | _ => .scalar

/-- Shape of the container a frame builds. -/
def Frame.kind : Frame → Kind
  | .obj _ _ => .object
  | .arr _ => .array

/-- Shape of the outermost open container. -/
def bottomKind : List Frame → Option Kind
  | [] => none
  | f :: fs =>
    match bottomKind fs with
    | some k => some k
    | none => some f.kind

/-- Shape of the top-level value, once the parser has seen its first character. -/
def stateKind (ps : PState) : Option Kind :=
  match bottomKind ps.stack with
  | some k => some k
  | none =>
    match ps.expect with
    | .done v => some v.kind
    | _ =>
      match ps.lex with
      | .idle => none
      | _ => some .scalar

/-- A state that holds a result has an empty stack and an idle lexer. -/
def PState.wf (ps : PState) : Prop :=
  ∀ v, ps.expect = .done v → ps.stack = [] ∧ ps.lex = .idle

/-- Run the machine from a state to the end of a text. -/
def finishRun (ps : PState) (s : List Char) : Except PErr Json :=
  match run ps s with
  | .ok pf => finish pf
  | .error e => .error e

/-- The scan between two candidates: empty buffer, tracker at rest. -/
def Scan.clean (users : List Json) : Scan :=
  { users := users, currentObject := [], braceCount := 0, inString := false, escapeNext := false }

/-- The scan after one more character that does not complete a candidate. -/
def Scan.push (st : Scan) (c : Char) : Scan :=
  let t := trackStep (st.braceCount, st.inString, st.escapeNext) c
  { users := st.users, currentObject := st.currentObject ++ [c], braceCount := t.1,
    inString := t.2.1, escapeNext := t.2.2 }

/-- The scan is inside a candidate that started with `{`: the buffer is accepted so far by
the parser, the top-level object is still open, and the tracker agrees with the parser. -/
structure InObj (st : Scan) (pb : PState) : Prop where
  hrun : run PState.init st.currentObject = .ok pb
  hhead : ∃ t, st.currentObject = '{' :: t
  hopen : bottomKind pb.stack = some .object
  htrack : trackerOf pb = (st.braceCount, st.inString, st.escapeNext)

/-- The object a line holds, when the line parses to an object. -/
def lineObject (line : List Char) : Option Json :=
  match jsonParse line with
  | .ok (.obj m) => some (.obj m)
  | _ => none

/-- The objects of a sequence of lines, in order. -/
def lineObjects (lines : List (List Char)) : List Json := lines.filterMap lineObject

/-- The state after an opening brace at the start of a text. -/
def PState.afterBrace : PState :=
  { stack := [.obj [] []], expect := .keyOrClose, lex := .idle }

/-- First letters of the lines the loop skips as HTTP noise. -/
def isHeaderStart (c : Char) : Bool := c = 'H' || c = 'S' || c = 'D' || c = 'C'

/-- The text whose lines are `lines`, each line ended by a line feed. -/
def joinLines : List (List Char) → List Char
  | [] => []
  | l :: ls => l ++ '\n' :: joinLines ls

/-- A parse that ends in failure with `parse_error`, or in an object. -/
def ObjOrErr (r : Except PErr Json) : Prop :=
  r = .error .parseError ∨ ∃ m, r = .ok (.obj m)

/-- A noise line as the specification lists it: blank, an HTTP status line, or a line that
starts with one of the five header names. -/
def isNoiseLine (line : List Char) : Bool :=
  allBlank line || isHttpErrorResponse line ||
  startsWith "Server:".toList line || startsWith "Date:".toList line ||
  startsWith "Content-Type:".toList line || startsWith "Content-Length:".toList line ||
  startsWith "Connection:".toList line

/-- The text the character loop reads: the lines that are not skipped, one after the other,
without the line feeds. -/
def stripLines : List (List Char) → List Char
  | [] => []
  | l :: ls => if isSkippedLine l then stripLines ls else l ++ stripLines ls

/-- The parser state `po` after a line feed and the state `pb` without it accept the same
continuations: they are equal, or `pb` holds a number that the line feed has ended. -/
def LineFeedRel (po pb : PState) : Prop :=
  po = pb ∨ ∃ a, pb.lex = .number a ∧ deliverNumber pb a = .ok po

/-- A response with a status line, a header, a blank line and the same object twice. -/
def ndjsonSample : List Char :=
  "HTTP/1.1 200 OK\nServer: x\n\n\x7b\"a\":1\x7d\n\x7b\"a\":1\x7d\n".toList

/-- A text of 1,001 lines, each the empty object. -/
def manyObjectLines : List Char := joinLines (List.replicate 1001 ['{', '}'])

/-- An object written over six lines, one of them empty, with an array broken after a
number. -/
def multilineSample : List Char :=
  "\x7b\n \"a\" : [1,\n2],\n\n \"b\":1\n\x7d\n".toList

/-- A response that holds only a status line, a blank line and a header. -/
def noiseSample : List Char := "HTTP/1.1 404 Not Found\n\nConnection: close\n".toList

/-- A JSON array of 1,001 empty objects, on one line. -/
def manyObjectsArray : List Char :=
  '[' :: (List.replicate 1000 ['{', '}', ',']).flatten ++ ['{', '}', ']']

/-- The inline tracker of the NDJSON scan fed a whole text from its initial state. -/
def inlineTrack (s : List Char) : Int × Bool × Bool := s.foldl trackStep (0, false, false)

/-- The completion condition of the inline tracker after a text: nesting count 0 and not
inside a string. -/
def inlineComplete (s : List Char) : Bool :=
  decide ((inlineTrack s).1 = 0) && !(inlineTrack s).2.1

/-- Number of `{` on the bracket stack. -/
def braceDepth : List Char → Int
  | [] => 0
  | b :: rest => if b = '{' then braceDepth rest + 1 else braceDepth rest

/-- One of the four bracket characters. -/
def isBracket (c : Char) : Bool := c = '{' || c = '}' || c = '[' || c = ']'

/-- Well-nested bracket words: `W ::= empty | { W } W | [ W ] W`. -/
inductive WellNested : List Char → Prop where
  | nil : WellNested []
  | brace {w v : List Char} : WellNested w → WellNested v → WellNested ('{' :: w ++ '}' :: v)
  | bracket {w v : List Char} : WellNested w → WellNested v →
      WellNested ('[' :: w ++ ']' :: v)

/-- The closing bracket that pops an opening bracket. -/
def closer (b : Char) : Char := if b = '{' then '}' else ']'

/-- The text closes the open brackets of the stack, innermost first, with well-nested
words in between, and ends well-nested. -/
def Closes : List Char → List Char → Prop
  | [], s => WellNested s
  | b :: rest, s => ∃ w s', WellNested w ∧ s = w ++ closer b :: s' ∧ Closes rest s'

/-- The state `ps` of a parse that started at top level, seen as the state of the same parse
started inside the open containers `base`. -/
def liftState (base : List Frame) (ps : PState) : PState :=
  match ps.expect with
  | .done v => deliver base v
  | _ => { stack := ps.stack ++ base, expect := ps.expect, lex := ps.lex }

/-- The texts `o1`, ..., `ok` with a comma between each two. -/
def joinComma : List (List Char) → List Char
  | [] => []
  | o :: rest =>
    match rest with
    | [] => o
    | _ :: _ => o ++ ',' :: joinComma rest

/-- The parser inside the open array of an unfinished array text: `items` read so far. -/
def PState.inArray (items : List Json) (e : Expect) : PState :=
  { stack := [.arr items], expect := e, lex := .idle }

/-- The hobby strings of one `hobbies` array, in order; entries that are not strings are
left out. -/
def hobbyStrings : List Json → List (List Char)
  | [] => []
  | hobby :: rest =>
    match hobby with
    | .str s => s :: hobbyStrings rest
    | _ => hobbyStrings rest

/-- The hobby strings of one friend; none when `hobbies` is missing or not an array. -/
def friendHobbies (friend_user : Json) : List (List Char) :=
  match friend_user.get? "hobbies".toList with
  | some (.arr hobbies) => hobbyStrings hobbies
  | _ => []

/-- The hobby strings of a list of friends, friend after friend. -/
def friendsHobbies : List Json → List (List Char)
  | [] => []
  | friend_user :: rest => friendHobbies friend_user ++ friendsHobbies rest

/-- The hobby strings of one user; none when `friends` is missing or not an array. -/
def userHobbies (user : Json) : List (List Char) :=
  match friendsOf user with
  | some friends => friendsHobbies friends
  | none => []

/-- Every occurrence of a hobby string in the input, in the order of a left-to-right scan:
users in order, the friends of each user in order, the hobbies of each friend in order. -/
def allHobbies : List Json → List (List Char)
  | [] => []
  | user :: rest => userHobbies user ++ allHobbies rest

/-- The count table after `hobbyCounts[s]++` for each string of a list, in order. -/
def tally : List (List Char × Nat) → List (List Char) → List (List Char × Nat)
  | counts, [] => counts
  | counts, s :: rest => tally (incrCount s counts) rest

/-- The count a table holds for a string, 0 when the string is not a key. -/
def countOf (s : List Char) : List (List Char × Nat) → Nat
  | [] => 0
  | e :: rest => if e.1 = s then e.2 else countOf s rest

/-- The keys of a table are in strictly ascending order. -/
def KeySorted (counts : List (List Char × Nat)) : Prop :=
  counts.Pairwise (fun a b => strLt a.1 b.1 = true)

/-- The string a scan in input order would pick: the first occurrence whose number of
occurrences is maximal. -/
def firstEncounteredMode (l : List (List Char)) : Option (List Char) :=
  l.find? (fun s => l.all (fun t => decide (l.count t ≤ l.count s)))

/-- The users `[{age:10},{age:20},{}]`. -/
def ageSample : List Json :=
  [.obj [("age".toList, .num 10 0)], .obj [("age".toList, .num 20 0)], .obj []]

/-- The users `[{friends:[1,2]},{friends:[1]},{friends:[3,4]}]`. -/
def friendsSample : List Json :=
  [.obj [("friends".toList, .arr [.num 1 0, .num 2 0])],
   .obj [("friends".toList, .arr [.num 1 0])],
   .obj [("friends".toList, .arr [.num 3 0, .num 4 0])]]

/-- One user whose only friend has the hobbies `["b","a"]`. -/
def tieSample : List Json :=
  [.obj [("friends".toList, .arr [.obj [("hobbies".toList,
    .arr [.str "b".toList, .str "a".toList])]])]]

/-- One user whose only friend has the single hobby `""`. -/
def emptyHobbySample : List Json :=
  [.obj [("friends".toList, .arr [.obj [("hobbies".toList, .arr [.str []])]])]]

/-- Users with malformed fields around two friends with hobbies: a user without `friends`,
a user whose `friends` is a number, a friend that is a number, a friend whose `hobbies` is a
string, and hobbies that are not strings. -/
def malformedSample : List Json :=
  [.obj [],
   .obj [("friends".toList, .num 3 0)],
   .obj [("friends".toList, .arr [.num 1 0, .obj [("hobbies".toList, .str "x".toList)],
     .obj [("hobbies".toList, .arr [.num 7 0, .str "chess".toList, .null])],
     .obj [("hobbies".toList, .arr [.str "go".toList, .str "chess".toList])]])]]

/-- The exact rational a JSON number `mantissa * 10 ^ exp10` denotes: the "exact rational
age" of the specification, before any rounding to a double. -/
def exactValue (mantissa exp10 : Int) : ℚ := (mantissa : ℚ) * (10 : ℚ) ^ exp10

/-- The exact rational ages of the users that have a numeric `age`, in order. -/
def exactAges (users : List Json) : List ℚ :=
  (users.filterMap ageNumber).map (fun p => exactValue p.1 p.2)

/-- The arithmetic mean of the specification: the sum of the exact rational ages divided
by their number. -/
def exactMean (users : List Json) : ℚ := (exactAges users).sum / ((exactAges users).length : ℚ)

/-- The rational a double stands for, `(-1)^neg * units / 2^1074`; none for an infinity and
for a NaN. -/
def Double.toRat : Double → Option ℚ
  | .finite neg units =>
    some (if neg then -((units : ℚ) / ((1 <<< 1074 : Nat) : ℚ))
      else (units : ℚ) / ((1 <<< 1074 : Nat) : ℚ))
  | _ => none

/-- The sign bit of a double is clear and the double is not a NaN. -/
def Double.signClear : Double → Bool
  | .finite neg _ => !neg
  | .inf neg => !neg
  | .nan => false

/-- The sum of the ages of users whose ages are non-negative integer literals. -/
def natAgeSum (users : List Json) : Nat :=
  ((users.filterMap ageNumber).map (fun p => p.1.toNat)).sum

/-- The users `[{age:0.1},{age:0.2}]`. -/
def decimalSample : List Json :=
  [.obj [("age".toList, .num 1 (-1))], .obj [("age".toList, .num 2 (-1))]]

/-- Two users of age 1e308, the number written with a mantissa of 53 digits and the
exponent 256. -/
def overflowSample : List Json :=
  [.obj [("age".toList, .num 10000000000000000000000000000000000000000000000000000 256)],
   .obj [("age".toList, .num 10000000000000000000000000000000000000000000000000000 256)]]

/-! ## The parser and the tracker -/

theorem countObj_nonneg (fs : List Frame) : 0 ≤ countObj fs := by
  induction fs with
  | nil => simp [countObj]
  | cons f fs ih => cases f <;> simp [countObj] <;> omega

theorem deliver_stack_count (fs : List Frame) (v : Json) :
    countObj (deliver fs v).stack = countObj fs := by
  cases fs with
  | nil => rfl
  | cons f fs => cases f <;> rfl

theorem deliver_lex (fs : List Frame) (v : Json) : (deliver fs v).lex = .idle := by
  cases fs with
  | nil => rfl
  | cons f fs => cases f <;> rfl

theorem trackerOf_deliver (fs : List Frame) (v : Json) :
    trackerOf (deliver fs v) = (countObj fs, false, false) := by
  simp [trackerOf, deliver_stack_count, deliver_lex, Lex.inString, Lex.escaped]

theorem isDigit_toNat {c : Char} (h : isDigit c = true) : 48 ≤ c.toNat ∧ c.toNat ≤ 57 := by
  simpa [isDigit] using h

theorem trackStep_untracked {c : Char} (h : isTracked c = false) (n : Int) (b : Bool) :
    trackStep (n, b, false) c = (n, b, false) := by
  simp [isTracked] at h
  simp [trackStep, h]

theorem isDigit_untracked {c : Char} (h : isDigit c = true) : isTracked c = false := by
  have h' := isDigit_toNat h
  simp only [isTracked, Bool.or_eq_false_iff, decide_eq_false_iff_not]
  refine ⟨⟨⟨?_, ?_⟩, ?_⟩, ?_⟩ <;> (intro hc; subst hc; revert h'; decide)

theorem isJsonWs_untracked {c : Char} (h : isJsonWs c = true) : isTracked c = false := by
  simp [isJsonWs] at h
  rcases h with ((h | h) | h) | h <;> subst h <;> decide

theorem numStep_untracked {a a' : NumAcc} {c : Char} (h : numStep a c = some a') :
    isTracked c = false := by
  unfold numStep at h
  split at h <;> (repeat' split at h) <;> first
    | contradiction
    | exact isDigit_untracked ‹_›
    | (subst_vars; decide)
    | (rename_i hc; rcases hc with hc | hc <;> subst hc <;> decide)

theorem stepIdle_cases {ps ps' : PState} {c : Char} (h : stepIdle ps c = .ok ps') :
    IdleStep ps c ps' := by
  unfold stepIdle at h
  by_cases hw : isJsonWs c = true
  · rw [if_pos hw] at h
    cases h
    exact .ws c hw
  rw [if_neg hw] at h
  by_cases h1 : c = '{'
  · rw [if_pos h1] at h
    subst h1
    split at h
    · cases h
      exact .openObj ‹_›
    · cases h
  rw [if_neg h1] at h
  by_cases h2 : c = '}'
  · rw [if_pos h2] at h
    subst h2
    split at h <;> cases h
    · exact .closeObj _ _ _ ‹_› (Or.inl ‹_›)
    · exact .closeObj _ _ _ ‹_› (Or.inr ‹_›)
  rw [if_neg h2] at h
  by_cases h3 : c = '['
  · rw [if_pos h3] at h
    subst h3
    split at h
    · cases h
      exact .openArr ‹_›
    · cases h
  rw [if_neg h3] at h
  by_cases h4 : c = ']'
  · rw [if_pos h4] at h
    subst h4
    split at h <;> cases h
    · exact .closeArr _ _ ‹_› (Or.inl ‹_›)
    · exact .closeArr _ _ ‹_› (Or.inr ‹_›)
  rw [if_neg h4] at h
  by_cases h5 : c = ':'
  · rw [if_pos h5] at h
    subst h5
    split at h <;> cases h
    exact .colon ‹_›
  rw [if_neg h5] at h
  by_cases h6 : c = ','
  · rw [if_pos h6] at h
    subst h6
    split at h <;> cases h
    · exact .commaArr _ _ ‹_› ‹_›
    · exact .commaObj _ _ _ ‹_› ‹_›
  rw [if_neg h6] at h
  by_cases h7 : c = '"'
  · rw [if_pos h7] at h
    subst h7
    split at h <;> cases h
    rename_i hq
    exact .quote (by simpa using hq)
  rw [if_neg h7] at h
  split at h
  · rename_i hv
    by_cases c1 : c = 't'
    · rw [if_pos c1] at h; subst c1; cases h; exact .litTrue hv
    rw [if_neg c1] at h
    by_cases c2 : c = 'f'
    · rw [if_pos c2] at h; subst c2; cases h; exact .litFalse hv
    rw [if_neg c2] at h
    by_cases c3 : c = 'n'
    · rw [if_pos c3] at h; subst c3; cases h; exact .litNull hv
    rw [if_neg c3] at h
    by_cases c4 : c = '-'
    · rw [if_pos c4] at h; subst c4; cases h; exact .numStart _ _ hv (Or.inl rfl)
    rw [if_neg c4] at h
    by_cases c5 : c = '0'
    · rw [if_pos c5] at h; subst c5; cases h; exact .numStart _ _ hv (Or.inr (by decide))
    rw [if_neg c5] at h
    by_cases c6 : isDigit c = true
    · rw [if_pos c6] at h; cases h
      exact .numStart _ _ hv (Or.inr c6)
    rw [if_neg c6] at h
    cases h
  · cases h

theorem stepIdle_track {ps ps' : PState} {c : Char} (hl : ps.lex = .idle)
    (h : stepIdle ps c = .ok ps') :
    trackerOf ps' = trackStep (countObj ps.stack, false, false) c := by
  obtain ⟨stack, expect, lex⟩ := ps
  simp only at hl
  subst hl
  cases stepIdle_cases h with
  | ws c hw => rw [trackStep_untracked (isJsonWs_untracked hw)]; rfl
  | numStart c a _ hc =>
    have : isTracked c = false := by
      rcases hc with hc | hc
      · subst hc; decide
      · exact isDigit_untracked hc
    rw [trackStep_untracked this]; rfl
  | closeObj ms k fs hs _ =>
    rw [trackerOf_deliver]; simp only at hs; subst hs; simp [trackStep, countObj]
  | closeArr items fs hs _ =>
    rw [trackerOf_deliver]; simp only at hs; subst hs; simp [trackStep, countObj]
  | _ => simp_all [trackerOf, trackStep, countObj, Lex.inString, Lex.escaped]

theorem deliverValue_ok {ps ps' : PState} {v : Json} (h : deliverValue ps v = .ok ps') :
    ps.expect.wantsValue = true ∧ ps' = deliver ps.stack v := by
  unfold deliverValue at h
  split at h
  · cases h; exact ⟨‹_›, rfl⟩
  · cases h

theorem deliverString_track {ps ps' : PState} {s : List Char}
    (h : deliverString ps s = .ok ps') :
    trackerOf ps' = (countObj ps.stack, false, false) := by
  unfold deliverString at h
  split at h
  · rw [(deliverValue_ok h).2]; exact trackerOf_deliver _ _
  · split at h
    · split at h <;> cases h
      simp_all [trackerOf, countObj, Lex.inString, Lex.escaped]
    · cases h

theorem deliverNumber_track {ps ps' : PState} {a : NumAcc}
    (h : deliverNumber ps a = .ok ps') :
    trackerOf ps' = (countObj ps.stack, false, false) ∧ ps'.lex = .idle := by
  unfold deliverNumber at h
  split at h
  · split at h
    · split at h
      · cases h
      · rw [(deliverValue_ok h).2]; exact ⟨trackerOf_deliver _ _, deliver_lex _ _⟩
    · cases h
  · cases h

theorem hexVal_untracked {c : Char} {d : Nat} (h : hexVal c = some d) : isTracked c = false := by
  simp only [isTracked, Bool.or_eq_false_iff, decide_eq_false_iff_not]
  refine ⟨⟨⟨?_, ?_⟩, ?_⟩, ?_⟩ <;> (intro hc; subst hc; revert h; simp [hexVal])

theorem litText_untracked {k : LitKind} {n : Nat} {c : Char} (h : k.text.get? n = some c) :
    isTracked c = false := by
  cases k <;> (rcases n with _ | _ | _ | _ | _ | n) <;> simp [LitKind.text] at h <;>
    subst h <;> decide

/-- The tracker of the NDJSON scan follows the lexer and the object nesting of the parser,
as long as the parser accepts the text. -/
theorem step_track {ps ps' : PState} {c : Char} (h : step ps c = .ok ps') :
    trackerOf ps' = trackStep (trackerOf ps) c := by
  obtain ⟨stack, expect, lex⟩ := ps
  cases lex with
  | idle => exact stepIdle_track rfl h
  | inStr acc =>
    simp only [step] at h
    split at h
    · subst_vars
      rw [deliverString_track h]
      simp [trackerOf, trackStep, Lex.inString, Lex.escaped]
    · split at h
      · subst_vars; cases h
        simp [trackerOf, trackStep, Lex.inString, Lex.escaped]
      · split at h <;> cases h
        simp_all [trackerOf, trackStep, Lex.inString, Lex.escaped]
  | esc acc =>
    simp only [step] at h
    split at h
    · cases h; simp [trackerOf, trackStep, Lex.inString, Lex.escaped]
    · split at h <;> cases h
      simp [trackerOf, trackStep, Lex.inString, Lex.escaped]
  | hex acc hi n v =>
    simp only [step] at h
    split at h
    · cases h
    · rename_i d hd
      have hu : isTracked c = false := hexVal_untracked hd
      rw [show trackerOf { stack := stack, expect := expect, lex := Lex.hex acc hi n v }
          = (countObj stack, true, false) from rfl, trackStep_untracked hu]
      split at h
      · cases h; rfl
      · unfold hexDone at h
        split at h
        · split at h
          · cases h; rfl
          · split at h <;> cases h
            rfl
        · split at h <;> cases h
          rfl
  | surr1 acc hi =>
    simp only [step] at h
    split at h <;> cases h
    subst_vars
    simp [trackerOf, trackStep, Lex.inString, Lex.escaped]
  | surr2 acc hi =>
    simp only [step] at h
    split at h <;> cases h
    simp [trackerOf, trackStep, Lex.inString, Lex.escaped]
  | number a =>
    simp only [step] at h
    split at h
    · cases h
      rename_i a' ha
      rw [show trackerOf { stack := stack, expect := expect, lex := Lex.number a }
          = (countObj stack, false, false) from rfl, trackStep_untracked (numStep_untracked ha)]
      rfl
    · split at h
      · rename_i pd hpd
        have hd := deliverNumber_track hpd
        rw [stepIdle_track hd.2 h]
        have := congrArg Prod.fst hd.1
        simp only [trackerOf] at this
        rw [this]
        rfl
      · cases h
  | lit k n =>
    simp only [step] at h
    split at h
    · cases h
    · split at h
      · rename_i r hr hc
        subst hc
        rw [show trackerOf { stack := stack, expect := expect, lex := Lex.lit k n }
          = (countObj stack, false, false) from rfl, trackStep_untracked (litText_untracked hr)]
        split at h
        · rw [(deliverValue_ok h).2]; exact trackerOf_deliver _ _
        · cases h; rfl
      · cases h
theorem run_append (ps : PState) (a b : List Char) :
    run ps (a ++ b) = match run ps a with
      | .ok p => run p b
      | .error e => .error e := by
  induction a generalizing ps with
  | nil => rfl
  | cons c cs ih =>
    simp only [List.cons_append, run]
    cases step ps c with
    | ok p => exact ih p
    | error e => rfl

theorem run_snoc {ps p : PState} {a : List Char} (h : run ps a = .ok p) (c : Char) :
    run ps (a ++ [c]) = step p c := by
  rw [run_append, h]
  simp only [run]
  cases step p c <;> rfl

theorem bottomKind_cons_of_kind (f f' : Frame) (fs : List Frame) (h : f'.kind = f.kind) :
    bottomKind (f' :: fs) = bottomKind (f :: fs) := by
  simp [bottomKind, h]

theorem stateKind_deliver (fs : List Frame) (v : Json) :
    stateKind (deliver fs v) =
      match bottomKind fs with
      | some k => some k
      | none => some v.kind := by
  cases fs with
  | nil => rfl
  | cons f fs =>
    cases f with
    | arr items =>
      simp only [deliver, stateKind, bottomKind]
      cases bottomKind fs <;> rfl
    | obj ms k =>
      simp only [deliver, stateKind, bottomKind]
      cases bottomKind fs <;> rfl

theorem wf_deliver (fs : List Frame) (v : Json) : (deliver fs v).wf := by
  intro w hw
  cases fs with
  | nil => exact ⟨rfl, rfl⟩
  | cons f fs => cases f <;> cases hw

theorem stepIdle_wf {ps ps' : PState} {c : Char} (hwf : ps.wf)
    (h : stepIdle ps c = .ok ps') : ps'.wf := by
  cases stepIdle_cases h with
  | ws c hw => exact hwf
  | closeObj ms k fs hs _ => exact wf_deliver _ _
  | closeArr items fs hs _ => exact wf_deliver _ _
  | _ => intro w hw; first | cases hw | (simp_all [Expect.wantsValue, Expect.wantsKey])

theorem stepIdle_kind {ps ps' : PState} {c : Char} {k : Kind} (hl : ps.lex = .idle)
    (hk : stateKind ps = some k) (h : stepIdle ps c = .ok ps') : stateKind ps' = some k := by
  obtain ⟨stack, expect, lex⟩ := ps
  simp only at hl
  subst hl
  cases stepIdle_cases h with
  | ws c hw => exact hk
  | closeObj ms key fs hs _ =>
    simp only at hs; subst hs
    rw [stateKind_deliver]
    simp only [stateKind, bottomKind] at hk
    cases hb : bottomKind fs <;> simp_all [Frame.kind, Json.kind]
  | closeArr items fs hs _ =>
    simp only at hs; subst hs
    rw [stateKind_deliver]
    simp only [stateKind, bottomKind] at hk
    cases hb : bottomKind fs <;> simp_all [Frame.kind, Json.kind]
  | _ =>
    simp only [stateKind, bottomKind] at hk ⊢
    cases hb : bottomKind stack <;> cases expect <;>
      simp_all [Expect.wantsValue, Expect.wantsKey, bottomKind]
theorem deliverString_cases {ps ps' : PState} {s : List Char}
    (h : deliverString ps s = .ok ps') :
    (ps.expect.wantsValue = true ∧ ps' = deliver ps.stack (.str s)) ∨
    (ps.expect.wantsKey = true ∧ ∃ ms k fs, ps.stack = .obj ms k :: fs ∧
      ps' = { stack := .obj ms s :: fs, expect := .colon, lex := .idle }) := by
  unfold deliverString at h
  split at h
  · exact Or.inl (deliverValue_ok h)
  · split at h
    · split at h <;> cases h
      exact Or.inr ⟨‹_›, _, _, _, ‹_›, rfl⟩
    · cases h

theorem deliverNumber_ok {ps ps' : PState} {a : NumAcc} (h : deliverNumber ps a = .ok ps') :
    ps.expect.wantsValue = true ∧ ps' = deliver ps.stack (.num a.mantissa a.exp10) := by
  unfold deliverNumber at h
  split at h
  · split at h
    · split at h
      · cases h
      · exact deliverValue_ok h
    · cases h
  · cases h

/-- The successful cases of `step` outside the idle lexer state: either the lexer moves to
another non-idle state, with stack and expectation unchanged, or a scalar token ends. -/
theorem step_cases {ps ps' : PState} {c : Char} (hl : ps.lex ≠ .idle)
    (h : step ps c = .ok ps') :
    (ps'.stack = ps.stack ∧ ps'.expect = ps.expect ∧ ps'.lex ≠ .idle) ∨
    (∃ s, deliverString ps s = .ok ps') ∨
    (∃ v, v.kind = .scalar ∧ ps.expect.wantsValue = true ∧ ps' = deliver ps.stack v) ∨
    (∃ a pd, ps.lex = .number a ∧ numStep a c = none ∧ deliverNumber ps a = .ok pd ∧
      stepIdle pd c = .ok ps') := by
  obtain ⟨stack, expect, lex⟩ := ps
  cases lex with
  | idle => exact absurd rfl hl
  | inStr acc =>
    simp only [step] at h
    split at h
    · exact Or.inr (Or.inl ⟨_, h⟩)
    · split at h
      · cases h; exact Or.inl ⟨rfl, rfl, by simp⟩
      · split at h <;> cases h
        exact Or.inl ⟨rfl, rfl, by simp⟩
  | esc acc =>
    simp only [step] at h
    split at h
    · cases h; exact Or.inl ⟨rfl, rfl, by simp⟩
    · split at h <;> cases h
      exact Or.inl ⟨rfl, rfl, by simp⟩
  | hex acc hi n v =>
    simp only [step] at h
    split at h
    · cases h
    · split at h
      · cases h; exact Or.inl ⟨rfl, rfl, by simp⟩
      · unfold hexDone at h
        split at h
        · split at h
          · cases h; exact Or.inl ⟨rfl, rfl, by simp⟩
          · split at h <;> cases h
            exact Or.inl ⟨rfl, rfl, by simp⟩
        · split at h <;> cases h
          exact Or.inl ⟨rfl, rfl, by simp⟩
  | surr1 acc hi =>
    simp only [step] at h
    split at h <;> cases h
    exact Or.inl ⟨rfl, rfl, by simp⟩
  | surr2 acc hi =>
    simp only [step] at h
    split at h <;> cases h
    exact Or.inl ⟨rfl, rfl, by simp⟩
  | number a =>
    simp only [step] at h
    split at h
    · cases h; exact Or.inl ⟨rfl, rfl, by simp⟩
    · split at h
      · exact Or.inr (Or.inr (Or.inr ⟨a, _, rfl, ‹_›, ‹_›, h⟩))
      · cases h
  | lit k n =>
    simp only [step] at h
    split at h
    · cases h
    · split at h
      · split at h
        · have := deliverValue_ok h
          refine Or.inr (Or.inr (Or.inl ⟨k.value, ?_, this⟩))
          cases k <;> rfl
        · cases h; exact Or.inl ⟨rfl, rfl, by simp⟩
      · cases h

theorem step_wf {ps ps' : PState} {c : Char} (hwf : ps.wf) (h : step ps c = .ok ps') :
    ps'.wf := by
  by_cases hl : ps.lex = .idle
  · have : step ps c = stepIdle ps c := by
      obtain ⟨stack, expect, lex⟩ := ps
      simp only at hl; subst hl; rfl
    rw [this] at h
    exact stepIdle_wf hwf h
  · rcases step_cases hl h with ⟨hs, he, hl'⟩ | ⟨s, hs⟩ | ⟨v, _, _, hv⟩ | ⟨a, pd, _, _, hd, hi⟩
    · intro w hw
      rw [he] at hw
      exact absurd (hwf w hw).2 hl
    · rcases deliverString_cases hs with ⟨_, hv⟩ | ⟨_, ms, k, fs, _, hv⟩
      · rw [hv]; exact wf_deliver _ _
      · rw [hv]; intro w hw; cases hw
    · rw [hv]; exact wf_deliver _ _
    · have := (deliverNumber_ok hd).2
      exact stepIdle_wf (this ▸ wf_deliver _ _) hi

theorem stateKind_scalar_start {ps : PState} {k : Kind} (hl : ps.lex ≠ .idle)
    (hv : ps.expect.wantsValue = true) (hk : stateKind ps = some k) (v : Json)
    (hs : v.kind = .scalar) : stateKind (deliver ps.stack v) = some k := by
  rw [stateKind_deliver]
  obtain ⟨stack, expect, lex⟩ := ps
  simp only [stateKind] at hk
  cases hb : bottomKind stack <;> cases expect <;> cases lex <;>
    simp_all [Expect.wantsValue]

theorem step_kind {ps ps' : PState} {c : Char} {k : Kind}
    (hk : stateKind ps = some k) (h : step ps c = .ok ps') : stateKind ps' = some k := by
  by_cases hl : ps.lex = .idle
  · have : step ps c = stepIdle ps c := by
      obtain ⟨stack, expect, lex⟩ := ps
      simp only at hl; subst hl; rfl
    rw [this] at h
    exact stepIdle_kind hl hk h
  · rcases step_cases hl h with ⟨hs, he, hl'⟩ | ⟨s, hs⟩ | ⟨v, hvk, hw, hv⟩ | ⟨a, pd, _, _, hd, hi⟩
    · obtain ⟨stack, expect, lex⟩ := ps
      obtain ⟨stack', expect', lex'⟩ := ps'
      simp only at hs he hl' hl
      subst hs he
      simp only [stateKind] at hk ⊢
      cases hb : bottomKind stack' <;> cases expect' <;> cases lex <;> cases lex' <;> simp_all
    · rcases deliverString_cases hs with ⟨hw, hv⟩ | ⟨_, ms, key, fs, hst, hv⟩
      · rw [hv]; exact stateKind_scalar_start hl hw hk _ rfl
      · rw [hv]
        simp only [stateKind, hst, bottomKind] at hk ⊢
        cases hb : bottomKind fs <;> simp_all [Frame.kind]
    · rw [hv]; exact stateKind_scalar_start hl hw hk _ hvk
    · have hn := deliverNumber_ok hd
      have h1 := stateKind_scalar_start hl hn.1 hk (.num a.mantissa a.exp10) rfl
      rw [← hn.2] at h1
      exact stepIdle_kind (deliverNumber_track hd).2 h1 hi
theorem step_idle_eq {ps : PState} (hl : ps.lex = .idle) (c : Char) :
    step ps c = stepIdle ps c := by
  obtain ⟨stack, expect, lex⟩ := ps
  simp only at hl; subst hl; rfl

theorem run_wf {ps pf : PState} {s : List Char} (hwf : ps.wf) (h : run ps s = .ok pf) :
    pf.wf := by
  induction s generalizing ps with
  | nil => cases h; exact hwf
  | cons c cs ih =>
    simp only [run] at h
    cases hs : step ps c with
    | ok p => rw [hs] at h; exact ih (step_wf hwf hs) h
    | error e => rw [hs] at h; cases h

theorem run_kind {ps pf : PState} {s : List Char} {k : Kind} (hk : stateKind ps = some k)
    (h : run ps s = .ok pf) : stateKind pf = some k := by
  induction s generalizing ps with
  | nil => cases h; exact hk
  | cons c cs ih =>
    simp only [run] at h
    cases hs : step ps c with
    | ok p => rw [hs] at h; exact ih (step_kind hk hs) h
    | error e => rw [hs] at h; cases h

theorem init_wf : PState.init.wf := by
  intro v hv; cases hv

theorem finishRun_nil (ps : PState) : finishRun ps [] = finish ps := rfl

theorem finishRun_cons (ps : PState) (c : Char) (cs : List Char) :
    finishRun ps (c :: cs) = match step ps c with
      | .ok p => finishRun p cs
      | .error e => .error e := by
  simp only [finishRun, run]
  cases step ps c <;> rfl

theorem finishRun_append (ps : PState) (a b : List Char) :
    finishRun ps (a ++ b) = match run ps a with
      | .ok p => finishRun p b
      | .error e => .error e := by
  simp only [finishRun, run_append]
  cases run ps a <;> rfl

theorem parseCore_eq (s : List Char) : parseCore s = finishRun PState.init s := rfl

theorem finish_cases {ps : PState} {v : Json} (h : finish ps = .ok v) :
    (ps.lex = .idle ∧ ps.expect = .done v) ∨
    (∃ a pd, ps.lex = .number a ∧ deliverNumber ps a = .ok pd ∧ pd.expect = .done v) := by
  obtain ⟨stack, expect, lex⟩ := ps
  unfold finish at h
  split at h
  · split at h
    · cases h; exact Or.inl ⟨‹_›, ‹_›⟩
    · cases h
  · split at h
    · split at h
      · cases h; exact Or.inr ⟨_, _, ‹_›, ‹_›, ‹_›⟩
      · cases h
    · cases h
  · cases h

theorem deliver_expect_done {fs : List Frame} {v w : Json}
    (h : (deliver fs v).expect = .done w) : fs = [] ∧ w = v := by
  cases fs with
  | nil => simp only [deliver] at h; cases h; exact ⟨rfl, rfl⟩
  | cons f fs => cases f <;> cases h

theorem bottomKind_eq_none {fs : List Frame} (h : bottomKind fs = none) : fs = [] := by
  cases fs with
  | nil => rfl
  | cons f fs => simp only [bottomKind] at h; split at h <;> cases h

theorem bottomKind_object_count {fs : List Frame} (h : bottomKind fs = some .object) :
    1 ≤ countObj fs := by
  induction fs with
  | nil => cases h
  | cons f fs ih =>
    simp only [bottomKind] at h
    cases hb : bottomKind fs with
    | some k =>
      rw [hb] at h
      cases h
      have := ih hb
      cases f <;> simp only [countObj] <;> omega
    | none =>
      rw [hb] at h
      have hn := countObj_nonneg fs
      cases f with
      | arr items => cases h
      | obj ms k => simp only [countObj]; omega

/-- A text that parses has the shape its first characters announced. -/
theorem finish_kind {ps : PState} {v : Json} {k : Kind} (hwf : ps.wf)
    (hk : stateKind ps = some k) (h : finish ps = .ok v) : v.kind = k := by
  rcases finish_cases h with ⟨hl, he⟩ | ⟨a, pd, hl, hd, he⟩
  · have := (hwf v he).1
    simp only [stateKind, this, bottomKind, he] at hk
    exact Option.some.inj hk
  · have hn := deliverNumber_ok hd
    rw [hn.2] at he
    have := deliver_expect_done he
    obtain ⟨stack, expect, lex⟩ := ps
    simp only at hl this hn
    subst hl
    rw [this.1] at hk
    rw [this.2]
    cases expect <;> simp_all [stateKind, bottomKind, Expect.wantsValue, Json.kind]

/-- In a state that still has an open top-level object, the text is not complete. -/
theorem finish_open_ne {ps : PState} (hwf : ps.wf) (hb : bottomKind ps.stack = some .object)
    (v : Json) : finish ps ≠ .ok v := by
  intro h
  have hne : ps.stack ≠ [] := by
    intro hs; rw [hs] at hb; cases hb
  rcases finish_cases h with ⟨hl, he⟩ | ⟨a, pd, hl, hd, he⟩
  · exact hne (hwf v he).1
  · have hn := deliverNumber_ok hd
    rw [hn.2] at he
    exact hne (deliver_expect_done he).1

/-- The shape of the state in which a text that parses to an object has been read. -/
theorem kind_object_cases {ps : PState} (hwf : ps.wf) (hk : stateKind ps = some .object) :
    bottomKind ps.stack = some .object ∨
    (∃ ms, ps.stack = [] ∧ ps.expect = .done (.obj ms) ∧ ps.lex = .idle) := by
  obtain ⟨stack, expect, lex⟩ := ps
  simp only [stateKind] at hk
  cases hb : bottomKind stack with
  | some k => rw [hb] at hk; left; exact hk
  | none =>
    rw [hb] at hk
    right
    cases expect with
    | done v =>
      have := hwf v rfl
      cases v with
      | obj ms => exact ⟨ms, this.1, rfl, this.2⟩
      | _ => simp [Json.kind] at hk
    | _ => cases lex <;> simp at hk

theorem stepIdle_done {ps ps' : PState} {c : Char} {v : Json} (he : ps.expect = .done v)
    (h : stepIdle ps c = .ok ps') : isJsonWs c = true ∧ ps' = ps := by
  cases stepIdle_cases h with
  | ws c hw => exact ⟨hw, rfl⟩
  | _ => simp_all [Expect.wantsValue, Expect.wantsKey]

theorem stepIdle_ok_or (ps : PState) (c : Char) :
    (∃ p, stepIdle ps c = .ok p) ∨ stepIdle ps c = .error .parseError := by
  unfold stepIdle
  by_cases hw : isJsonWs c = true
  · rw [if_pos hw]; exact Or.inl ⟨_, rfl⟩
  rw [if_neg hw]
  by_cases h1 : c = '{'
  · rw [if_pos h1]; split <;> first | exact Or.inr rfl | exact Or.inl ⟨_, rfl⟩
  rw [if_neg h1]
  by_cases h2 : c = '}'
  · rw [if_pos h2]; split <;> first | exact Or.inr rfl | exact Or.inl ⟨_, rfl⟩
  rw [if_neg h2]
  by_cases h3 : c = '['
  · rw [if_pos h3]; split <;> first | exact Or.inr rfl | exact Or.inl ⟨_, rfl⟩
  rw [if_neg h3]
  by_cases h4 : c = ']'
  · rw [if_pos h4]; split <;> first | exact Or.inr rfl | exact Or.inl ⟨_, rfl⟩
  rw [if_neg h4]
  by_cases h5 : c = ':'
  · rw [if_pos h5]; split <;> first | exact Or.inr rfl | exact Or.inl ⟨_, rfl⟩
  rw [if_neg h5]
  by_cases h6 : c = ','
  · rw [if_pos h6]; split <;> first | exact Or.inr rfl | exact Or.inl ⟨_, rfl⟩
  rw [if_neg h6]
  by_cases h7 : c = '"'
  · rw [if_pos h7]; split <;> first | exact Or.inr rfl | exact Or.inl ⟨_, rfl⟩
  rw [if_neg h7]
  repeat' split
  all_goals first
    | exact Or.inr rfl
    | exact Or.inl ⟨_, rfl⟩

theorem stepIdle_error {ps : PState} {c : Char} {e : PErr} (h : stepIdle ps c = .error e) :
    e = .parseError := by
  rcases stepIdle_ok_or ps c with ⟨p, hp⟩ | hp
  · rw [hp] at h; cases h
  · rw [hp] at h; cases h; rfl

theorem scanChars_push {st : Scan} {c : Char} (cs : List Char)
    (h : (trackStep (st.braceCount, st.inString, st.escapeNext) c).1 ≠ 0 ∨
         (trackStep (st.braceCount, st.inString, st.escapeNext) c).2.1 = true) :
    scanChars st (c :: cs) = scanChars (st.push c) cs := by
  obtain ⟨users, buf, bc, is, en⟩ := st
  rw [scanChars]
  cases en with
  | true => rfl
  | false =>
    by_cases h2 : c = '\\'
    · subst h2; rfl
    · simp only [Bool.false_eq_true, if_false, h2]
      simp only [trackStep, Bool.false_eq_true, if_false, h2] at h
      rw [if_neg]
      · simp only [Scan.push, trackStep, Bool.false_eq_true, if_false, h2]
      · intro hc
        rcases h with h | h
        · exact h hc.1
        · rw [hc.2.1] at h; cases h

theorem scanChars_check {st : Scan} {c : Char} (cs : List Char) (hen : st.escapeNext = false)
    (h : trackStep (st.braceCount, st.inString, st.escapeNext) c = (0, false, false)) :
    scanChars st (c :: cs) =
      match jsonParse (st.currentObject ++ [c]) with
      | .ok user =>
        if user.is_object then
          if MAX_OBJECTS ≤ (st.users ++ [user]).length then .ok (Scan.clean (st.users ++ [user]))
          else scanChars (Scan.clean (st.users ++ [user])) cs
        else scanChars (st.push c) cs
      | .error .parseError => scanChars (Scan.clean st.users) cs
      | .error .outOfRange => .error .failedToParse := by
  obtain ⟨users, buf, bc, is, en⟩ := st
  simp only at hen
  subst hen
  rw [scanChars]
  by_cases h2 : c = '\\'
  · subst h2; simp [trackStep] at h
  · simp only [Bool.false_eq_true, if_false, h2]
    have hp : Scan.push ⟨users, buf, bc, is, false⟩ c = ⟨users, buf ++ [c], 0, false, false⟩ := by
      simp only [Scan.push, h]
    rw [hp]
    simp only [trackStep, Bool.false_eq_true, if_false, h2] at h
    have h1 := congrArg Prod.fst h
    have h3 := congrArg (fun t => t.2.1) h
    simp only at h1 h3
    rw [h1, h3]
    rw [if_pos ⟨rfl, rfl, by simp⟩]
    rfl

theorem jsonParse_ws_single {c : Char} (h : isJsonWs c = true) :
    jsonParse [c] = .error .parseError := by
  simp [isJsonWs] at h
  rcases h with ((h | h) | h) | h <;> subst h <;> rfl

theorem scanChars_clean_ws {c : Char} (h : isJsonWs c = true) (users : List Json)
    (cs : List Char) : scanChars (Scan.clean users) (c :: cs) = scanChars (Scan.clean users) cs := by
  rw [scanChars_check cs rfl (trackStep_untracked (isJsonWs_untracked h) 0 false)]
  simp only [Scan.clean, List.nil_append, jsonParse_ws_single h]

theorem scanChars_clean_bom (users : List Json) (cs : List Char) :
    scanChars (Scan.clean users) (Char.ofNat 0xFEFF :: cs) = scanChars (Scan.clean users) cs := by
  rw [scanChars_check cs rfl (trackStep_untracked (by decide) 0 false)]
  rfl

/-- After the candidate, only whitespace: every character is tried alone and discarded. -/
theorem scanChars_clean_allWs (users : List Json) (cs : List Char)
    (h : ∀ c ∈ cs, isJsonWs c = true) :
    scanChars (Scan.clean users) cs = .ok (Scan.clean users) := by
  induction cs with
  | nil => rfl
  | cons c cs ih =>
    rw [scanChars_clean_ws (h c (List.mem_cons_self _ _))]
    exact ih (fun d hd => h d (List.mem_cons_of_mem _ hd))

theorem step_done {ps ps' : PState} {c : Char} {v : Json} (hwf : ps.wf)
    (he : ps.expect = .done v) (h : step ps c = .ok ps') : isJsonWs c = true ∧ ps' = ps := by
  rw [step_idle_eq (hwf v he).2] at h
  exact stepIdle_done he h

theorem run_done {ps pf : PState} {cs : List Char} {v : Json} (hwf : ps.wf)
    (he : ps.expect = .done v) (h : run ps cs = .ok pf) :
    (∀ c ∈ cs, isJsonWs c = true) ∧ pf = ps := by
  induction cs with
  | nil => cases h; exact ⟨by simp, rfl⟩
  | cons c cs ih =>
    simp only [run] at h
    cases hs : step ps c with
    | ok p =>
      rw [hs] at h
      have := step_done hwf he hs
      rw [this.2] at h
      have ih' := ih h
      refine ⟨?_, ih'.2⟩
      intro d hd
      rcases List.mem_cons.1 hd with rfl | hd
      · exact this.1
      · exact ih'.1 d hd
    | error e => rw [hs] at h; cases h

theorem InObj.wf {st : Scan} {pb : PState} (h : InObj st pb) : pb.wf :=
  run_wf init_wf h.hrun

theorem InObj.kind {st : Scan} {pb : PState} (h : InObj st pb) :
    stateKind pb = some .object := by
  simp only [stateKind, h.hopen]

theorem jsonParse_brace (t : List Char) : jsonParse ('{' :: t) = parseCore ('{' :: t) := rfl

/-- Inside a candidate: the scan collects the rest of the object text and extracts it when
the closing brace arrives. -/
theorem scanChars_inObj (m : List (List Char × Json)) (cs : List Char) :
    ∀ (st : Scan) (pb : PState), InObj st pb → finishRun pb cs = .ok (.obj m) →
      st.users.length < MAX_OBJECTS →
      scanChars st cs = .ok (Scan.clean (st.users ++ [.obj m])) := by
  induction cs with
  | nil =>
    intro st pb hin hf _
    exact absurd hf (finish_open_ne hin.wf hin.hopen _)
  | cons c cs ih =>
    intro st pb hin hf hlen
    rw [finishRun_cons] at hf
    cases hs : step pb c with
    | error e => rw [hs] at hf; cases hf
    | ok pb' =>
      rw [hs] at hf
      simp only at hf
      have hwf' := step_wf hin.wf hs
      have hk' := step_kind hin.kind hs
      have ht' := step_track hs
      rw [hin.htrack] at ht'
      have hrun' : run PState.init (st.currentObject ++ [c]) = .ok pb' := by
        rw [run_snoc hin.hrun]; exact hs
      rcases kind_object_cases hwf' hk' with hopen | ⟨ms, hst, hex, hlx⟩
      · -- still inside
        have hc := bottomKind_object_count hopen
        have hne : (trackStep (st.braceCount, st.inString, st.escapeNext) c).1 ≠ 0 := by
          rw [← ht']; simp only [trackerOf]; omega
        rw [scanChars_push cs (Or.inl hne)]
        have hin' : InObj (st.push c) pb' := by
          refine ⟨hrun', ?_, hopen, ?_⟩
          · obtain ⟨t, ht⟩ := hin.hhead
            exact ⟨t ++ [c], by simp [Scan.push, ht]⟩
          · rw [ht']; rfl
        exact ih (st.push c) pb' hin' hf hlen
      · -- the closing brace
        have hzero : trackStep (st.braceCount, st.inString, st.escapeNext) c = (0, false, false) := by
          rw [← ht']; simp [trackerOf, hst, hlx, countObj, Lex.inString, Lex.escaped]
        have hen : st.escapeNext = false := by
          cases hen : st.escapeNext with
          | false => rfl
          | true =>
            have h1 := congrArg Prod.fst hzero
            simp only [trackStep, hen, if_true] at h1
            have h2 := congrArg Prod.fst hin.htrack
            simp only [trackerOf] at h2
            have := bottomKind_object_count hin.hopen
            omega
        rw [scanChars_check cs hen hzero]
        obtain ⟨t, ht⟩ := hin.hhead
        have hparse : jsonParse (st.currentObject ++ [c]) = finish pb' := by
          rw [ht, List.cons_append, jsonParse_brace, ← List.cons_append, ← ht, parseCore_eq,
            finishRun, hrun']
        have hfin : finish pb' = .ok (.obj ms) := by
          obtain ⟨stack, expect, lex⟩ := pb'
          simp only at hst hex hlx
          subst hst hex hlx
          rfl
        have hrest := hf
        simp only [finishRun] at hrest
        cases hr : run pb' cs with
        | error e => rw [hr] at hrest; cases hrest
        | ok pf =>
          rw [hr] at hrest
          simp only at hrest
          have hd := run_done hwf' hex hr
          rw [hd.2, hfin] at hrest
          cases hrest
          rw [hparse, hfin]
          simp only [Json.is_object, if_true]
          split
          · rfl
          · exact scanChars_clean_allWs _ cs hd.1

theorem stepIdle_ws {c : Char} (h : isJsonWs c = true) (ps : PState) :
    stepIdle ps c = .ok ps := by
  unfold stepIdle
  rw [if_pos h]

theorem step_idle_ws {ps : PState} {c : Char} (hl : ps.lex = .idle) (h : isJsonWs c = true) :
    step ps c = .ok ps := by
  rw [step_idle_eq hl, stepIdle_ws h]

theorem run_idle_allWs {ps : PState} (hl : ps.lex = .idle) (cs : List Char)
    (h : ∀ c ∈ cs, isJsonWs c = true) : run ps cs = .ok ps := by
  induction cs with
  | nil => rfl
  | cons c cs ih =>
    simp only [run, step_idle_ws hl (h c (List.mem_cons_self _ _))]
    exact ih (fun d hd => h d (List.mem_cons_of_mem _ hd))

/-- A text that parses to an object starts, after whitespace, with `{`. -/
theorem init_step_object {c : Char} {p : PState} {cs : List Char}
    {m : List (List Char × Json)} (hs : step PState.init c = .ok p)
    (hf : finishRun p cs = .ok (.obj m)) :
    (isJsonWs c = true ∧ p = PState.init) ∨ (c = '{' ∧ p = PState.afterBrace) := by
  have hwf := step_wf init_wf hs
  have key : ∀ k, stateKind p = some k → k = .object := by
    intro k hk
    simp only [finishRun] at hf
    cases hr : run p cs with
    | error e => rw [hr] at hf; cases hf
    | ok pf =>
      rw [hr] at hf
      have := finish_kind (run_wf hwf hr) (run_kind hk hr) hf
      exact this.symm
  rw [step_idle_eq rfl] at hs
  cases stepIdle_cases hs with
  | ws c hw => exact Or.inl ⟨hw, rfl⟩
  | openObj _ => exact Or.inr ⟨rfl, rfl⟩
  | closeObj ms k fs hst _ => cases hst
  | closeArr items fs hst _ => cases hst
  | commaArr items fs hst _ => cases hst
  | commaObj ms k fs hst _ => cases hst
  | colon he => cases he
  | openArr _ => exact absurd (key .array rfl) (by decide)
  | quote _ => exact absurd (key .scalar rfl) (by decide)
  | litTrue _ => exact absurd (key .scalar rfl) (by decide)
  | litFalse _ => exact absurd (key .scalar rfl) (by decide)
  | litNull _ => exact absurd (key .scalar rfl) (by decide)
  | numStart c a _ _ => exact absurd (key .scalar rfl) (by decide)

/-- Before the candidate: leading whitespace is tried and discarded, the opening brace
starts the candidate. -/
theorem scanChars_parseCore (m : List (List Char × Json)) (cs : List Char) :
    ∀ (users : List Json), parseCore cs = .ok (.obj m) → users.length < MAX_OBJECTS →
      scanChars (Scan.clean users) cs = .ok (Scan.clean (users ++ [.obj m])) := by
  induction cs with
  | nil => intro users h _; cases h
  | cons c cs ih =>
    intro users h hlen
    rw [parseCore_eq, finishRun_cons] at h
    cases hs : step PState.init c with
    | error e => rw [hs] at h; cases h
    | ok p =>
      rw [hs] at h
      simp only at h
      rcases init_step_object hs h with ⟨hw, hp⟩ | ⟨hc, hp⟩
      · rw [scanChars_clean_ws hw]
        rw [hp] at h
        exact ih users h hlen
      · subst hc hp
        rw [scanChars_push cs (Or.inl (by simp [Scan.clean, trackStep]))]
        have hin : InObj ((Scan.clean users).push '{') PState.afterBrace :=
          ⟨rfl, ⟨[], rfl⟩, rfl, rfl⟩
        exact scanChars_inObj m cs _ _ hin h hlen

theorem jsonParse_cases (s : List Char) :
    (∃ cs, s = Char.ofNat 0xFEFF :: cs ∧ jsonParse s = parseCore cs) ∨
    ((∀ cs, s ≠ Char.ofNat 0xFEFF :: cs) ∧ jsonParse s = parseCore s) := by
  cases s with
  | nil => exact Or.inr ⟨by simp, rfl⟩
  | cons c cs =>
    by_cases hc : c = Char.ofNat 0xFEFF
    · subst hc; exact Or.inl ⟨cs, rfl, by simp [jsonParse]⟩
    · refine Or.inr ⟨?_, by simp [jsonParse, hc]⟩
      intro cs' h
      exact hc (List.cons.inj h).1

/-- A text that parses to an object, scanned from a clean state, is extracted as that
object, and the scan is clean again. -/
theorem scanChars_object {s : List Char} {m : List (List Char × Json)} {users : List Json}
    (h : jsonParse s = .ok (.obj m)) (hlen : users.length < MAX_OBJECTS) :
    scanChars (Scan.clean users) s = .ok (Scan.clean (users ++ [.obj m])) := by
  rcases jsonParse_cases s with ⟨cs, hs, hp⟩ | ⟨_, hp⟩
  · rw [hp] at h
    rw [hs, scanChars_clean_bom]
    exact scanChars_parseCore m cs users h hlen
  · rw [hp] at h
    exact scanChars_parseCore m s users h hlen

theorem startsWith_cons {p c : Char} {ps cs : List Char}
    (h : startsWith (p :: ps) (c :: cs) = true) : c = p := by
  simp only [startsWith] at h
  split at h
  · assumption
  · cases h

theorem startsWith_nil_right {p : Char} {ps : List Char} : startsWith (p :: ps) [] = false := rfl

theorem allBlank_iff (line : List Char) :
    allBlank line = true ↔ ∀ c ∈ line, isJsonWs c = true := by
  simp only [allBlank, List.all_eq_true, isJsonWs, Bool.or_eq_true, decide_eq_true_eq]
  constructor <;> intro h c hc <;> have := h c hc <;> tauto

theorem isSkippedLine_cases {line : List Char} (h : isSkippedLine line = true) :
    (∀ c ∈ line, isJsonWs c = true) ∨ (∃ c rest, line = c :: rest ∧ isHeaderStart c = true) := by
  cases line with
  | nil => left; simp
  | cons c rest =>
    simp only [isSkippedLine, Bool.or_eq_true] at h
    rcases h with ((((((h | h) | h) | h) | h) | h) | h) | h
    · cases h
    · exact Or.inl ((allBlank_iff _).1 h)
    all_goals
      right
      refine ⟨c, rest, rfl, ?_⟩
      have := startsWith_cons h
      subst this
      rfl

theorem stepIdle_header {c : Char} (h : isHeaderStart c = true) (ps : PState) :
    stepIdle ps c = .error .parseError := by
  rcases stepIdle_ok_or ps c with ⟨p, hp⟩ | hp
  · exfalso
    cases stepIdle_cases hp with
    | ws c hw =>
      simp [isJsonWs] at hw
      rcases hw with ((hw | hw) | hw) | hw <;> subst hw <;> cases h
    | numStart c a _ hc =>
      rcases hc with hc | hc
      · subst hc; cases h
      · have := isDigit_toNat hc
        simp [isHeaderStart] at h
        rcases h with ((h | h) | h) | h <;> subst h <;> revert this <;> decide
    | _ => cases h
  · exact hp

theorem not_skipped_ne_nil {line : List Char} (h : isSkippedLine line = false) : line ≠ [] := by
  intro hl; subst hl; cases h

/-- A skipped line holds no object. -/
theorem lineObject_skipped {line : List Char} (h : isSkippedLine line = true) :
    lineObject line = none := by
  have hp : parseCore line = .error .parseError := by
    rcases isSkippedLine_cases h with hb | ⟨c, rest, hl, hc⟩
    · rw [parseCore_eq, finishRun, run_idle_allWs rfl line hb]; rfl
    · rw [hl, parseCore_eq, finishRun_cons, step_idle_eq rfl, stepIdle_header hc]
  have hj : jsonParse line = .error .parseError := by
    rcases jsonParse_cases line with ⟨cs, hs, _⟩ | ⟨_, hq⟩
    · exfalso
      subst hs
      rcases isSkippedLine_cases h with hb | ⟨c, rest, hl, hc⟩
      · have := hb _ (List.mem_cons_self _ _)
        revert this; decide
      · cases hl; revert hc; decide
    · rw [hq, hp]
  simp only [lineObject, hj]

theorem lineObject_object {line : List Char} {m : List (List Char × Json)}
    (h : jsonParse line = .ok (.obj m)) : lineObject line = some (.obj m) := by
  simp only [lineObject, h]

/-- The line loop over lines that are each noise or one object: the objects are collected
in order, up to the line cap and the object cap, and the scan ends clean. -/
theorem scanLines_objects (lines : List (List Char)) :
    ∀ (users : List Json) (lineCount : Nat), users.length ≤ MAX_OBJECTS →
      (∀ l ∈ lines, isSkippedLine l = true ∨ ∃ m, jsonParse l = .ok (.obj m)) →
      scanLines (Scan.clean users) lineCount lines =
        .ok (Scan.clean ((users ++ lineObjects (lines.take (MAX_LINES - lineCount))).take
          MAX_OBJECTS)) := by
  induction lines with
  | nil =>
    intro users k hu _
    simp [scanLines, lineObjects, List.take_of_length_le hu]
  | cons l ls ih =>
    intro users k hu hl
    have hls : ∀ l ∈ ls, isSkippedLine l = true ∨ ∃ m, jsonParse l = .ok (.obj m) :=
      fun x hx => hl x (List.mem_cons_of_mem _ hx)
    rw [scanLines]
    by_cases hc : k < MAX_LINES ∧ (Scan.clean users).users.length < MAX_OBJECTS
    · rw [if_pos hc]
      have hk : MAX_LINES - k = (MAX_LINES - (k + 1)) + 1 := by omega
      rw [hk, List.take_succ_cons]
      by_cases hsk : isSkippedLine l = true
      · rw [if_pos hsk, ih users (k + 1) hu hls]
        simp only [lineObjects, List.filterMap_cons, lineObject_skipped hsk]
      · rw [if_neg hsk]
        rcases hl l (List.mem_cons_self _ _) with h | ⟨m, hm⟩
        · exact absurd h hsk
        · have hlen : users.length < MAX_OBJECTS := hc.2
          rw [scanChars_object hm hlen]
          simp only
          have hu' : (users ++ [Json.obj m]).length ≤ MAX_OBJECTS := by
            have := hc.2
            simp only [Scan.clean] at this
            simp only [List.length_append, List.length_singleton]
            omega
          rw [ih (users ++ [Json.obj m]) (k + 1) hu' hls]
          simp only [lineObjects, List.filterMap_cons, lineObject_object hm, List.append_assoc,
            List.singleton_append]
    · rw [if_neg hc]
      simp only [Scan.clean, not_and_or, not_lt] at hc
      rcases hc with hc | hc
      · have : MAX_LINES - k = 0 := by omega
        simp [this, lineObjects, List.take_of_length_le hu]
      · have hu2 : users.length = MAX_OBJECTS := le_antisymm hu hc
        rw [List.take_append_of_le_length (le_of_eq hu2.symm), List.take_of_length_le hu]

theorem getlines_eq_nil {s : List Char} (h : getlines s = []) : s = [] := by
  cases s with
  | nil => rfl
  | cons c cs =>
    simp only [getlines] at h
    split at h
    · cases h
    · split at h <;> cases h

theorem getlines_cons_ne {c : Char} (hc : c ≠ '\n') (cs : List Char) :
    ∃ l1 ls, getlines (c :: cs) = (c :: l1) :: ls ∧
      (getlines cs = l1 :: ls ∨ (cs = [] ∧ l1 = [] ∧ ls = [])) := by
  simp only [getlines, if_neg hc]
  cases h : getlines cs with
  | nil => exact ⟨[], [], rfl, Or.inr ⟨getlines_eq_nil h, rfl, rfl⟩⟩
  | cons l ls => exact ⟨l, ls, rfl, Or.inl rfl⟩

theorem joinLines_getlines (s : List Char) :
    joinLines (getlines s) = s ∨ joinLines (getlines s) = s ++ ['\n'] := by
  induction s with
  | nil => left; rfl
  | cons c cs ih =>
    by_cases hc : c = '\n'
    · subst hc
      simp only [getlines, if_true, joinLines, List.nil_append, List.cons_append]
      rcases ih with ih | ih <;> rw [ih] <;> simp
    · obtain ⟨l1, ls, h1, h2⟩ := getlines_cons_ne hc cs
      rw [h1]
      rcases h2 with h2 | ⟨h2, h3, h4⟩
      · rw [h2] at ih
        simp only [joinLines, List.cons_append] at ih ⊢
        rcases ih with ih | ih <;> rw [ih] <;> simp
      · subst h2 h3 h4
        right; rfl

theorem numStep_newline (a : NumAcc) : numStep a '\n' = none := by
  unfold numStep
  cases a.st <;> rfl

theorem finishRun_newline (pf : PState) : finishRun pf ['\n'] = finish pf := by
  obtain ⟨stack, expect, lex⟩ := pf
  rw [finishRun_cons]
  cases lex with
  | idle => rfl
  | number a =>
    simp only [step, numStep_newline, finish]
    cases hd : deliverNumber { stack := stack, expect := expect, lex := .number a } a with
    | error e => rfl
    | ok pd =>
      simp only [stepIdle_ws (show isJsonWs '\n' = true from rfl), finishRun_nil]
      have := (deliverNumber_track hd).2
      obtain ⟨s', e', l'⟩ := pd
      simp only at this
      subst this
      rfl
  | lit k n =>
    simp only [step, finish]
    cases h : k.text.get? n with
    | none => rfl
    | some r =>
      simp only
      have : '\n' ≠ r := by
        intro hr
        have := litText_untracked h
        subst hr
        cases k <;> (rcases n with _ | _ | _ | _ | _ | n) <;> simp [LitKind.text] at h
      rw [if_neg this]
  | _ => rfl

theorem finishRun_snoc_newline (ps : PState) (s : List Char) :
    finishRun ps (s ++ ['\n']) = finishRun ps s := by
  rw [finishRun_append]
  simp only [finishRun]
  cases run ps s with
  | error e => rfl
  | ok pf => exact finishRun_newline pf

theorem parseCore_joinLines (s : List Char) :
    parseCore (joinLines (getlines s)) = parseCore s := by
  rcases joinLines_getlines s with h | h
  · rw [h]
  · rw [h, parseCore_eq, finishRun_snoc_newline]; rfl

theorem finishRun_done {pd : PState} {v : Json} (hwf : pd.wf) (he : pd.expect = .done v)
    (s : List Char) : finishRun pd s = .ok v ∨ finishRun pd s = .error .parseError := by
  induction s with
  | nil =>
    left
    obtain ⟨stack, expect, lex⟩ := pd
    have := (hwf v he).2
    simp only at this he
    subst this he
    rfl
  | cons c cs ih =>
    rw [finishRun_cons, step_idle_eq (hwf v he).2]
    rcases stepIdle_ok_or pd c with ⟨p, hp⟩ | hp
    · rw [hp]
      simp only
      rw [(stepIdle_done he hp).2]
      exact ih
    · rw [hp]; right; rfl

theorem finish_object_done {pf : PState} {m : List (List Char × Json)}
    (h : finish pf = .ok (.obj m)) : pf.expect = .done (.obj m) ∧ pf.lex = .idle := by
  rcases finish_cases h with ⟨hl, he⟩ | ⟨a, pd, _, hd, he⟩
  · exact ⟨he, hl⟩
  · rw [(deliverNumber_ok hd).2] at he
    cases (deliver_expect_done he).2

/-- After a text that parses to an object, more text either changes nothing or is a
`parse_error`. -/
theorem finishRun_after_object {l : List Char} {m : List (List Char × Json)}
    (h : parseCore l = .ok (.obj m)) (s : List Char) :
    ObjOrErr (finishRun PState.init (l ++ s)) := by
  rw [parseCore_eq, finishRun] at h
  rw [finishRun_append]
  cases hr : run PState.init l with
  | error e => rw [hr] at h; cases h
  | ok pf =>
    rw [hr] at h
    simp only at h ⊢
    have hd := finish_object_done h
    rcases finishRun_done (run_wf init_wf hr) hd.1 s with h1 | h1
    · exact Or.inr ⟨m, h1⟩
    · exact Or.inl h1

theorem finishRun_joinLines (lines : List (List Char))
    (h : ∀ l ∈ lines, isSkippedLine l = true ∨ ∃ m, jsonParse l = .ok (.obj m)) :
    ObjOrErr (finishRun PState.init (joinLines lines)) := by
  induction lines with
  | nil => left; rfl
  | cons l ls ih =>
    have hls : ∀ l ∈ ls, isSkippedLine l = true ∨ ∃ m, jsonParse l = .ok (.obj m) :=
      fun x hx => h x (List.mem_cons_of_mem _ hx)
    simp only [joinLines]
    rcases h l (List.mem_cons_self _ _) with hsk | ⟨m, hm⟩
    · rcases isSkippedLine_cases hsk with hb | ⟨c, rest, hl, hc⟩
      · rw [finishRun_append, run_idle_allWs rfl l hb]
        simp only
        rw [finishRun_cons, step_idle_ws rfl (show isJsonWs '\n' = true from rfl)]
        exact ih hls
      · left
        rw [hl, List.cons_append, finishRun_cons, step_idle_eq rfl, stepIdle_header hc]
    · rcases jsonParse_cases l with ⟨cs, hs, _⟩ | ⟨_, hp⟩
      · left
        rw [hs, List.cons_append, finishRun_cons]
        rfl
      · rw [hp] at hm
        exact finishRun_after_object hm _

theorem arrayAttempt_of_objOrErr {s : List Char} (h : ObjOrErr (jsonParse s)) :
    arrayAttempt s = .ok none := by
  unfold arrayAttempt
  rcases h with h | ⟨m, h⟩ <;> rw [h]

theorem isSkippedLine_bom (l : List Char) : isSkippedLine (Char.ofNat 0xFEFF :: l) = false := by
  cases h : isSkippedLine (Char.ofNat 0xFEFF :: l) with
  | false => rfl
  | true =>
    exfalso
    rcases isSkippedLine_cases h with hb | ⟨c, rest, hl, hc⟩
    · have := hb _ (List.mem_cons_self _ _)
      revert this; decide
    · cases hl; revert hc; decide

/-- On a text whose lines are each noise or one object, the whole-document attempt returns
nothing and the function goes on to the NDJSON scan. -/
theorem arrayAttempt_lines (s : List Char)
    (h : ∀ l ∈ getlines s, isSkippedLine l = true ∨ ∃ m, jsonParse l = .ok (.obj m)) :
    arrayAttempt s = .ok none := by
  apply arrayAttempt_of_objOrErr
  rcases jsonParse_cases s with ⟨cs, hs, hp⟩ | ⟨_, hp⟩
  · rw [hp]
    subst hs
    obtain ⟨l1, ls, h1, h2⟩ := getlines_cons_ne (show Char.ofNat 0xFEFF ≠ '\n' by decide) cs
    rcases h2 with h2 | ⟨h2, _, _⟩
    · rw [h1] at h
      rcases h _ (List.mem_cons_self _ _) with hsk | ⟨m, hm⟩
      · rw [isSkippedLine_bom] at hsk; cases hsk
      · have hm' : parseCore l1 = .ok (.obj m) := by
          rw [← hm]; simp [jsonParse]
        rw [← parseCore_joinLines, h2]
        exact finishRun_after_object hm' _
    · subst h2; left; rfl
  · rw [hp, ← parseCore_joinLines]
    exact finishRun_joinLines _ h

theorem finalAttempt_clean (users : List Json) : finalAttempt (Scan.clean users) = .ok users := by
  simp [finalAttempt, Scan.clean]

/-- The outcome of `parseJsonData` on a text whose lines are each noise or one object. -/
theorem parseJsonData_lines (s : List Char)
    (h : ∀ l ∈ getlines s, isSkippedLine l = true ∨ ∃ m, jsonParse l = .ok (.obj m)) :
    parseJsonData s =
      if ((lineObjects ((getlines s).take MAX_LINES)).take MAX_OBJECTS).isEmpty
      then .error .noValidObjects
      else .ok ((lineObjects ((getlines s).take MAX_LINES)).take MAX_OBJECTS) := by
  unfold parseJsonData
  rw [arrayAttempt_lines s h]
  simp only
  unfold ndjsonFallback
  have := scanLines_objects (getlines s) [] 0 (Nat.zero_le _) h
  rw [show Scan.init = Scan.clean [] from rfl, this]
  simp only [finalAttempt_clean, List.nil_append, Nat.sub_zero]

/-- The cases of one turn of the character loop: the character joins the buffer and the
loop goes on, or the buffer with the character is parsed. -/
theorem scanChars_cons_cases (st : Scan) (c : Char) :
    (∀ cs, scanChars st (c :: cs) = scanChars (st.push c) cs) ∨
    (∃ user, jsonParse (st.currentObject ++ [c]) = .ok user ∧ user.is_object = true ∧
      ((MAX_OBJECTS ≤ (st.users ++ [user]).length ∧
          ∀ cs, scanChars st (c :: cs) = .ok (Scan.clean (st.users ++ [user]))) ∨
       ((st.users ++ [user]).length < MAX_OBJECTS ∧
          ∀ cs, scanChars st (c :: cs) = scanChars (Scan.clean (st.users ++ [user])) cs))) ∨
    (jsonParse (st.currentObject ++ [c]) = .error .parseError ∧
      ∀ cs, scanChars st (c :: cs) = scanChars (Scan.clean st.users) cs) ∨
    (jsonParse (st.currentObject ++ [c]) = .error .outOfRange ∧
      ∀ cs, scanChars st (c :: cs) = .error .failedToParse) := by
  by_cases hz : trackStep (st.braceCount, st.inString, st.escapeNext) c = (0, false, false) ∧
      st.escapeNext = false
  · cases hp : jsonParse (st.currentObject ++ [c]) with
    | error e =>
      cases e with
      | parseError =>
        refine Or.inr (Or.inr (Or.inl ⟨rfl, fun cs => ?_⟩))
        rw [scanChars_check cs hz.2 hz.1, hp]
      | outOfRange =>
        refine Or.inr (Or.inr (Or.inr ⟨rfl, fun cs => ?_⟩))
        rw [scanChars_check cs hz.2 hz.1, hp]
    | ok user =>
      by_cases ho : user.is_object = true
      · right; left
        refine ⟨user, rfl, ho, ?_⟩
        by_cases hm : MAX_OBJECTS ≤ (st.users ++ [user]).length
        · refine Or.inl ⟨hm, fun cs => ?_⟩
          rw [scanChars_check cs hz.2 hz.1, hp]
          simp only [ho, if_true, if_pos hm]
        · refine Or.inr ⟨Nat.lt_of_not_le hm, fun cs => ?_⟩
          rw [scanChars_check cs hz.2 hz.1, hp]
          simp only [ho, if_true, if_neg hm]
      · refine Or.inl (fun cs => ?_)
        rw [scanChars_check cs hz.2 hz.1, hp]
        simp only [if_neg ho]
  · left
    intro cs
    obtain ⟨users, buf, bc, is, en⟩ := st
    cases en with
    | true => rw [scanChars]; rfl
    | false =>
      by_cases h2 : c = '\\'
      · subst h2; rw [scanChars]; rfl
      · apply scanChars_push
        simp only [not_and_or] at hz
        rcases hz with hz | hz
        · by_contra hcon
          simp only [not_or, not_not, Bool.not_eq_true] at hcon
          apply hz
          have h3 : (trackStep (bc, is, false) c).2.2 = false := by
            simp [trackStep, h2]
          exact Prod.ext hcon.1 (Prod.ext hcon.2 h3)
        · exact absurd trivial hz

theorem Scan.push_users (st : Scan) (c : Char) : (st.push c).users = st.users := rfl

/-- Every object the character loop adds is an object, and the loop stops at the cap. -/
theorem scanChars_users (cs : List Char) :
    ∀ (st st' : Scan), scanChars st cs = .ok st' → (∀ u ∈ st.users, u.is_object = true) →
      st.users.length < MAX_OBJECTS →
      (∀ u ∈ st'.users, u.is_object = true) ∧ st'.users.length ≤ MAX_OBJECTS := by
  induction cs with
  | nil =>
    intro st st' h ho hl
    cases h
    exact ⟨ho, Nat.le_of_lt hl⟩
  | cons c cs ih =>
    intro st st' h ho hl
    have hall : ∀ user : Json, user.is_object = true →
        ∀ u ∈ st.users ++ [user], u.is_object = true := by
      intro user hu u hmem
      rcases List.mem_append.1 hmem with hm | hm
      · exact ho u hm
      · rw [List.mem_singleton.1 hm]; exact hu
    rcases scanChars_cons_cases st c with h1 | ⟨user, _, hu, h1 | h1⟩ | h1 | h1
    · rw [h1 cs] at h
      exact ih _ _ h ho hl
    · rw [h1.2 cs] at h
      cases h
      refine ⟨hall user hu, ?_⟩
      simp only [Scan.clean, List.length_append, List.length_singleton]
      omega
    · rw [h1.2 cs] at h
      exact ih _ _ h (hall user hu) h1.1
    · rw [h1.2 cs] at h
      exact ih _ _ h ho hl
    · rw [h1.2 cs] at h
      cases h

theorem scanLines_users (lines : List (List Char)) :
    ∀ (st st' : Scan) (lineCount : Nat), scanLines st lineCount lines = .ok st' →
      (∀ u ∈ st.users, u.is_object = true) → st.users.length ≤ MAX_OBJECTS →
      (∀ u ∈ st'.users, u.is_object = true) ∧ st'.users.length ≤ MAX_OBJECTS := by
  induction lines with
  | nil =>
    intro st st' k h ho hl
    cases h
    exact ⟨ho, hl⟩
  | cons l ls ih =>
    intro st st' k h ho hl
    rw [scanLines] at h
    split at h
    · rename_i hc
      split at h
      · exact ih _ _ _ h ho hl
      · cases hs : scanChars st l with
        | error e => rw [hs] at h; cases h
        | ok st1 =>
          rw [hs] at h
          have := scanChars_users l st st1 hs ho hc.2
          exact ih _ _ _ h this.1 this.2
    · cases h
      exact ⟨ho, hl⟩

theorem finalAttempt_users {st : Scan} {users : List Json} (h : finalAttempt st = .ok users)
    (ho : ∀ u ∈ st.users, u.is_object = true) (hl : st.users.length ≤ MAX_OBJECTS) :
    (∀ u ∈ users, u.is_object = true) ∧ users.length ≤ MAX_OBJECTS := by
  unfold finalAttempt at h
  split at h
  · split at h
    · split at h
      · rename_i user _ hc
        cases h
        refine ⟨?_, ?_⟩
        · intro u hu
          rcases List.mem_append.1 hu with hm | hm
          · exact ho u hm
          · rw [List.mem_singleton.1 hm]; exact hc.1
        · simp only [List.length_append, List.length_singleton]
          have := hc.2
          omega
      · cases h; exact ⟨ho, hl⟩
    · cases h; exact ⟨ho, hl⟩
    · cases h
  · cases h; exact ⟨ho, hl⟩

/-- What the NDJSON scan returns: at least one value, every value an object, at most
`MAX_OBJECTS` of them. -/
theorem ndjsonFallback_ok {s : List Char} {users : List Json}
    (h : ndjsonFallback s = .ok users) :
    users ≠ [] ∧ (∀ u ∈ users, u.is_object = true) ∧ users.length ≤ MAX_OBJECTS := by
  unfold ndjsonFallback at h
  cases hs : scanLines Scan.init 0 (getlines s) with
  | error e => rw [hs] at h; cases h
  | ok st =>
    rw [hs] at h
    simp only at h
    have h1 := scanLines_users _ _ _ _ hs (by simp [Scan.init]) (by simp [Scan.init])
    cases hf : finalAttempt st with
    | error e => rw [hf] at h; cases h
    | ok us =>
      rw [hf] at h
      simp only at h
      have h2 := finalAttempt_users hf h1.1 h1.2
      split at h
      · cases h
      · cases h
        rename_i hne
        refine ⟨?_, h2⟩
        intro he
        rw [he] at hne
        exact hne rfl

theorem isHttpErrorResponse_startsWith {line : List Char} (h : isHttpErrorResponse line = true) :
    startsWith "HTTP/".toList line = true := by
  unfold isHttpErrorResponse at h
  split at h
  · rfl
  · cases h

/-- Every noise line of the specification is skipped by the loop. -/
theorem isNoiseLine_skipped {line : List Char} (h : isNoiseLine line = true) :
    isSkippedLine line = true := by
  simp only [isNoiseLine, Bool.or_eq_true] at h
  simp only [isSkippedLine, Bool.or_eq_true]
  rcases h with (((((h | h) | h) | h) | h) | h) | h
  · tauto
  · have := isHttpErrorResponse_startsWith h
    tauto
  all_goals tauto

theorem getlines_append_newline (l rest : List Char) (h : '\n' ∉ l) :
    getlines (l ++ '\n' :: rest) = l :: getlines rest := by
  induction l with
  | nil => simp [getlines]
  | cons c cs ih =>
    have hc : c ≠ '\n' := fun hc => h (hc ▸ List.mem_cons_self _ _)
    have hcs : '\n' ∉ cs := fun hm => h (List.mem_cons_of_mem _ hm)
    have := ih hcs
    rw [List.cons_append, getlines, if_neg hc, this]

theorem getlines_joinLines' (lines : List (List Char)) (h : ∀ l ∈ lines, '\n' ∉ l) :
    getlines (joinLines lines) = lines := by
  induction lines with
  | nil => rfl
  | cons l ls ih =>
    simp only [joinLines]
    rw [getlines_append_newline l _ (h l (List.mem_cons_self _ _)),
      ih (fun x hx => h x (List.mem_cons_of_mem _ hx))]

theorem getlines_no_newline (l : List Char) (hne : l ≠ []) (h : '\n' ∉ l) :
    getlines l = [l] := by
  induction l with
  | nil => exact absurd rfl hne
  | cons c cs ih =>
    have hc : c ≠ '\n' := fun hc => h (hc ▸ List.mem_cons_self _ _)
    have hcs : '\n' ∉ cs := fun hm => h (List.mem_cons_of_mem _ hm)
    simp only [getlines, if_neg hc]
    cases cs with
    | nil => rfl
    | cons d ds => rw [ih (by simp) hcs]

theorem lineObjects_all_objects (lines : List (List Char))
    (h : ∀ l ∈ lines, ∃ m, jsonParse l = .ok (.obj m)) (n : Nat) :
    lineObjects (lines.take n) = (lineObjects lines).take n ∧
    (lineObjects lines).length = lines.length := by
  induction lines generalizing n with
  | nil => simp [lineObjects]
  | cons l ls ih =>
    obtain ⟨m, hm⟩ := h l (List.mem_cons_self _ _)
    have hls := fun x hx => h x (List.mem_cons_of_mem _ hx)
    have h0 := (ih hls 0).2
    cases n with
    | zero => simp [lineObjects, List.filterMap_cons, lineObject_object hm] at h0 ⊢; exact h0
    | succ n =>
      have h1 := (ih hls n).1
      simp only [lineObjects, List.take_succ_cons, List.filterMap_cons, lineObject_object hm,
        List.length_cons] at h0 h1 ⊢
      exact ⟨by rw [h1], by rw [h0]⟩

theorem scanChars_append (a : List Char) :
    ∀ (st : Scan) (b : List Char), st.users.length < MAX_OBJECTS →
      scanChars st (a ++ b) =
        match scanChars st a with
        | .ok st' => if st'.users.length < MAX_OBJECTS then scanChars st' b else .ok st'
        | .error e => .error e := by
  induction a with
  | nil =>
    intro st b hl
    simp only [List.nil_append, scanChars, if_pos hl]
  | cons c cs ih =>
    intro st b hl
    rw [List.cons_append]
    rcases scanChars_cons_cases st c with h1 | ⟨user, _, _, h1 | h1⟩ | h1 | h1
    · rw [h1, h1]
      exact ih _ b hl
    · rw [h1.2, h1.2]
      have : ¬ (Scan.clean (st.users ++ [user])).users.length < MAX_OBJECTS :=
        Nat.not_lt.2 h1.1
      simp only [if_neg this]
    · rw [h1.2, h1.2]
      exact ih _ b h1.1
    · rw [h1.2, h1.2]
      exact ih _ b hl
    · rw [h1.2, h1.2]

theorem scanLines_at_cap (lines : List (List Char)) (st : Scan) (lineCount : Nat)
    (h : ¬ st.users.length < MAX_OBJECTS) : scanLines st lineCount lines = .ok st := by
  cases lines with
  | nil => rfl
  | cons l ls =>
    rw [scanLines, if_neg]
    exact fun hc => h hc.2

/-- Below the line cap, the line loop is the character loop over the text of the lines
that are not skipped. -/
theorem scanLines_eq_scanChars (lines : List (List Char)) :
    ∀ (st : Scan) (lineCount : Nat), lineCount + lines.length ≤ MAX_LINES →
      st.users.length < MAX_OBJECTS →
      scanLines st lineCount lines = scanChars st (stripLines lines) := by
  induction lines with
  | nil => intro st k _ _; rfl
  | cons l ls ih =>
    intro st k hk hl
    simp only [List.length_cons] at hk
    rw [scanLines, if_pos ⟨by omega, hl⟩, stripLines]
    by_cases hs : isSkippedLine l = true
    · rw [if_pos hs, if_pos hs]
      exact ih st (k + 1) (by omega) hl
    · rw [if_neg hs, if_neg hs, scanChars_append l st _ hl]
      cases hsc : scanChars st l with
      | error e => rfl
      | ok st' =>
        simp only
        by_cases hl' : st'.users.length < MAX_OBJECTS
        · rw [if_pos hl']
          exact ih st' (k + 1) (by omega) hl'
        · rw [if_neg hl']
          exact scanLines_at_cap ls st' (k + 1) hl'

theorem numStep_none_of_sep {c : Char}
    (h : isJsonWs c = true ∨ c = '}' ∨ c = ']' ∨ c = ',') (a : NumAcc) :
    numStep a c = none := by
  have hc : c = ' ' ∨ c = '\t' ∨ c = '\n' ∨ c = '\r' ∨ c = '}' ∨ c = ']' ∨ c = ',' := by
    rcases h with h | h | h | h
    · simp [isJsonWs] at h; tauto
    all_goals tauto
  unfold numStep
  rcases hc with rfl | rfl | rfl | rfl | rfl | rfl | rfl <;> cases a.st <;> rfl

theorem deliver_expect (fs : List Frame) (v : Json) :
    (deliver fs v).expect = .commaOrClose ∨ (deliver fs v).expect = .done v := by
  cases fs with
  | nil => right; rfl
  | cons f fs => cases f <;> (left; rfl)

theorem stepIdle_after_value {ps ps' : PState} {c : Char}
    (he : ps.expect = .commaOrClose ∨ ∃ v, ps.expect = .done v)
    (h : stepIdle ps c = .ok ps') : isJsonWs c = true ∨ c = '}' ∨ c = ']' ∨ c = ',' := by
  cases stepIdle_cases h with
  | ws c hw => exact Or.inl hw
  | closeObj => tauto
  | closeArr => tauto
  | commaArr => tauto
  | commaObj => tauto
  | _ => rcases he with he | ⟨v, he⟩ <;> simp_all [Expect.wantsValue, Expect.wantsKey]

theorem LineFeedRel.step {po pb x : PState} {c : Char} (hr : LineFeedRel po pb) (h : step po c = .ok x) :
    step pb c = .ok x := by
  rcases hr with rfl | ⟨a, hl, hd⟩
  · exact h
  · have hn := deliverNumber_ok hd
    have hidle := (deliverNumber_track hd).2
    rw [step_idle_eq hidle] at h
    have he : po.expect = .commaOrClose ∨ ∃ v, po.expect = .done v := by
      rw [hn.2]
      rcases deliver_expect pb.stack (.num a.mantissa a.exp10) with h1 | h1
      · exact Or.inl h1
      · exact Or.inr ⟨_, h1⟩
    have hc := stepIdle_after_value he h
    obtain ⟨stack, expect, lex⟩ := pb
    simp only at hl
    subst hl
    simp only [RestClient.step, numStep_none_of_sep hc, hd, h]

theorem LineFeedRel.finish {po pb : PState} {v : Json} (hr : LineFeedRel po pb) (hl : po.lex = .idle)
    (h : finish po = .ok v) : finish pb = .ok v := by
  rcases hr with rfl | ⟨a, hlb, hd⟩
  · exact h
  · rcases finish_cases h with ⟨_, he⟩ | ⟨a', pd, hl', _, _⟩
    · obtain ⟨stack, expect, lex⟩ := pb
      simp only at hlb
      subst hlb
      simp only [RestClient.finish, hd, he]
    · rw [hl] at hl'; cases hl'

theorem LineFeedRel.finishRun {po pb : PState} {v : Json} (hr : LineFeedRel po pb) (hl : po.lex = .idle)
    (s : List Char) (h : finishRun po s = .ok v) : finishRun pb s = .ok v := by
  cases s with
  | nil => exact hr.finish hl h
  | cons c cs =>
    rw [finishRun_cons] at h ⊢
    cases hs : RestClient.step po c with
    | error e => rw [hs] at h; cases h
    | ok x => rw [hs] at h; rw [hr.step hs]; exact h

/-- A line feed the parser accepts leaves the lexer idle, and the state before it accepts
the same continuations as the state after it. -/
theorem step_newline {p p2 : PState} (h : step p '\n' = .ok p2) :
    p2.lex = .idle ∧ LineFeedRel p2 p := by
  obtain ⟨stack, expect, lex⟩ := p
  cases lex with
  | idle =>
    rw [step_idle_eq rfl, stepIdle_ws (show isJsonWs '\n' = true from rfl)] at h
    cases h
    exact ⟨rfl, Or.inl rfl⟩
  | number a =>
    simp only [step, numStep_newline] at h
    cases hd : deliverNumber { stack := stack, expect := expect, lex := .number a } a with
    | error e => rw [hd] at h; cases h
    | ok pd =>
      rw [hd] at h
      simp only [stepIdle_ws (show isJsonWs '\n' = true from rfl)] at h
      cases h
      exact ⟨(deliverNumber_track hd).2, Or.inr ⟨a, rfl, hd⟩⟩
  | lit k n =>
    exfalso
    simp only [step] at h
    cases hk : k.text.get? n with
    | none => rw [hk] at h; cases h
    | some r =>
      rw [hk] at h
      simp only at h
      have : '\n' ≠ r := by
        intro hr
        subst hr
        cases k <;> (rcases n with _ | _ | _ | _ | _ | n) <;> simp [LitKind.text] at hk
      rw [if_neg this] at h
      cases h
  | inStr acc => cases h
  | esc acc => cases h
  | hex acc hi n v => cases h
  | surr1 acc hi => cases h
  | surr2 acc hi => cases h

theorem run_ok_of_finishRun_append {ps : PState} {a b : List Char} {v : Json}
    (h : finishRun ps (a ++ b) = .ok v) :
    ∃ p, run ps a = .ok p ∧ finishRun p b = .ok v := by
  rw [finishRun_append] at h
  cases hr : run ps a with
  | error e => rw [hr] at h; cases h
  | ok p => rw [hr] at h; exact ⟨p, rfl, h⟩

theorem LineFeedRel.run {po pb p1 : PState} {l : List Char} (hr : LineFeedRel po pb) (hne : l ≠ [])
    (h : run po l = .ok p1) : run pb l = .ok p1 := by
  cases l with
  | nil => exact absurd rfl hne
  | cons c cs =>
    simp only [RestClient.run] at h ⊢
    cases hs : RestClient.step po c with
    | error e => rw [hs] at h; cases h
    | ok x => rw [hs] at h; rw [hr.step hs]; exact h

/-- Taking the line feeds and the skipped lines out of a text that parses leaves a text
that parses to the same value. -/
theorem finishRun_stripLines (v : Json) (lines : List (List Char)) :
    ∀ (po pb : PState), po.lex = .idle → LineFeedRel po pb →
      finishRun po (joinLines lines) = .ok v → finishRun pb (stripLines lines) = .ok v := by
  induction lines with
  | nil =>
    intro po pb hl hr h
    exact hr.finish hl h
  | cons l ls ih =>
    intro po pb hl hr h
    simp only [joinLines] at h
    obtain ⟨p1, hrun, h1⟩ := run_ok_of_finishRun_append h
    rw [finishRun_cons] at h1
    cases hs : step p1 '\n' with
    | error e => rw [hs] at h1; cases h1
    | ok p2 =>
      rw [hs] at h1
      simp only at h1
      have hnl := step_newline hs
      rw [stripLines]
      by_cases hsk : isSkippedLine l = true
      · rw [if_pos hsk]
        rcases isSkippedLine_cases hsk with hb | ⟨c, rest, hc, hh⟩
        · rw [run_idle_allWs hl l hb] at hrun
          cases hrun
          rw [step_idle_ws hl (show isJsonWs '\n' = true from rfl)] at hs
          cases hs
          exact ih po pb hl hr h1
        · exfalso
          subst hc
          simp only [run, step_idle_eq hl, stepIdle_header hh] at hrun
          cases hrun
      · rw [if_neg hsk]
        have hne : l ≠ [] := not_skipped_ne_nil (by simpa using hsk)
        rw [finishRun_append, hr.run hne hrun]
        exact ih p2 p1 hnl.1 hnl.2 h1

theorem parseCore_ok_jsonParse {s : List Char} {v : Json} (h : parseCore s = .ok v) :
    jsonParse s = .ok v := by
  rcases jsonParse_cases s with ⟨cs, hs, _⟩ | ⟨_, hp⟩
  · subst hs; cases h
  · rw [hp]; exact h

theorem parseCore_stripLines {s : List Char} {v : Json} (h : parseCore s = .ok v) :
    parseCore (stripLines (getlines s)) = .ok v := by
  rw [← parseCore_joinLines] at h
  exact finishRun_stripLines v _ _ _ rfl (Or.inl rfl) h

/-- The text the scan reads from a text that parses is a text that parses to the same
value. -/
theorem jsonParse_stripLines {s : List Char} {v : Json} (h : jsonParse s = .ok v) :
    jsonParse (stripLines (getlines s)) = .ok v := by
  rcases jsonParse_cases s with ⟨cs, hs, hp⟩ | ⟨_, hp⟩
  · rw [hp] at h
    subst hs
    obtain ⟨l1, ls, h1, h2⟩ := getlines_cons_ne (show Char.ofNat 0xFEFF ≠ '\n' by decide) cs
    rw [h1, stripLines, isSkippedLine_bom]
    simp only [Bool.false_eq_true, if_false, List.cons_append, jsonParse, if_true]
    rcases h2 with h2 | ⟨h2, _, _⟩
    · have h3 := parseCore_stripLines h
      rw [h2, stripLines] at h3
      by_cases hsk : isSkippedLine l1 = true
      · rw [if_pos hsk] at h3
        rcases isSkippedLine_cases hsk with hb | ⟨c, rest, hc, hh⟩
        · rw [parseCore_eq, finishRun_append, run_idle_allWs rfl l1 hb]
          exact h3
        · exfalso
          rw [← parseCore_joinLines, h2, hc] at h
          simp only [joinLines, List.cons_append, parseCore_eq, finishRun_cons,
            step_idle_eq (show PState.init.lex = .idle from rfl), stepIdle_header hh] at h
          cases h
      · rw [if_neg hsk] at h3
        exact h3
    · subst h2; cases h
  · rw [hp] at h
    exact parseCore_ok_jsonParse (parseCore_stripLines h)

/-- A text of at most `MAX_LINES` lines that parses to an object, on one line or spread
over several, is extracted as that one object. -/
theorem parseJsonData_whole_object {s : List Char} {m : List (List Char × Json)}
    (h : jsonParse s = .ok (.obj m)) (hcap : (getlines s).length ≤ MAX_LINES) :
    parseJsonData s = .ok [.obj m] := by
  unfold parseJsonData
  rw [arrayAttempt_of_objOrErr (Or.inr ⟨m, h⟩)]
  simp only
  unfold ndjsonFallback
  rw [scanLines_eq_scanChars _ _ _ (by omega) (by decide),
    show Scan.init = Scan.clean [] from rfl,
    scanChars_object (jsonParse_stripLines h) (by decide)]
  simp only [finalAttempt_clean]
  rfl

set_option maxRecDepth 10000 in
/-- The model on sample texts: values, key order and overwriting, escapes, and the two
kinds of failure. -/
theorem jsonParse_samples :
    jsonParse " [1, -2.50e1, true, null, \"x\"] ".toList =
      .ok (.arr [.num 1 0, .num (-250) (-1), .bool true, .null, .str "x".toList]) ∧
    jsonParse "\x7b\"b\":1,\"a\":2,\"b\":3\x7d".toList =
      .ok (.obj [("a".toList, .num 2 0), ("b".toList, .num 3 0)]) ∧
    jsonParse "\"\\u00e9\\n\\ud83d\\ude00\"".toList =
      .ok (.str [Char.ofNat 0xe9, '\n', Char.ofNat 0x1f600]) ∧
    jsonParse "01".toList = .error .parseError ∧
    jsonParse "tru".toList = .error .parseError ∧
    jsonParse "[1,]".toList = .error .parseError ∧
    jsonParse "\x7b\"a\":1,\x7d".toList = .error .parseError ∧
    jsonParse "\"a\nb\"".toList = .error .parseError ∧
    jsonParse "\"\\ud83d\"".toList = .error .parseError ∧
    jsonParse "\x7b\x7d \x7b\x7d".toList = .error .parseError ∧
    jsonParse "".toList = .error .parseError ∧
    jsonParse "[1e200]".toList = .ok (.arr [.num 1 200]) ∧
    jsonParse ('1' :: List.replicate 309 '0') = .error .outOfRange ∧
    jsonParse ('[' :: '1' :: List.replicate 309 '0') = .error .outOfRange ∧
    jsonParse ('\x7b' :: '1' :: List.replicate 309 '0') = .error .parseError :=
  ⟨rfl, rfl, rfl, rfl, rfl, rfl, rfl, rfl, rfl, rfl, rfl, rfl, rfl, rfl, rfl⟩

theorem popBracket_some {b : Char} {st rest : List Char} (h : popBracket b st = some rest) :
    st = b :: rest := by
  cases st with
  | nil => cases h
  | cons top tl =>
    simp only [popBracket] at h
    split at h
    · cases h; subst_vars; rfl
    · cases h

theorem isCompleteLoop_inline (s : List Char) :
    ∀ (brackets : List Char) (inString escapeNext : Bool) (n : Int),
      isCompleteLoop brackets inString escapeNext s = true →
      (s.foldl trackStep (n + braceDepth brackets, inString, escapeNext)).1 = n ∧
      (s.foldl trackStep (n + braceDepth brackets, inString, escapeNext)).2.1 = false := by
  induction s with
  | nil =>
    intro st is en n h
    simp only [isCompleteLoop, Bool.and_eq_true, List.isEmpty_iff, Bool.not_eq_true'] at h
    rw [h.1, h.2]
    simp [braceDepth]
  | cons c cs ih =>
    intro st is en n h
    rw [isCompleteLoop] at h
    simp only [List.foldl_cons]
    cases en with
    | true =>
      simp only [if_true] at h
      simpa [trackStep] using ih st is false n h
    | false =>
      simp only [Bool.false_eq_true, if_false] at h
      by_cases h1 : c = '\\'
      · rw [if_pos h1] at h
        simpa [trackStep, h1] using ih st is true n h
      rw [if_neg h1] at h
      by_cases h2 : c = '"'
      · rw [if_pos h2] at h
        subst h2
        have := ih st (!is) false n h
        cases is <;> simpa [trackStep] using this
      rw [if_neg h2] at h
      cases is with
      | true =>
        simp only [if_true] at h
        simpa [trackStep, h1, h2] using ih st true false n h
      | false =>
        simp only [Bool.false_eq_true, if_false] at h
        by_cases h3 : c = '{'
        · rw [if_pos h3] at h
          subst h3
          have := ih ('{' :: st) false false n h
          simp only [braceDepth, if_true] at this
          simpa [trackStep, add_assoc] using this
        rw [if_neg h3] at h
        by_cases h4 : c = '}'
        · rw [if_pos h4] at h
          subst h4
          cases hp : popBracket '{' st with
          | none => rw [hp] at h; cases h
          | some rest =>
            rw [hp] at h
            rw [popBracket_some hp]
            have := ih rest false false n h
            have he : n + (braceDepth rest + 1) - 1 = n + braceDepth rest := by omega
            simpa [trackStep, braceDepth, he] using this
        rw [if_neg h4] at h
        by_cases h5 : c = '['
        · rw [if_pos h5] at h
          subst h5
          have := ih ('[' :: st) false false n h
          simpa [trackStep, braceDepth] using this
        rw [if_neg h5] at h
        by_cases h6 : c = ']'
        · rw [if_pos h6] at h
          subst h6
          cases hp : popBracket '[' st with
          | none => rw [hp] at h; cases h
          | some rest =>
            rw [hp] at h
            rw [popBracket_some hp]
            have := ih rest false false n h
            simpa [trackStep, braceDepth] using this
        rw [if_neg h6] at h
        simpa [trackStep, h1, h2, h3, h4] using ih st false false n h

theorem isCompleteLoop_cons_plain (st : List Char) (c : Char) (cs : List Char)
    (h1 : c ≠ '\\') (h2 : c ≠ '"') :
    isCompleteLoop st false false (c :: cs) =
      if c = '{' then isCompleteLoop ('{' :: st) false false cs
      else if c = '}' then
        match popBracket '{' st with
        | some rest => isCompleteLoop rest false false cs
        | none => false
      else if c = '[' then isCompleteLoop ('[' :: st) false false cs
      else if c = ']' then
        match popBracket '[' st with
        | some rest => isCompleteLoop rest false false cs
        | none => false
      else isCompleteLoop st false false cs := by
  rw [isCompleteLoop, if_neg (by simp), if_neg h1, if_neg h2, if_neg (by simp)]

/-- Outside strings, characters that are no brackets do not change the outcome. -/
theorem isCompleteLoop_filter (s : List Char) (hq : '"' ∉ s) (hb : '\\' ∉ s) :
    ∀ st : List Char, isCompleteLoop st false false s =
      isCompleteLoop st false false (s.filter isBracket) := by
  induction s with
  | nil => intro st; rfl
  | cons c cs ih =>
    intro st
    have h1 : c ≠ '\\' := fun h => hb (h ▸ List.mem_cons_self _ _)
    have h2 : c ≠ '"' := fun h => hq (h ▸ List.mem_cons_self _ _)
    have ih' := ih (fun h => hq (List.mem_cons_of_mem _ h)) (fun h => hb (List.mem_cons_of_mem _ h))
    by_cases hc : isBracket c = true
    · rw [List.filter_cons_of_pos hc, isCompleteLoop_cons_plain st c _ h1 h2,
        isCompleteLoop_cons_plain st c _ h1 h2]
      simp only [ih']
    · rw [List.filter_cons_of_neg hc, isCompleteLoop_cons_plain st c _ h1 h2]
      simp only [isBracket, Bool.or_eq_true, decide_eq_true_eq, not_or] at hc
      rw [if_neg hc.1.1.1, if_neg hc.1.1.2, if_neg hc.1.2, if_neg hc.2]
      exact ih' st

theorem isCompleteLoop_wellNested {w : List Char} (h : WellNested w) :
    ∀ st rest : List Char, isCompleteLoop st false false (w ++ rest) =
      isCompleteLoop st false false rest := by
  induction h with
  | nil => intro st rest; rfl
  | brace _ _ ihw ihv =>
    intro st rest
    simp only [List.cons_append, List.append_assoc]
    rw [isCompleteLoop_cons_plain st '{' _ (by decide) (by decide), if_pos rfl, ihw,
      isCompleteLoop_cons_plain _ '}' _ (by decide) (by decide), if_neg (by decide), if_pos rfl]
    simp only [popBracket, if_true]
    exact ihv st rest
  | bracket _ _ ihw ihv =>
    intro st rest
    simp only [List.cons_append, List.append_assoc]
    rw [isCompleteLoop_cons_plain st '[' _ (by decide) (by decide),
      if_neg (by decide), if_neg (by decide), if_pos rfl, ihw,
      isCompleteLoop_cons_plain _ ']' _ (by decide) (by decide), if_neg (by decide),
      if_neg (by decide), if_neg (by decide), if_pos rfl]
    simp only [popBracket, if_true]
    exact ihv st rest

theorem Closes.wrap_brace {w s : List Char} (hw : WellNested w) :
    ∀ st : List Char, Closes st s → Closes st ('{' :: w ++ '}' :: s) := by
  intro st h
  cases st with
  | nil => exact WellNested.brace hw h
  | cons b rest =>
    obtain ⟨w', s', hw', hs, hc⟩ := h
    refine ⟨'{' :: w ++ '}' :: w', s', WellNested.brace hw hw', ?_, hc⟩
    rw [hs]; simp

theorem Closes.wrap_bracket {w s : List Char} (hw : WellNested w) :
    ∀ st : List Char, Closes st s → Closes st ('[' :: w ++ ']' :: s) := by
  intro st h
  cases st with
  | nil => exact WellNested.bracket hw h
  | cons b rest =>
    obtain ⟨w', s', hw', hs, hc⟩ := h
    refine ⟨'[' :: w ++ ']' :: w', s', WellNested.bracket hw hw', ?_, hc⟩
    rw [hs]; simp

theorem isCompleteLoop_closes (s : List Char) (hs : ∀ c ∈ s, isBracket c = true) :
    ∀ st : List Char, isCompleteLoop st false false s = true → Closes st s := by
  induction s with
  | nil =>
    intro st h
    simp only [isCompleteLoop, Bool.and_eq_true, List.isEmpty_iff] at h
    rw [h.1]
    exact WellNested.nil
  | cons c cs ih =>
    intro st h
    have ih' := ih (fun d hd => hs d (List.mem_cons_of_mem _ hd))
    have hc := hs c (List.mem_cons_self _ _)
    simp only [isBracket, Bool.or_eq_true, decide_eq_true_eq] at hc
    rcases hc with ((hc | hc) | hc) | hc <;> subst hc
    · rw [isCompleteLoop_cons_plain st '{' _ (by decide) (by decide), if_pos rfl] at h
      obtain ⟨w, s', hw, hcs, hcl⟩ := ih' _ h
      rw [hcs]
      exact Closes.wrap_brace hw st hcl
    · rw [isCompleteLoop_cons_plain st '}' _ (by decide) (by decide), if_neg (by decide),
        if_pos rfl] at h
      cases hp : popBracket '{' st with
      | none => rw [hp] at h; cases h
      | some rest =>
        rw [hp] at h
        rw [popBracket_some hp]
        exact ⟨[], cs, WellNested.nil, rfl, ih' rest h⟩
    · rw [isCompleteLoop_cons_plain st '[' _ (by decide) (by decide), if_neg (by decide),
        if_neg (by decide), if_pos rfl] at h
      obtain ⟨w, s', hw, hcs, hcl⟩ := ih' _ h
      rw [hcs]
      exact Closes.wrap_bracket hw st hcl
    · rw [isCompleteLoop_cons_plain st ']' _ (by decide) (by decide), if_neg (by decide),
        if_neg (by decide), if_neg (by decide), if_pos rfl] at h
      cases hp : popBracket '[' st with
      | none => rw [hp] at h; cases h
      | some rest =>
        rw [hp] at h
        rw [popBracket_some hp]
        exact ⟨[], cs, WellNested.nil, rfl, ih' rest h⟩

theorem liftState_not_done {base : List Frame} {ps : PState}
    (h : ∀ v, ps.expect ≠ .done v) :
    liftState base ps = { stack := ps.stack ++ base, expect := ps.expect, lex := ps.lex } := by
  obtain ⟨stack, expect, lex⟩ := ps
  cases expect with
  | done v => exact absurd rfl (h v)
  | _ => rfl

theorem liftState_deliver (base fs : List Frame) (v : Json) :
    liftState base (deliver fs v) = deliver (fs ++ base) v := by
  cases fs with
  | nil => rfl
  | cons f fs => cases f <;> rfl

theorem stepIdle_lift {ps ps' : PState} {c : Char} (base : List Frame)
    (h : stepIdle ps c = .ok ps') :
    stepIdle (liftState base ps) c = .ok (liftState base ps') := by
  by_cases hd : ∃ v, ps.expect = .done v
  · obtain ⟨v, hv⟩ := hd
    have := stepIdle_done hv h
    rw [this.2, stepIdle_ws this.1]
  · have hnd : ∀ v, ps.expect ≠ .done v := fun v hv => hd ⟨v, hv⟩
    rw [liftState_not_done hnd]
    obtain ⟨stack, expect, lex⟩ := ps
    simp only at hnd
    unfold stepIdle at h ⊢
    by_cases hw : isJsonWs c = true
    · rw [if_pos hw] at h ⊢
      cases h
      rw [liftState_not_done hnd]
    rw [if_neg hw] at h ⊢
    by_cases h1 : c = '{'
    · rw [if_pos h1] at h ⊢
      split at h
      · cases h
        rw [if_pos ‹_›]
        rfl
      · cases h
    rw [if_neg h1] at h ⊢
    by_cases h2 : c = '}'
    · rw [if_pos h2] at h ⊢
      split at h <;> cases h <;> simp_all [liftState_deliver]
    rw [if_neg h2] at h ⊢
    by_cases h3 : c = '['
    · rw [if_pos h3] at h ⊢
      split at h
      · cases h
        rw [if_pos ‹_›]
        rfl
      · cases h
    rw [if_neg h3] at h ⊢
    by_cases h4 : c = ']'
    · rw [if_pos h4] at h ⊢
      split at h <;> cases h <;> simp_all [liftState_deliver]
    rw [if_neg h4] at h ⊢
    by_cases h5 : c = ':'
    · rw [if_pos h5] at h ⊢
      split at h <;> cases h
      simp_all [liftState]
    rw [if_neg h5] at h ⊢
    by_cases h6 : c = ','
    · rw [if_pos h6] at h ⊢
      split at h <;> cases h <;> simp_all [liftState]
    rw [if_neg h6] at h ⊢
    by_cases h7 : c = '"'
    · rw [if_pos h7] at h ⊢
      split at h <;> cases h
      rw [if_pos ‹_›, liftState_not_done hnd]
    rw [if_neg h7] at h ⊢
    split at h
    · rename_i hv
      rw [if_pos hv]
      by_cases c1 : c = 't'
      · rw [if_pos c1] at h ⊢; cases h; rw [liftState_not_done hnd]
      rw [if_neg c1] at h ⊢
      by_cases c2 : c = 'f'
      · rw [if_pos c2] at h ⊢; cases h; rw [liftState_not_done hnd]
      rw [if_neg c2] at h ⊢
      by_cases c3 : c = 'n'
      · rw [if_pos c3] at h ⊢; cases h; rw [liftState_not_done hnd]
      rw [if_neg c3] at h ⊢
      by_cases c4 : c = '-'
      · rw [if_pos c4] at h ⊢; cases h; rw [liftState_not_done hnd]
      rw [if_neg c4] at h ⊢
      by_cases c5 : c = '0'
      · rw [if_pos c5] at h ⊢; cases h; rw [liftState_not_done hnd]
      rw [if_neg c5] at h ⊢
      by_cases c6 : isDigit c = true
      · rw [if_pos c6] at h ⊢; cases h; rw [liftState_not_done hnd]
      rw [if_neg c6] at h
      cases h
    · cases h

theorem deliverValue_lift {ps ps' : PState} {v : Json} (base : List Frame)
    (h : deliverValue ps v = .ok ps') :
    deliverValue { stack := ps.stack ++ base, expect := ps.expect, lex := ps.lex } v =
      .ok (liftState base ps') := by
  have := deliverValue_ok h
  simp only [deliverValue, this.1, if_true, this.2, liftState_deliver]

theorem wantsValue_not_done {e : Expect} (h : e.wantsValue = true) : ∀ v, e ≠ .done v := by
  intro v hv; subst hv; cases h

theorem wantsKey_not_done {e : Expect} (h : e.wantsKey = true) : ∀ v, e ≠ .done v := by
  intro v hv; subst hv; cases h

theorem deliverString_lift {ps ps' : PState} {s : List Char} (base : List Frame)
    (h : deliverString ps s = .ok ps') :
    deliverString { stack := ps.stack ++ base, expect := ps.expect, lex := ps.lex } s =
      .ok (liftState base ps') := by
  rcases deliverString_cases h with ⟨hv, hp⟩ | ⟨hk, ms, k, fs, hst, hp⟩
  · simp only [deliverString, hv, if_true, deliverValue, hp, liftState_deliver]
  · have hv : ps.expect.wantsValue = false := by
      cases he : ps.expect <;> simp_all [Expect.wantsValue, Expect.wantsKey]
    simp only [deliverString, hv, hk, hst, hp, Bool.false_eq_true, if_false, if_true,
      List.cons_append]
    rfl

theorem deliverNumber_lift {ps ps' : PState} {a : NumAcc} (base : List Frame)
    (h : deliverNumber ps a = .ok ps') :
    deliverNumber { stack := ps.stack ++ base, expect := ps.expect, lex := ps.lex } a =
      .ok (liftState base ps') := by
  unfold deliverNumber at h ⊢
  split at h
  · rw [if_pos ‹_›]
    split at h
    · rw [if_pos ‹_›]
      split at h
      · cases h
      · rw [if_neg ‹_›]
        exact deliverValue_lift base h
    · cases h
  · cases h

/-- A parse that succeeds at top level takes the same steps inside open containers. -/
theorem step_lift {ps ps' : PState} {c : Char} (base : List Frame) (hwf : ps.wf)
    (h : step ps c = .ok ps') : step (liftState base ps) c = .ok (liftState base ps') := by
  by_cases hd : ∃ v, ps.expect = .done v
  · obtain ⟨v, hv⟩ := hd
    rw [step_idle_eq (hwf v hv).2] at h
    have hl : (liftState base ps).lex = .idle := by
      obtain ⟨stack, expect, lex⟩ := ps
      simp only at hv
      subst hv
      exact deliver_lex _ _
    rw [step_idle_eq hl]
    exact stepIdle_lift base h
  · have hnd : ∀ v, ps.expect ≠ .done v := fun v hv => hd ⟨v, hv⟩
    by_cases hl : ps.lex = .idle
    · rw [step_idle_eq hl] at h
      have hl' : (liftState base ps).lex = .idle := by
        rw [liftState_not_done hnd]; exact hl
      rw [step_idle_eq hl']
      exact stepIdle_lift base h
    · rw [liftState_not_done hnd]
      obtain ⟨stack, expect, lex⟩ := ps
      simp only at hnd hl
      have hkeep : ∀ l : Lex, liftState base { stack := stack, expect := expect, lex := l } =
          { stack := stack ++ base, expect := expect, lex := l } :=
        fun l => @liftState_not_done base ⟨stack, expect, l⟩ hnd
      cases lex with
      | idle => exact absurd rfl hl
      | inStr acc =>
        simp only [step] at h ⊢
        split at h
        · rw [if_pos ‹_›]
          exact deliverString_lift base h
        · rw [if_neg ‹_›]
          split at h
          · cases h; rw [if_pos ‹_›, hkeep]
          · rw [if_neg ‹_›]
            split at h
            · cases h
            · cases h; rw [if_neg ‹_›, hkeep]
      | esc acc =>
        simp only [step] at h ⊢
        split at h
        · cases h; rw [hkeep]
        · split at h
          · cases h; rw [if_pos ‹_›, hkeep]
          · cases h
      | hex acc hi n v =>
        simp only [step] at h ⊢
        split at h
        · cases h
        · split at h
          · cases h; rw [if_pos ‹_›, hkeep]
          · rw [if_neg ‹_›]
            unfold hexDone at h ⊢
            split at h
            · split at h
              · cases h; rw [if_pos ‹_›, hkeep]
              · rw [if_neg ‹_›]
                split at h
                · cases h
                · cases h; rw [if_neg ‹_›, hkeep]
            · split at h
              · cases h; rw [if_pos ‹_›, hkeep]
              · cases h
      | surr1 acc hi =>
        simp only [step] at h ⊢
        split at h
        · cases h; rw [if_pos ‹_›, hkeep]
        · cases h
      | surr2 acc hi =>
        simp only [step] at h ⊢
        split at h
        · cases h; rw [if_pos ‹_›, hkeep]
        · cases h
      | number a =>
        simp only [step] at h ⊢
        split at h
        · cases h; rw [hkeep]
        · split at h
          · rename_i pd hpd
            have := deliverNumber_lift base hpd
            simp only at this
            rw [this]
            exact stepIdle_lift base h
          · cases h
      | lit k n =>
        simp only [step] at h ⊢
        split at h
        · cases h
        · split at h
          · rw [if_pos ‹_›]
            split at h
            · rw [if_pos ‹_›]
              exact deliverValue_lift base h
            · cases h; rw [if_neg ‹_›, hkeep]
          · cases h

theorem run_lift (base : List Frame) (s : List Char) :
    ∀ (ps pf : PState), ps.wf → run ps s = .ok pf →
      run (liftState base ps) s = .ok (liftState base pf) := by
  induction s with
  | nil => intro ps pf _ h; cases h; rfl
  | cons c cs ih =>
    intro ps pf hwf h
    simp only [run] at h ⊢
    cases hs : step ps c with
    | error e => rw [hs] at h; cases h
    | ok p =>
      rw [hs] at h
      rw [step_lift base hwf hs]
      exact ih p pf (step_wf hwf hs) h

theorem run_object_in_array {o : List Char} {m : List (List Char × Json)}
    (h : parseCore o = .ok (.obj m)) (items : List Json) :
    run (PState.inArray items .value) o = .ok (PState.inArray (.obj m :: items) .commaOrClose) := by
  rw [parseCore_eq, finishRun] at h
  cases hr : run PState.init o with
  | error e => rw [hr] at h; cases h
  | ok pf =>
    rw [hr] at h
    have hd := finish_object_done h
    have := run_lift [.arr items] o PState.init pf init_wf hr
    have hl : liftState [.arr items] pf = PState.inArray (.obj m :: items) .commaOrClose := by
      obtain ⟨stack, expect, lex⟩ := pf
      simp only at hd
      obtain ⟨he, _⟩ := hd
      subst he
      rfl
    rw [hl] at this
    exact this

/-- Just after `[` the parser reads an object text as it does after a comma. -/
theorem run_object_after_open (o : List Char) (m : List (List Char × Json)) :
    finishRun PState.init o = .ok (.obj m) → ∀ items : List Json,
      run (PState.inArray items .valueOrClose) o = run (PState.inArray items .value) o := by
  induction o with
  | nil => intro h; cases h
  | cons c cs ih =>
    intro h items
    rw [finishRun_cons] at h
    cases hs : step PState.init c with
    | error e => rw [hs] at h; cases h
    | ok p =>
      rw [hs] at h
      simp only at h
      rcases init_step_object hs h with ⟨hw, hp⟩ | ⟨hc, hp⟩
      · rw [hp] at h
        simp only [run, step_idle_ws (show (PState.inArray items .valueOrClose).lex = .idle from rfl) hw,
          step_idle_ws (show (PState.inArray items .value).lex = .idle from rfl) hw]
        exact ih h items
      · subst hc
        rfl

theorem finish_inArray (items : List Json) (e : Expect) (he : ∀ v, e ≠ .done v) :
    finish (PState.inArray items e) = .error .parseError := by
  cases e with
  | done v => exact absurd rfl (he v)
  | _ => rfl

theorem step_inArray_bom (items : List Json) (e : Expect) :
    step (PState.inArray items e) (Char.ofNat 0xFEFF) = .error .parseError := by
  rw [step_idle_eq rfl]
  rcases stepIdle_ok_or (PState.inArray items e) (Char.ofNat 0xFEFF) with ⟨p, hp⟩ | hp
  · exfalso
    cases stepIdle_cases hp with
    | ws c hw => revert hw; decide
    | numStart c a _ hc => revert hc; decide
  · exact hp

/-- An array text that ends, without `]`, after one or more object texts with commas
between them is a `parse_error`. -/
theorem finishRun_joinComma (os : List (List Char)) :
    ∀ (items : List Json) (e : Expect), (e = .value ∨ e = .valueOrClose) → os ≠ [] →
      (∀ o ∈ os, ∃ m, jsonParse o = .ok (.obj m)) →
      finishRun (PState.inArray items e) (joinComma os) = .error .parseError := by
  induction os with
  | nil => intro _ _ _ h; exact absurd rfl h
  | cons o rest ih =>
    intro items e he _ hos
    obtain ⟨m, hm⟩ := hos o (List.mem_cons_self _ _)
    have hrest : ∀ o ∈ rest, ∃ m, jsonParse o = .ok (.obj m) :=
      fun x hx => hos x (List.mem_cons_of_mem _ hx)
    rcases jsonParse_cases o with ⟨cs, hs, _⟩ | ⟨_, hp⟩
    · subst hs
      cases rest with
      | nil => simp only [joinComma, finishRun_cons, step_inArray_bom]
      | cons o2 rest2 =>
        simp only [joinComma, List.cons_append, finishRun_cons, step_inArray_bom]
    · rw [hp] at hm
      have hrun : run (PState.inArray items e) o =
          .ok (PState.inArray (.obj m :: items) .commaOrClose) := by
        rcases he with he | he <;> subst he
        · exact run_object_in_array hm items
        · rw [run_object_after_open o m hm items]
          exact run_object_in_array hm items
      cases rest with
      | nil =>
        simp only [joinComma, finishRun, hrun]
        rfl
      | cons o2 rest2 =>
        simp only [joinComma]
        rw [finishRun_append, hrun]
        simp only
        rw [finishRun_cons]
        have hstep : step (PState.inArray (.obj m :: items) .commaOrClose) ',' =
            .ok (PState.inArray (.obj m :: items) .value) := rfl
        rw [hstep]
        exact ih (.obj m :: items) .value (Or.inl rfl) (by simp) hrest

theorem jsonParse_single_comma : jsonParse [','] = .error .parseError := rfl

theorem jsonParse_single_open : jsonParse ['['] = .error .parseError := rfl

/-- The character loop over object texts with commas between them: every object is
extracted, every comma is tried alone and discarded. -/
theorem scanChars_joinComma (os : List (List Char)) :
    ∀ users : List Json, users.length + os.length ≤ MAX_OBJECTS →
      (∀ o ∈ os, ∃ m, jsonParse o = .ok (.obj m)) →
      scanChars (Scan.clean users) (joinComma os) = .ok (Scan.clean (users ++ lineObjects os)) := by
  induction os with
  | nil => intro users _ _; simp [joinComma, scanChars, lineObjects]
  | cons o rest ih =>
    intro users hlen hos
    obtain ⟨m, hm⟩ := hos o (List.mem_cons_self _ _)
    have hrest : ∀ o ∈ rest, ∃ m, jsonParse o = .ok (.obj m) :=
      fun x hx => hos x (List.mem_cons_of_mem _ hx)
    simp only [List.length_cons] at hlen
    have hu : users.length < MAX_OBJECTS := by omega
    have hobj : lineObjects (o :: rest) = .obj m :: lineObjects rest := by
      simp only [lineObjects, List.filterMap_cons, lineObject_object hm]
    rw [hobj]
    cases rest with
    | nil =>
      simp only [joinComma, lineObjects, List.filterMap_nil]
      exact scanChars_object hm hu
    | cons o2 rest2 =>
      simp only [joinComma]
      rw [scanChars_append o _ _ hu, scanChars_object hm hu]
      simp only [List.length_cons] at hlen
      have hu2 : (Scan.clean (users ++ [Json.obj m])).users.length < MAX_OBJECTS := by
        simp only [Scan.clean, List.length_append, List.length_singleton]
        omega
      simp only [if_pos hu2]
      rw [scanChars_check _ rfl (trackStep_untracked (by decide) 0 false)]
      simp only [Scan.clean, List.nil_append, jsonParse_single_comma]
      have := ih (users ++ [Json.obj m]) (by
        simp only [List.length_append, List.length_singleton, List.length_cons, List.length_nil]
        omega) hrest
      simp only [Scan.clean, List.append_assoc, List.singleton_append] at this
      exact this

/-- The outcome of `parseJsonData` on a one-line array text without the closing `]`. -/
theorem parseJsonData_open_array (os : List (List Char)) (hne : os ≠ [])
    (hk : os.length ≤ MAX_OBJECTS) (hos : ∀ o ∈ os, ∃ m, jsonParse o = .ok (.obj m))
    (hnl : '\n' ∉ joinComma os) :
    parseJsonData ('[' :: joinComma os) = .ok (lineObjects os) := by
  have ha : arrayAttempt ('[' :: joinComma os) = .ok none := by
    apply arrayAttempt_of_objOrErr
    left
    have : jsonParse ('[' :: joinComma os) = parseCore ('[' :: joinComma os) := rfl
    rw [this, parseCore_eq, finishRun_cons]
    exact finishRun_joinComma os [] .valueOrClose (Or.inr rfl) hne hos
  have hg : getlines ('[' :: joinComma os) = ['[' :: joinComma os] := by
    apply getlines_no_newline _ (by simp)
    intro h
    rcases List.mem_cons.1 h with h | h
    · revert h; decide
    · exact hnl h
  have hsk : isSkippedLine ('[' :: joinComma os) = false := by
    cases h : isSkippedLine ('[' :: joinComma os) with
    | false => rfl
    | true =>
      exfalso
      rcases isSkippedLine_cases h with hb | ⟨c, r, hl, hc⟩
      · have := hb _ (List.mem_cons_self _ _)
        revert this; decide
      · cases hl; revert hc; decide
  have hscan : scanChars Scan.init ('[' :: joinComma os) = .ok (Scan.clean (lineObjects os)) := by
    rw [show Scan.init = Scan.clean [] from rfl,
      scanChars_check _ rfl (trackStep_untracked (by decide) 0 false)]
    simp only [Scan.clean, List.nil_append, jsonParse_single_open]
    have := scanChars_joinComma os [] (by simpa using hk) hos
    simpa [Scan.clean] using this
  have hobjs : lineObjects os ≠ [] := by
    cases os with
    | nil => exact absurd rfl hne
    | cons o rest =>
      obtain ⟨m, hm⟩ := hos o (List.mem_cons_self _ _)
      simp [lineObjects, List.filterMap_cons, lineObject_object hm]
  unfold parseJsonData
  rw [ha]
  simp only
  unfold ndjsonFallback
  rw [hg, scanLines, if_pos ⟨by decide, by decide⟩, hsk]
  simp only [Bool.false_eq_true, if_false, hscan, scanLines, finalAttempt_clean]
  cases hl : lineObjects os with
  | nil => exact absurd hl hobjs
  | cons a as => rfl

theorem Char_toNat_inj (a b : Char) (h : a.toNat = b.toNat) : a = b := by
  have := congrArg Char.ofNat h
  simpa using this

theorem strLt_irrefl (a : List Char) : strLt a a = false := by
  induction a with
  | nil => rfl
  | cons c cs ih => simp [strLt, ih]

theorem strLt_trans : ∀ (a b c : List Char), strLt a b = true → strLt b c = true →
    strLt a c = true := by
  intro a
  induction a with
  | nil =>
    intro b c hab hbc
    cases b with
    | nil => cases hab
    | cons y ys =>
      cases c with
      | nil => cases hbc
      | cons z zs => rfl
  | cons x xs ih =>
    intro b c hab hbc
    cases b with
    | nil => cases hab
    | cons y ys =>
      cases c with
      | nil => cases hbc
      | cons z zs =>
        simp only [strLt] at hab hbc ⊢
        by_cases h1 : x.toNat < y.toNat
        · by_cases h2 : y.toNat < z.toNat
          · rw [if_pos (by omega)]
          · rw [if_neg h2] at hbc
            by_cases h3 : z.toNat < y.toNat
            · rw [if_pos h3] at hbc; cases hbc
            · rw [if_pos (by omega)]
        · rw [if_neg h1] at hab
          by_cases h1' : y.toNat < x.toNat
          · rw [if_pos h1'] at hab; cases hab
          · rw [if_neg h1'] at hab
            by_cases h2 : y.toNat < z.toNat
            · rw [if_pos (by omega)]
            · rw [if_neg h2] at hbc
              by_cases h3 : z.toNat < y.toNat
              · rw [if_pos h3] at hbc; cases hbc
              · rw [if_neg h3] at hbc
                rw [if_neg (by omega), if_neg (by omega)]
                exact ih ys zs hab hbc

theorem strLt_total : ∀ (a b : List Char), strLt a b = false → strLt b a = false → a = b := by
  intro a
  induction a with
  | nil =>
    intro b hab hba
    cases b with
    | nil => rfl
    | cons y ys => cases hab
  | cons x xs ih =>
    intro b hab hba
    cases b with
    | nil => cases hba
    | cons y ys =>
      simp only [strLt] at hab hba
      by_cases h1 : x.toNat < y.toNat
      · rw [if_pos h1] at hab; cases hab
      · rw [if_neg h1] at hab
        by_cases h2 : y.toNat < x.toNat
        · rw [if_pos h2] at hab hba; cases hba
        · rw [if_neg h2] at hab hba
          rw [if_neg h1] at hba
          rw [Char_toNat_inj x y (by omega), ih ys hab hba]

theorem strLt_ne {a b : List Char} (h : strLt a b = true) : a ≠ b := by
  intro he
  rw [he, strLt_irrefl] at h
  cases h

theorem strLt_asymm {a b : List Char} (h : strLt a b = true) : strLt b a = false := by
  cases hb : strLt b a with
  | false => rfl
  | true =>
    have := strLt_trans a b a h hb
    rw [strLt_irrefl] at this
    cases this

theorem mem_incrCount {k : List Char} {counts : List (List Char × Nat)} {e : List Char × Nat}
    (h : e ∈ incrCount k counts) : e.1 = k ∨ ∃ e' ∈ counts, e'.1 = e.1 := by
  induction counts with
  | nil =>
    simp only [incrCount, List.mem_singleton] at h
    exact Or.inl (by rw [h])
  | cons a rest ih =>
    obtain ⟨k', n⟩ := a
    simp only [incrCount] at h
    by_cases h1 : strLt k k' = true
    · rw [if_pos h1] at h
      rcases List.mem_cons.1 h with h | h
      · exact Or.inl (by rw [h])
      · exact Or.inr ⟨e, h, rfl⟩
    · rw [if_neg h1] at h
      by_cases h2 : strLt k' k = true
      · rw [if_pos h2] at h
        rcases List.mem_cons.1 h with h | h
        · exact Or.inr ⟨(k', n), List.mem_cons_self _ _, by rw [h]⟩
        · rcases ih h with h | ⟨e', he', hk⟩
          · exact Or.inl h
          · exact Or.inr ⟨e', List.mem_cons_of_mem _ he', hk⟩
      · rw [if_neg h2] at h
        rcases List.mem_cons.1 h with h | h
        · exact Or.inr ⟨(k', n), List.mem_cons_self _ _, by rw [h]⟩
        · exact Or.inr ⟨e, List.mem_cons_of_mem _ h, rfl⟩

theorem incrCount_sorted (k : List Char) (counts : List (List Char × Nat))
    (h : KeySorted counts) : KeySorted (incrCount k counts) := by
  induction counts with
  | nil => exact List.pairwise_singleton _ _
  | cons a rest ih =>
    obtain ⟨k', n⟩ := a
    have hs := List.pairwise_cons.1 h
    simp only [incrCount]
    by_cases h1 : strLt k k' = true
    · rw [if_pos h1]
      refine List.pairwise_cons.2 ⟨?_, h⟩
      intro e he
      rcases List.mem_cons.1 he with he | he
      · rw [he]; exact h1
      · exact strLt_trans _ _ _ h1 (hs.1 e he)
    · rw [if_neg h1]
      by_cases h2 : strLt k' k = true
      · rw [if_pos h2]
        refine List.pairwise_cons.2 ⟨?_, ih hs.2⟩
        intro e he
        rcases mem_incrCount he with he | ⟨e', he', hk⟩
        · show strLt k' e.1 = true
          rw [he]; exact h2
        · show strLt k' e.1 = true
          rw [← hk]; exact hs.1 e' he'
      · rw [if_neg h2]
        exact List.pairwise_cons.2 ⟨hs.1, hs.2⟩

theorem countOf_above {s : List Char} {counts : List (List Char × Nat)}
    (h : ∀ e ∈ counts, strLt s e.1 = true) : countOf s counts = 0 := by
  induction counts with
  | nil => rfl
  | cons a rest ih =>
    rw [countOf, if_neg (fun he => strLt_ne (h a (List.mem_cons_self _ _)) he.symm)]
    exact ih (fun e he => h e (List.mem_cons_of_mem _ he))

theorem countOf_incrCount (s k : List Char) (counts : List (List Char × Nat))
    (h : KeySorted counts) :
    countOf s (incrCount k counts) = countOf s counts + (if k = s then 1 else 0) := by
  induction counts with
  | nil => simp [incrCount, countOf]
  | cons a rest ih =>
    obtain ⟨k', n⟩ := a
    have hs := List.pairwise_cons.1 h
    simp only [incrCount]
    by_cases h1 : strLt k k' = true
    · rw [if_pos h1]
      by_cases hk : k = s
      · subst hk
        have h0 : countOf k ((k', n) :: rest) = 0 := by
          apply countOf_above
          intro e he
          rcases List.mem_cons.1 he with he | he
          · rw [he]; exact h1
          · exact strLt_trans _ _ _ h1 (hs.1 e he)
        rw [h0]
        simp [countOf]
      · rw [if_neg hk]
        show (if k = s then 1 else countOf s ((k', n) :: rest)) = _
        rw [if_neg hk]; rfl
    · rw [if_neg h1]
      by_cases h2 : strLt k' k = true
      · rw [if_pos h2]
        show (if k' = s then n else countOf s (incrCount k rest)) =
          (if k' = s then n else countOf s rest) + _
        by_cases hk' : k' = s
        · subst hk'
          rw [if_pos rfl, if_pos rfl, if_neg (fun he => strLt_ne h2 he.symm)]
          rfl
        · rw [if_neg hk', if_neg hk', ih hs.2]
      · rw [if_neg h2]
        have hkk : k = k' := strLt_total k k' (by simpa using h1) (by simpa using h2)
        subst hkk
        show (if k = s then n + 1 else countOf s rest) =
          (if k = s then n else countOf s rest) + _
        by_cases hk : k = s
        · rw [if_pos hk, if_pos hk, if_pos hk]
        · rw [if_neg hk, if_neg hk, if_neg hk]; rfl

theorem incrCount_pos (k : List Char) (counts : List (List Char × Nat))
    (h : ∀ e ∈ counts, 0 < e.2) : ∀ e ∈ incrCount k counts, 0 < e.2 := by
  induction counts with
  | nil =>
    intro e he
    simp only [incrCount, List.mem_singleton] at he
    rw [he]; exact Nat.one_pos
  | cons a rest ih =>
    obtain ⟨k', n⟩ := a
    intro e he
    simp only [incrCount] at he
    by_cases h1 : strLt k k' = true
    · rw [if_pos h1] at he
      rcases List.mem_cons.1 he with he | he
      · rw [he]; exact Nat.one_pos
      · exact h e he
    · rw [if_neg h1] at he
      by_cases h2 : strLt k' k = true
      · rw [if_pos h2] at he
        rcases List.mem_cons.1 he with he | he
        · rw [he]; exact h _ (List.mem_cons_self _ _)
        · exact ih (fun x hx => h x (List.mem_cons_of_mem _ hx)) e he
      · rw [if_neg h2] at he
        rcases List.mem_cons.1 he with he | he
        · rw [he]; exact Nat.succ_pos _
        · exact h e (List.mem_cons_of_mem _ he)

theorem countOf_mem {counts : List (List Char × Nat)} (h : KeySorted counts)
    {e : List Char × Nat} (he : e ∈ counts) : countOf e.1 counts = e.2 := by
  induction counts with
  | nil => cases he
  | cons a rest ih =>
    have hs := List.pairwise_cons.1 h
    rcases List.mem_cons.1 he with he | he
    · rw [he, countOf, if_pos rfl]
    · rw [countOf, if_neg (strLt_ne (hs.1 e he)), ih hs.2 he]

theorem mem_of_countOf {s : List Char} {counts : List (List Char × Nat)}
    (h : countOf s counts ≠ 0) : (s, countOf s counts) ∈ counts := by
  induction counts with
  | nil => exact absurd rfl h
  | cons a rest ih =>
    rw [countOf] at h ⊢
    by_cases hk : a.1 = s
    · rw [if_pos hk]
      rw [← hk]
      exact List.mem_cons_self _ _
    · rw [if_neg hk] at h ⊢
      exact List.mem_cons_of_mem _ (ih h)

theorem tally_sorted (l : List (List Char)) : ∀ counts, KeySorted counts →
    KeySorted (tally counts l) := by
  induction l with
  | nil => intro counts h; exact h
  | cons s rest ih => intro counts h; exact ih _ (incrCount_sorted s counts h)

theorem tally_pos (l : List (List Char)) : ∀ counts, (∀ e ∈ counts, 0 < e.2) →
    ∀ e ∈ tally counts l, 0 < e.2 := by
  induction l with
  | nil => intro counts h; exact h
  | cons s rest ih => intro counts h; exact ih _ (incrCount_pos s counts h)

theorem countOf_tally (s : List Char) (l : List (List Char)) : ∀ counts, KeySorted counts →
    countOf s (tally counts l) = countOf s counts + l.count s := by
  induction l with
  | nil => intro counts _; rfl
  | cons k rest ih =>
    intro counts h
    rw [tally, ih _ (incrCount_sorted k counts h), countOf_incrCount s k counts h,
      List.count_cons]
    by_cases hk : k = s
    · simp [hk]; omega
    · simp [hk]

theorem tally_append (l1 l2 : List (List Char)) : ∀ counts,
    tally counts (l1 ++ l2) = tally (tally counts l1) l2 := by
  induction l1 with
  | nil => intro counts; rfl
  | cons s rest ih => intro counts; exact ih _

theorem countHobbies_eq (hobbies : List Json) : ∀ counts,
    countHobbies counts hobbies = tally counts (hobbyStrings hobbies) := by
  induction hobbies with
  | nil => intro counts; rfl
  | cons hobby rest ih =>
    intro counts
    cases hobby <;> simp only [countHobbies, hobbyStrings, tally, ih]

theorem countFriends_eq (friends : List Json) : ∀ counts,
    countFriends counts friends = tally counts (friendsHobbies friends) := by
  induction friends with
  | nil => intro counts; rfl
  | cons friend_user rest ih =>
    intro counts
    rw [countFriends, friendsHobbies, tally_append, friendHobbies]
    cases friend_user.get? "hobbies".toList with
    | none => exact ih _
    | some v => cases v <;> first | exact ih _ | (simp only [ih, countHobbies_eq])

theorem countUsers_eq (users : List Json) : ∀ counts,
    countUsers counts users = tally counts (allHobbies users) := by
  induction users with
  | nil => intro counts; rfl
  | cons user rest ih =>
    intro counts
    rw [countUsers, allHobbies, tally_append, userHobbies]
    cases friendsOf user with
    | none => exact ih _
    | some friends => simp only [ih, countFriends_eq]

theorem maxElementFrom_split (rest : List (List Char × Nat)) :
    ∀ (largest : List Char × Nat) (pre mid : List (List Char × Nat)),
      (∀ x ∈ pre, x.2 < largest.2) → (∀ x ∈ mid, x.2 ≤ largest.2) →
      ∃ pre' post,
        pre ++ largest :: (mid ++ rest) = pre' ++ maxElementFrom largest rest :: post ∧
        (∀ x ∈ pre', x.2 < (maxElementFrom largest rest).2) ∧
        (∀ x ∈ post, x.2 ≤ (maxElementFrom largest rest).2) := by
  induction rest with
  | nil =>
    intro largest pre mid hpre hmid
    exact ⟨pre, mid, by simp [maxElementFrom], hpre, hmid⟩
  | cons e rest ih =>
    intro largest pre mid hpre hmid
    rw [maxElementFrom]
    by_cases h : largest.2 < e.2
    · rw [if_pos h]
      obtain ⟨pre', post, heq, h1, h2⟩ := ih e (pre ++ largest :: mid) [] (by
        intro x hx
        rcases List.mem_append.1 hx with hx | hx
        · exact Nat.lt_trans (hpre x hx) h
        · rcases List.mem_cons.1 hx with hx | hx
          · rw [hx]; exact h
          · exact Nat.lt_of_le_of_lt (hmid x hx) h) (by simp)
      refine ⟨pre', post, ?_, h1, h2⟩
      rw [← heq]
      simp
    · rw [if_neg h]
      obtain ⟨pre', post, heq, h1, h2⟩ := ih largest pre (mid ++ [e]) hpre (by
        intro x hx
        rcases List.mem_append.1 hx with hx | hx
        · exact hmid x hx
        · rw [List.mem_singleton.1 hx]; omega)
      refine ⟨pre', post, ?_, h1, h2⟩
      rw [← heq]
      simp

theorem count_eq_countOf (s : List Char) (l : List (List Char)) :
    l.count s = countOf s (tally [] l) := by
  rw [countOf_tally s l [] List.Pairwise.nil]
  simp [countOf]

/-- On success the count table splits around the entry of the answer: every entry before
it has a smaller count, no entry after it has a larger one. -/
theorem findMostCommonHobby_entry {users : List Json} {h : List Char}
    (hr : findMostCommonHobby users = .ok h) :
    ∃ n pre post, tally [] (allHobbies users) = pre ++ (h, n) :: post ∧
      (∀ x ∈ pre, x.2 < n) ∧ (∀ x ∈ post, x.2 ≤ n) := by
  unfold findMostCommonHobby at hr
  split at hr
  · cases hr
  · rw [countUsers_eq] at hr
    cases ht : tally [] (allHobbies users) with
    | nil => rw [ht] at hr; cases hr
    | cons e rest =>
      rw [ht] at hr
      simp only [Except.ok.injEq] at hr
      obtain ⟨pre, post, heq, h1, h2⟩ := maxElementFrom_split rest e [] []
        (fun x hx => by cases hx) (fun x hx => by cases hx)
      simp only [List.nil_append] at heq
      refine ⟨(maxElementFrom e rest).2, pre, post, ?_, h1, h2⟩
      rw [heq, ← hr]

/-- The answer of a successful `findMostCommonHobby` occurs in the input, no string occurs
more often, and every other string that occurs as often comes after it in the key order. -/
theorem findMostCommonHobby_least {users : List Json} {h : List Char}
    (hr : findMostCommonHobby users = .ok h) :
    h ∈ allHobbies users ∧
    (∀ s, (allHobbies users).count s ≤ (allHobbies users).count h) ∧
    (∀ s, (allHobbies users).count s = (allHobbies users).count h → s ≠ h →
      strLt h s = true) := by
  obtain ⟨n, pre, post, heq, hpre, hpost⟩ := findMostCommonHobby_entry hr
  have hsorted : KeySorted (tally [] (allHobbies users)) :=
    tally_sorted _ [] List.Pairwise.nil
  have hpos : ∀ e ∈ tally [] (allHobbies users), 0 < e.2 :=
    tally_pos _ [] (fun e he => by cases he)
  have hmem : (h, n) ∈ tally [] (allHobbies users) := by
    rw [heq]; exact List.mem_append_right _ (List.mem_cons_self _ _)
  have hn : (allHobbies users).count h = n := by
    rw [count_eq_countOf]; exact countOf_mem hsorted hmem
  have hnpos : 0 < n := hpos _ hmem
  have hcases : ∀ s, (allHobbies users).count s ≠ 0 →
      (s, (allHobbies users).count s) ∈ pre ∨ (s, (allHobbies users).count s) = (h, n) ∨
        (s, (allHobbies users).count s) ∈ post := by
    intro s hs
    rw [count_eq_countOf] at hs ⊢
    have hm : (s, countOf s (tally [] (allHobbies users))) ∈ pre ++ (h, n) :: post := by
      have := mem_of_countOf hs
      rw [heq] at this ⊢
      exact this
    rcases List.mem_append.1 hm with h1 | h1
    · exact Or.inl h1
    · rcases List.mem_cons.1 h1 with h1 | h1
      · exact Or.inr (Or.inl h1)
      · exact Or.inr (Or.inr h1)
  refine ⟨List.count_pos_iff.1 (by omega), ?_, ?_⟩
  · intro s
    rw [hn]
    by_cases hs : (allHobbies users).count s = 0
    · omega
    · rcases hcases s hs with h1 | h1 | h1
      · exact Nat.le_of_lt (hpre _ h1)
      · exact Nat.le_of_eq (congrArg Prod.snd h1)
      · exact hpost _ h1
  · intro s hs hne
    rw [hn] at hs
    rcases hcases s (by omega) with h1 | h1 | h1
    · have := hpre _ h1
      simp only at this
      omega
    · exact absurd (congrArg Prod.fst h1) hne
    · unfold KeySorted at hsorted
      rw [heq] at hsorted
      exact (List.pairwise_cons.1 (List.pairwise_append.1 hsorted).2.1).1 _ h1

theorem findMostCommonHobby_error_iff (users : List Json) :
    (∃ f, findMostCommonHobby users = .error f) ↔ allHobbies users = [] := by
  unfold findMostCommonHobby
  cases users with
  | nil => simp [allHobbies]
  | cons u rest =>
    simp only [List.isEmpty_cons, Bool.false_eq_true, if_false, countUsers_eq]
    constructor
    · rintro ⟨f, hf⟩
      cases ht : tally [] (allHobbies (u :: rest)) with
      | cons e r => rw [ht] at hf; cases hf
      | nil =>
        apply List.eq_nil_iff_forall_not_mem.2
        intro s hs
        have := List.count_pos_iff.2 hs
        rw [count_eq_countOf, ht] at this
        exact absurd this (by simp [countOf])
    · intro hl
      rw [hl]
      exact ⟨_, rfl⟩

theorem le_maxFriendsFrom (users : List Json) : ∀ m, m ≤ maxFriendsFrom m users := by
  induction users with
  | nil => intro m; exact Nat.le_refl _
  | cons u rest ih =>
    intro m
    rw [maxFriendsFrom]
    cases friendsOf u with
    | none => exact ih m
    | some friends => exact Nat.le_trans (Nat.le_max_left _ _) (ih _)

theorem length_le_maxFriendsFrom (users : List Json) : ∀ m, ∀ u ∈ users, ∀ friends,
    friendsOf u = some friends → friends.length ≤ maxFriendsFrom m users := by
  induction users with
  | nil => intro m u hu; cases hu
  | cons v rest ih =>
    intro m u hu friends hf
    rw [maxFriendsFrom]
    rcases List.mem_cons.1 hu with hu | hu
    · subst hu
      rw [hf]
      exact Nat.le_trans (Nat.le_max_right _ _) (le_maxFriendsFrom rest _)
    · cases friendsOf v with
      | none => exact ih m u hu friends hf
      | some fs => exact ih _ u hu friends hf

theorem maxFriendsFrom_attained (users : List Json) : ∀ m,
    maxFriendsFrom m users = m ∨
      ∃ u ∈ users, ∃ friends, friendsOf u = some friends ∧
        friends.length = maxFriendsFrom m users := by
  induction users with
  | nil => intro m; exact Or.inl rfl
  | cons v rest ih =>
    intro m
    rw [maxFriendsFrom]
    cases hv : friendsOf v with
    | none =>
      rcases ih m with h | ⟨u, hu, fs, hf, hl⟩
      · exact Or.inl h
      · exact Or.inr ⟨u, List.mem_cons_of_mem _ hu, fs, hf, hl⟩
    | some friends =>
      simp only
      rcases ih (max m friends.length) with h | ⟨u, hu, fs, hf, hl⟩
      · rw [h]
        rcases Nat.le_total m friends.length with hle | hle
        · rw [Nat.max_eq_right hle]
          exact Or.inr ⟨v, List.mem_cons_self _ _, friends, hv, rfl⟩
        · rw [Nat.max_eq_left hle]
          exact Or.inl rfl
      · exact Or.inr ⟨u, List.mem_cons_of_mem _ hu, fs, hf, hl⟩

theorem hasFriendCount_iff (n : Nat) (u : Json) :
    hasFriendCount n u = true ↔ ∃ friends, friendsOf u = some friends ∧ friends.length = n := by
  unfold hasFriendCount
  cases friendsOf u with
  | none => simp
  | some friends => simp

theorem shiftLeft_le_shiftLeft_iff (b : Nat) (hb : 0 < b) (m n : Nat) :
    b <<< m ≤ b <<< n ↔ m ≤ n := by
  rw [Nat.shiftLeft_eq, Nat.shiftLeft_eq]
  constructor
  · intro h
    have := Nat.le_of_mul_le_mul_left h hb
    exact (Nat.pow_le_pow_iff_right (by decide)).1 this
  · intro h
    exact Nat.mul_le_mul_left b (Nat.pow_le_pow_right (by decide) h)

theorem dropBits_le (a b j0 : Nat) (h : a < b <<< (j0 + 53)) : ∀ (bits j : Nat), j ≤ j0 →
    dropBits a b bits j ≤ j0 := by
  have hb : 0 < b := by
    rcases Nat.eq_zero_or_pos b with h0 | h0
    · rw [h0, Nat.zero_shiftLeft] at h
      exact absurd h (Nat.not_lt_zero _)
    · exact h0
  intro bits
  induction bits with
  | zero => intro j hj; exact hj
  | succ bits ih =>
    intro j hj
    rw [dropBits]
    by_cases hc : b <<< (j + (1 <<< bits) + 52) ≤ a
    · rw [if_pos hc]
      apply ih
      have hlt : b <<< (j + (1 <<< bits) + 52) < b <<< (j0 + 53) := Nat.lt_of_le_of_lt hc h
      have : ¬ (j0 + 53 ≤ j + (1 <<< bits) + 52) := fun hle =>
        absurd ((shiftLeft_le_shiftLeft_iff b hb _ _).2 hle) (Nat.not_le_of_lt hlt)
      omega
    · rw [if_neg hc]
      exact ih j hj

theorem roundHalfEven_dvd {a b : Nat} (hb : 0 < b) (h : b ∣ a) : roundHalfEven a b = a / b := by
  rw [roundHalfEven, Nat.mod_eq_zero_of_dvd h, if_pos (by omega)]

theorem shiftLeft_lt_shiftLeft (n k K : Nat) (hn : n < 2 ^ 53) (hK : k + 53 ≤ K) :
    n <<< k < 1 <<< K := by
  rw [Nat.shiftLeft_eq, Nat.shiftLeft_eq, Nat.one_mul]
  calc n * 2 ^ k < 2 ^ 53 * 2 ^ k := Nat.mul_lt_mul_of_pos_right hn (Nat.two_pow_pos k)
    _ = 2 ^ (53 + k) := (Nat.pow_add 2 53 k).symm
    _ ≤ 2 ^ K := Nat.pow_le_pow_right (by decide) (by omega)

/-- A whole number of fewer than 54 bits, shifted left and below `2^1024`, is a double:
rounding leaves it as it is. -/
theorem roundNearestEven_exact (s : Bool) (n k : Nat) (hn : n < 2 ^ 53)
    (hk : n <<< k < 1 <<< 2098) :
    roundNearestEven s (n <<< k) 1 = .finite s (n <<< k) := by
  have hj : dropBits (n <<< k) 1 11 0 ≤ k := by
    apply dropBits_le _ _ _ _ _ _ (Nat.zero_le _)
    rw [Nat.shiftLeft_eq n k, Nat.shiftLeft_eq 1, Nat.one_mul, Nat.pow_add, Nat.mul_comm (2 ^ k)]
    exact Nat.mul_lt_mul_of_pos_right hn (Nat.two_pow_pos k)
  unfold roundNearestEven
  simp only
  generalize dropBits (n <<< k) 1 11 0 = j at hj
  have hdvd : (1 <<< j) ∣ n <<< k := by
    rw [Nat.shiftLeft_eq n k, Nat.shiftLeft_eq 1, Nat.one_mul]
    exact Dvd.dvd.mul_left (Nat.pow_dvd_pow 2 hj) n
  have hpos : 0 < 1 <<< j := by
    rw [Nat.shiftLeft_eq, Nat.one_mul]
    exact Nat.two_pow_pos j
  have hu : roundHalfEven (n <<< k) (1 <<< j) <<< j = n <<< k := by
    rw [roundHalfEven_dvd hpos hdvd, Nat.shiftLeft_eq _ j]
    rw [Nat.shiftLeft_eq 1 j, Nat.one_mul] at hdvd ⊢
    exact Nat.div_mul_cancel hdvd
  rw [hu, if_pos hk]

theorem dropBits_scale (c : Nat) (hc : 0 < c) (a b : Nat) : ∀ (bits j : Nat),
    dropBits (a * c) (b * c) bits j = dropBits a b bits j := by
  intro bits
  induction bits with
  | zero => intro j; rfl
  | succ bits ih =>
    intro j
    rw [dropBits, dropBits]
    have h1 : (b * c) <<< (j + (1 <<< bits) + 52) = (b <<< (j + (1 <<< bits) + 52)) * c := by
      simp only [Nat.shiftLeft_eq]; ring
    rw [h1, ih, ih]
    by_cases hb : b <<< (j + (1 <<< bits) + 52) ≤ a
    · rw [if_pos hb, if_pos (Nat.mul_le_mul_right c hb)]
    · rw [if_neg hb, if_neg (fun h => hb (Nat.le_of_mul_le_mul_right h hc))]

theorem roundHalfEven_scale (c : Nat) (hc : 0 < c) (a b : Nat) :
    roundHalfEven (a * c) (b * c) = roundHalfEven a b := by
  unfold roundHalfEven
  rw [Nat.mul_div_mul_right a b hc, Nat.mul_mod_mul_right]
  have e1 : 2 * (a % b * c) < b * c ↔ 2 * (a % b) < b := by
    rw [← Nat.mul_assoc]
    exact Nat.mul_lt_mul_right hc
  have e2 : b * c < 2 * (a % b * c) ↔ b < 2 * (a % b) := by
    rw [← Nat.mul_assoc]
    exact Nat.mul_lt_mul_right hc
  simp only [e1, e2]

/-- Rounding depends on the quotient only. -/
theorem roundNearestEven_scale (s : Bool) (a b c : Nat) (hc : 0 < c) :
    roundNearestEven s (a * c) (b * c) = roundNearestEven s a b := by
  unfold roundNearestEven
  simp only [dropBits_scale c hc]
  have h : ∀ j, (b * c) <<< j = (b <<< j) * c := by
    intro j
    simp only [Nat.shiftLeft_eq]; ring
  rw [h, roundHalfEven_scale c hc]

theorem roundNearestEven_signClear (a b : Nat) :
    (roundNearestEven false a b).signClear = true := by
  unfold roundNearestEven
  simp only
  split <;> rfl

theorem add_finite_same (s : Bool) (a b : Nat) :
    (Double.finite s a).add (.finite s b) = roundNearestEven s (a + b) 1 := by
  rw [Double.add]
  exact if_pos rfl

theorem add_signClear {x y : Double} (hx : x.signClear = true) (hy : y.signClear = true) :
    (x.add y).signClear = true := by
  cases x with
  | nan => cases hx
  | inf s =>
    cases s
    · cases y with
      | nan => cases hy
      | inf t => cases t <;> first | rfl | cases hy
      | finite t b => rfl
    · cases hx
  | finite s a =>
    cases s
    · cases y with
      | nan => cases hy
      | inf t => cases t <;> first | rfl | cases hy
      | finite t b =>
        cases t
        · rw [add_finite_same]
          exact roundNearestEven_signClear _ _
        · cases hy
    · cases hx

theorem divCount_signClear {x : Double} (hx : x.signClear = true) (count : Nat) :
    (x.divCount count).signClear = true := by
  cases x with
  | nan => cases hx
  | inf s => exact hx
  | finite s a =>
    cases s
    · show (roundNearestEven false a count).signClear = true
      exact roundNearestEven_signClear _ _
    · cases hx

theorem geZero_of_signClear {x : Double} (hx : x.signClear = true) : x.geZero = true := by
  cases x with
  | nan => cases hx
  | inf s => exact hx
  | finite s a =>
    cases s
    · rfl
    · cases hx

theorem toDouble_signClear (m e : Int) (hm : 0 ≤ m) : (toDouble m e).signClear = true := by
  unfold toDouble
  have : decide (m < 0) = false := by simp; omega
  rw [this]
  split <;> exact roundNearestEven_signClear _ _

theorem toDouble_nat (m : Int) (hm : 0 ≤ m) (hlt : m.toNat < 2 ^ 53) :
    toDouble m 0 = .finite false (m.toNat <<< 1074) := by
  unfold toDouble
  have h1 : decide (m < 0) = false := by simp; omega
  have h2 : m.natAbs = m.toNat := by omega
  rw [if_pos (le_refl _), h1, h2, Int.toNat_zero, Nat.pow_zero, Nat.mul_one]
  exact roundNearestEven_exact false _ 1074 hlt
    (shiftLeft_lt_shiftLeft _ _ _ hlt (by decide))

theorem ageOf_eq (user : Json) :
    ageOf user = (ageNumber user).map (fun p => toDouble p.1 p.2) := by
  unfold ageOf
  cases ageNumber user with
  | none => rfl
  | some p => rfl

theorem filterMap_ageOf (users : List Json) :
    users.filterMap ageOf = (users.filterMap ageNumber).map (fun p => toDouble p.1 p.2) := by
  induction users with
  | nil => rfl
  | cons u rest ih =>
    simp only [List.filterMap_cons, ageOf_eq]
    cases ageNumber u with
    | none => simpa [ageOf_eq] using ih
    | some p => simpa [ageOf_eq] using ih

/-- The loop is a left fold of `+` over the ages of the users that have one. -/
theorem sumAges_eq (users : List Json) : ∀ acc : Double × Nat,
    sumAges acc users =
      ((users.filterMap ageOf).foldl Double.add acc.1, acc.2 + (users.filterMap ageOf).length) := by
  induction users with
  | nil => intro acc; rfl
  | cons u rest ih =>
    intro acc
    rw [sumAges]
    cases ha : ageOf u with
    | none => simp only [ih, List.filterMap_cons, ha]
    | some a =>
      simp only [ih, List.filterMap_cons, ha, List.foldl_cons, List.length_cons]
      refine Prod.ext rfl ?_
      simp only; omega

theorem calculateAverageAge_eq (users : List Json) (hne : users ≠ []) :
    calculateAverageAge users =
      if (users.filterMap ageOf).length = 0 then .ok Double.zero
      else .ok (((users.filterMap ageOf).foldl Double.add Double.zero).divCount
        (users.filterMap ageOf).length) := by
  cases users with
  | nil => exact absurd rfl hne
  | cons u rest =>
    simp only [calculateAverageAge, List.isEmpty_cons, Bool.false_eq_true, if_false,
      sumAges_eq, Nat.zero_add]

theorem foldl_add_signClear (ages : List Double) : ∀ acc : Double, acc.signClear = true →
    (∀ a ∈ ages, a.signClear = true) → (ages.foldl Double.add acc).signClear = true := by
  induction ages with
  | nil => intro acc h _; exact h
  | cons a rest ih =>
    intro acc h hall
    exact ih _ (add_signClear h (hall a (List.mem_cons_self _ _)))
      (fun x hx => hall x (List.mem_cons_of_mem _ hx))

theorem shiftLeft_add_distrib (a b k : Nat) : a <<< k + b <<< k = (a + b) <<< k := by
  simp only [Nat.shiftLeft_eq, Nat.add_mul]

/-- While the running total stays below `2^53`, the sum of non-negative integer ages is
exact. -/
theorem foldl_add_nat (lits : List (Int × Int)) : ∀ acc : Nat,
    (∀ p ∈ lits, 0 ≤ p.1 ∧ p.2 = 0) →
    acc + (lits.map (fun p => p.1.toNat)).sum < 2 ^ 53 →
    (lits.map (fun p => toDouble p.1 p.2)).foldl Double.add (.finite false (acc <<< 1074)) =
      .finite false ((acc + (lits.map (fun p => p.1.toNat)).sum) <<< 1074) := by
  induction lits with
  | nil => intro acc _ _; rfl
  | cons p rest ih =>
    intro acc hall hlt
    obtain ⟨hp0, hp2⟩ := hall p (List.mem_cons_self _ _)
    simp only [List.map_cons, List.sum_cons] at hlt ⊢
    simp only [List.foldl_cons]
    have hstep : (Double.finite false (acc <<< 1074)).add (toDouble p.1 p.2) =
        .finite false ((acc + p.1.toNat) <<< 1074) := by
      rw [hp2, toDouble_nat p.1 hp0 (by omega)]
      rw [add_finite_same, shiftLeft_add_distrib]
      exact roundNearestEven_exact false _ 1074 (by omega)
        (shiftLeft_lt_shiftLeft _ _ _ (by omega) (by decide))
    rw [hstep]
    have := ih (acc + p.1.toNat) (fun x hx => hall x (List.mem_cons_of_mem _ hx)) (by omega)
    rw [this, Nat.add_assoc]

theorem cast_shiftLeft_div (q k : Nat) : ((q <<< k : Nat) : ℚ) / ((1 <<< k : Nat) : ℚ) = q := by
  rw [Nat.shiftLeft_eq, Nat.shiftLeft_eq, Nat.one_mul, Nat.cast_mul]
  have h : ((2 ^ k : Nat) : ℚ) ≠ 0 := Nat.cast_ne_zero.2 (Nat.pos_iff_ne_zero.1 (Nat.two_pow_pos k))
  exact mul_div_cancel_right₀ _ h

theorem toRat_nat (q k : Nat) (hk : k = 1074) :
    Double.toRat (.finite false (q <<< k)) = some (q : ℚ) := by
  subst hk
  show some (if false = true then -(((q <<< 1074 : Nat) : ℚ) / ((1 <<< 1074 : Nat) : ℚ))
    else ((q <<< 1074 : Nat) : ℚ) / ((1 <<< 1074 : Nat) : ℚ)) = some (q : ℚ)
  rw [if_neg (by decide), cast_shiftLeft_div]

theorem toRat_eq_div {u p q d : Nat} (hq : 0 < q) (hd : 0 < d)
    (h : (u : ℚ) / (d : ℚ) = (p : ℚ) / (q : ℚ)) : u * q = p * d := by
  have hq' : (q : ℚ) ≠ 0 := Nat.cast_ne_zero.2 (Nat.pos_iff_ne_zero.1 hq)
  have hd' : (d : ℚ) ≠ 0 := Nat.cast_ne_zero.2 (Nat.pos_iff_ne_zero.1 hd)
  rw [div_eq_div_iff hd' hq'] at h
  exact_mod_cast h

theorem exactAges_sum_nat (lits : List (Int × Int)) (h : ∀ p ∈ lits, 0 ≤ p.1 ∧ p.2 = 0) :
    (lits.map (fun p => exactValue p.1 p.2)).sum =
      (((lits.map (fun p => p.1.toNat)).sum : Nat) : ℚ) := by
  induction lits with
  | nil => simp
  | cons p rest ih =>
    obtain ⟨h0, h2⟩ := h p (List.mem_cons_self _ _)
    simp only [List.map_cons, List.sum_cons, Nat.cast_add]
    rw [ih (fun x hx => h x (List.mem_cons_of_mem _ hx))]
    have : exactValue p.1 p.2 = ((p.1.toNat : Nat) : ℚ) := by
      rw [exactValue, h2, zpow_zero, mul_one]
      have : ((p.1.toNat : Nat) : Int) = p.1 := Int.toNat_of_nonneg h0
      exact_mod_cast congrArg (fun z : Int => (z : ℚ)) this.symm
    rw [this]

/-- The rounding of `roundNearestEven` on known binary64 values: 0.1 is
`0x1.999999999999ap-4`, 0.2 is `0x1.999999999999ap-3`, their sum is
`0x1.3333333333334p-2` (0.30000000000000004); `2^53 + 1` is halfway and rounds to the even
`2^53`; half of the smallest positive double is halfway and rounds to zero, with the sign
kept; the largest double is `(2^53 - 1) * 2^971`, and from halfway to `2^1024` on the
result is an infinity. -/
theorem double_samples :
    toDouble 1 (-1) = .finite false (0x1999999999999A <<< 1018) ∧
    toDouble 2 (-1) = .finite false (0x1999999999999A <<< 1019) ∧
    (toDouble 1 (-1)).add (toDouble 2 (-1)) = .finite false (0x13333333333334 <<< 1020) ∧
    toDouble (-15) (-1) = .finite true (3 <<< 1073) ∧
    toDouble 9007199254740993 0 = .finite false (9007199254740992 <<< 1074) ∧
    (toDouble 1 0).divCount 3 = .finite false (0x15555555555555 <<< 1020) ∧
    (Double.finite false 1).divCount 2 = .finite false 0 ∧
    (Double.finite true 1).divCount 2 = .finite true 0 ∧
    (Double.finite false 3).divCount 2 = .finite false 2 ∧
    (toDouble 3 (-1)).add (toDouble (-3) (-1)) = .finite false 0 ∧
    roundNearestEven false ((1 <<< 2098) - (1 <<< 2044) - 1) 1 =
      .finite false (((1 <<< 53) - 1) <<< 2045) ∧
    roundNearestEven false ((1 <<< 2098) - (1 <<< 2044)) 1 = .inf false ∧
    (Double.finite false (((1 <<< 53) - 1) <<< 2045)).add
      (.finite false (((1 <<< 53) - 1) <<< 2045)) = .inf false ∧
    (Double.inf false).add (.inf true) = .nan :=
  ⟨rfl, rfl, rfl, rfl, rfl, rfl, rfl, rfl, rfl, rfl, rfl, rfl, rfl, rfl⟩


/-! ## The claims -/

/-- C1: a text that parses as a JSON array with at least one object element is answered by
the whole-document attempt, which returns exactly the object elements of the array, in array
order, the other elements dropped; the NDJSON scan is not reached. -/
theorem parseJsonData_array_objects (jsonStr : List Char) (items : List Json)
    (h : jsonParse jsonStr = .ok (.arr items))
    (hN : 1 ≤ (items.filter Json.is_object).length) :
    arrayAttempt jsonStr = .ok (some (items.filter Json.is_object)) ∧
    parseJsonData jsonStr = .ok (items.filter Json.is_object) := by
  have hne : (items.filter Json.is_object).isEmpty = false := by
    cases hf : items.filter Json.is_object with
    | nil => rw [hf] at hN; cases hN
    | cons a as => rfl
  have ha : arrayAttempt jsonStr = .ok (some (items.filter Json.is_object)) := by
    simp only [arrayAttempt, h, hne]
    rfl
  exact ⟨ha, by simp only [parseJsonData, ha]⟩

theorem parseJsonData_array_objects_witness :
    jsonParse "[\x7b\"a\":1\x7d, 5, \x7b\x7d]".toList =
      .ok (.arr [.obj [("a".toList, .num 1 0)], .num 5 0, .obj []]) ∧
    parseJsonData "[\x7b\"a\":1\x7d, 5, \x7b\x7d]".toList =
      .ok [.obj [("a".toList, .num 1 0)], .obj []] :=
  ⟨rfl, (parseJsonData_array_objects "[\x7b\"a\":1\x7d, 5, \x7b\x7d]".toList
    [.obj [("a".toList, .num 1 0)], .num 5 0, .obj []] rfl (by decide)).2⟩

/-- C2: on a text of at most 10,000 lines, each line either noise (blank, an HTTP status
line, or one of the five recognised headers) or a text that parses to one JSON object, with
between 1 and 1,000 object lines, `parseJsonData` returns exactly the objects of the object
lines, in their order and with duplicates kept; the noise lines contribute nothing. -/
theorem parseJsonData_ndjson (input : List Char)
    (hlines : ∀ l ∈ getlines input, isNoiseLine l = true ∨ ∃ m, jsonParse l = .ok (.obj m))
    (hcap : (getlines input).length ≤ 10000)
    (hM1 : 1 ≤ (lineObjects (getlines input)).length)
    (hM2 : (lineObjects (getlines input)).length ≤ 1000) :
    parseJsonData input = .ok (lineObjects (getlines input)) ∧
    ∀ l ∈ getlines input, isNoiseLine l = true → lineObject l = none := by
  have h : ∀ l ∈ getlines input, isSkippedLine l = true ∨ ∃ m, jsonParse l = .ok (.obj m) := by
    intro l hl
    rcases hlines l hl with hn | hm
    · exact Or.inl (isNoiseLine_skipped hn)
    · exact Or.inr hm
  refine ⟨?_, fun l _ hn => lineObject_skipped (isNoiseLine_skipped hn)⟩
  rw [parseJsonData_lines input h, List.take_of_length_le (show _ ≤ MAX_LINES from hcap),
    List.take_of_length_le (show _ ≤ MAX_OBJECTS from hM2)]
  cases hl : lineObjects (getlines input) with
  | nil => rw [hl] at hM1; cases hM1
  | cons a as => rfl

theorem parseJsonData_ndjson_witness :
    parseJsonData ndjsonSample =
      .ok [.obj [("a".toList, .num 1 0)], .obj [("a".toList, .num 1 0)]] := by
  have hg : getlines ndjsonSample =
      ["HTTP/1.1 200 OK".toList, "Server: x".toList, [], "\x7b\"a\":1\x7d".toList,
       "\x7b\"a\":1\x7d".toList] := by rfl
  have := (parseJsonData_ndjson ndjsonSample (by
    rw [hg]
    intro l hl
    simp only [List.mem_cons, List.mem_singleton, List.not_mem_nil, or_false] at hl
    rcases hl with rfl | rfl | rfl | rfl | rfl
    · exact Or.inl rfl
    · exact Or.inl rfl
    · exact Or.inl rfl
    · exact Or.inr ⟨_, rfl⟩
    · exact Or.inr ⟨_, rfl⟩) (by rw [hg]; decide) (by rw [hg]; decide) (by rw [hg]; decide)).1
  rw [this, hg]
  rfl

theorem parseJsonData_single_line {t : List Char} {m : List (List Char × Json)}
    {s : List Char} (h : jsonParse t = .ok (.obj m)) (hs : getlines s = [t]) :
    parseJsonData s = .ok [.obj m] := by
  have hl : ∀ l ∈ getlines s, isSkippedLine l = true ∨ ∃ m, jsonParse l = .ok (.obj m) := by
    intro l hl
    rw [hs, List.mem_singleton] at hl
    subst hl
    exact Or.inr ⟨m, h⟩
  rw [parseJsonData_lines s hl, hs]
  simp [lineObjects, lineObject_object h, MAX_LINES, MAX_OBJECTS]

/-- C3: braces and brackets inside a string literal do not move the nesting count of the
NDJSON scan, also after an escaped quote in that string, so every single-line text that
parses to an object is extracted as exactly that object, with or without the line feed
after it; the text of the object `a = "}"` yields that one object. -/
theorem parseJsonData_brace_in_string :
    (∀ (st : Scan) (c : Char) (cs : List Char), st.inString = true → st.escapeNext = false →
      c = '{' ∨ c = '}' ∨ c = '[' ∨ c = ']' →
      scanChars st (c :: cs) =
        scanChars { st with currentObject := st.currentObject ++ [c] } cs) ∧
    (∀ (st : Scan) (cs : List Char), st.inString = true → st.escapeNext = false →
      scanChars st ('\\' :: '"' :: cs) =
        scanChars { st with currentObject := st.currentObject ++ ['\\', '"'] } cs) ∧
    (∀ (t : List Char) (m : List (List Char × Json)), jsonParse t = .ok (.obj m) → '\n' ∉ t →
      parseJsonData (t ++ ['\n']) = .ok [.obj m] ∧ parseJsonData t = .ok [.obj m]) ∧
    parseJsonData "\x7b\"a\":\"\x7d\"\x7d\n".toList =
      .ok [.obj [("a".toList, .str "\x7d".toList)]] := by
  refine ⟨?_, ?_, ?_, rfl⟩
  · intro st c cs his hen hc
    obtain ⟨users, buf, bc, is, en⟩ := st
    simp only at his hen
    subst his hen
    rw [scanChars_push cs (Or.inr (by rcases hc with rfl | rfl | rfl | rfl <;> rfl))]
    rcases hc with rfl | rfl | rfl | rfl <;> rfl
  · intro st cs his hen
    obtain ⟨users, buf, bc, is, en⟩ := st
    simp only at his hen
    subst his hen
    rw [@scanChars_push ⟨users, buf, bc, true, false⟩ '\\' _ (Or.inr rfl)]
    rw [@scanChars_push (Scan.push ⟨users, buf, bc, true, false⟩ '\\') '"' _ (Or.inr rfl)]
    simp [Scan.push, trackStep]
  · intro t m h hn
    have hne : t ≠ [] := by
      intro ht; subst ht; cases h
    exact ⟨parseJsonData_single_line h (getlines_append_newline t [] hn),
      parseJsonData_single_line h (getlines_no_newline t hne hn)⟩

theorem parseJsonData_brace_in_string_witness :
    parseJsonData ("\x7b\"k\":\"\\\"\x7d[\x7b]\"\x7d".toList ++ ['\n']) =
      .ok [.obj [("k".toList, .str "\"\x7d[\x7b]".toList)]] :=
  (parseJsonData_brace_in_string.2.2.1 "\x7b\"k\":\"\\\"\x7d[\x7b]\"\x7d".toList
    [("k".toList, .str "\"\x7d[\x7b]".toList)] rfl (by decide)).1

/-- C5: on a text of more than 1,000 lines, each a text that parses to one JSON object,
`parseJsonData` succeeds and returns exactly 1,000 objects, the objects of the first 1,000
lines in order. -/
theorem parseJsonData_object_cap (input : List Char)
    (hlines : ∀ l ∈ getlines input, ∃ m, jsonParse l = .ok (.obj m))
    (hM : 1000 < (getlines input).length) :
    parseJsonData input = .ok ((lineObjects (getlines input)).take 1000) ∧
    ((lineObjects (getlines input)).take 1000).length = 1000 ∧
    (lineObjects (getlines input)).take 1000 = lineObjects ((getlines input).take 1000) := by
  have h : ∀ l ∈ getlines input, isSkippedLine l = true ∨ ∃ m, jsonParse l = .ok (.obj m) :=
    fun l hl => Or.inr (hlines l hl)
  have h1 := lineObjects_all_objects (getlines input) hlines
  have hlen : ((lineObjects (getlines input)).take 1000).length = 1000 := by
    rw [List.length_take, (h1 0).2]
    omega
  refine ⟨?_, hlen, ((h1 1000).1).symm⟩
  rw [parseJsonData_lines input h, (h1 MAX_LINES).1, List.take_take]
  have : min MAX_OBJECTS MAX_LINES = 1000 := by decide
  rw [this]
  cases hl : (lineObjects (getlines input)).take 1000 with
  | nil => rw [hl] at hlen; cases hlen
  | cons a as => rfl

theorem parseJsonData_object_cap_witness :
    1000 < (getlines manyObjectLines).length ∧
    parseJsonData manyObjectLines = .ok (List.replicate 1000 (.obj [])) := by
  have hg : getlines manyObjectLines = List.replicate 1001 ['{', '}'] := by
    apply getlines_joinLines'
    intro l hl
    rw [List.eq_of_mem_replicate hl]
    decide
  have hl : ∀ l ∈ getlines manyObjectLines, ∃ m, jsonParse l = .ok (.obj m) := by
    intro l hl
    rw [hg] at hl
    rw [List.eq_of_mem_replicate hl]
    exact ⟨[], rfl⟩
  have hM : 1000 < (getlines manyObjectLines).length := by
    rw [hg, List.length_replicate]; decide
  refine ⟨hM, ?_⟩
  have h := parseJsonData_object_cap manyObjectLines hl hM
  have ht : (List.replicate 1001 ['{', '}']).take 1000 = List.replicate 1000 ['{', '}'] := by
    rw [List.take_replicate, show min 1000 1001 = 1000 from by decide]
  have ho : lineObjects (List.replicate 1000 ['{', '}']) = List.replicate 1000 (.obj []) := by
    simp only [lineObjects, List.filterMap_replicate]
    rfl
  rw [h.1, h.2.2, hg, ht, ho]

/-- C4: a text of at most 10,000 lines that parses to a JSON object, its line breaks
therefore between tokens, is extracted as exactly one object, the parse of the text. -/
theorem parseJsonData_multiline_object (input : List Char) (m : List (List Char × Json))
    (h : jsonParse input = .ok (.obj m)) (hcap : (getlines input).length ≤ 10000) :
    parseJsonData input = .ok [.obj m] ∧
    jsonParse (stripLines (getlines input)) = jsonParse input :=
  ⟨parseJsonData_whole_object h hcap, by rw [jsonParse_stripLines h, h]⟩

theorem parseJsonData_multiline_object_witness :
    (getlines multilineSample).length ≤ 10000 ∧
    parseJsonData multilineSample =
      .ok [.obj [("a".toList, .arr [.num 1 0, .num 2 0]), ("b".toList, .num 1 0)]] :=
  ⟨by decide, (parseJsonData_multiline_object multilineSample
    [("a".toList, .arr [.num 1 0, .num 2 0]), ("b".toList, .num 1 0)] rfl (by decide)).1⟩

theorem lineObjects_skipped (lines : List (List Char))
    (h : ∀ l ∈ lines, isSkippedLine l = true) : lineObjects lines = [] := by
  induction lines with
  | nil => rfl
  | cons l ls ih =>
    simp only [lineObjects, List.filterMap_cons,
      lineObject_skipped (h l (List.mem_cons_self _ _))]
    exact ih (fun x hx => h x (List.mem_cons_of_mem _ hx))

theorem arrayAttempt_some {s : List Char} {users : List Json}
    (h : arrayAttempt s = .ok (some users)) :
    users ≠ [] ∧ ∀ u ∈ users, u.is_object = true := by
  unfold arrayAttempt at h
  split at h
  · simp only at h
    split at h
    · cases h
    · rename_i items _ hne
      cases h
      refine ⟨?_, fun u hu => (List.mem_filter.1 hu).2⟩
      intro he
      rw [he] at hne
      exact hne rfl
  · cases h
  · cases h
  · cases h

/-- C6: the empty text, and every text whose lines are all noise (blank lines, HTTP status
lines, recognised headers), makes `parseJsonData` fail with "No valid JSON objects found in
input"; and `parseJsonData` never returns an empty sequence: what it returns has at least
one element and every element is a JSON object. -/
theorem parseJsonData_no_valid_objects :
    parseJsonData [] = .error .noValidObjects ∧
    (∀ s : List Char, (∀ l ∈ getlines s, isNoiseLine l = true) →
      parseJsonData s = .error .noValidObjects) ∧
    (∀ (s : List Char) (users : List Json), parseJsonData s = .ok users →
      users ≠ [] ∧ ∀ u ∈ users, u.is_object = true) := by
  refine ⟨rfl, ?_, ?_⟩
  · intro s hs
    have hsk : ∀ l ∈ getlines s, isSkippedLine l = true :=
      fun l hl => isNoiseLine_skipped (hs l hl)
    rw [parseJsonData_lines s (fun l hl => Or.inl (hsk l hl)),
      lineObjects_skipped _ (fun l hl => hsk l (List.mem_of_mem_take hl))]
    rfl
  · intro s users h
    unfold parseJsonData at h
    cases ha : arrayAttempt s with
    | error e => rw [ha] at h; cases h
    | ok r =>
      rw [ha] at h
      cases r with
      | some us =>
        cases h
        exact arrayAttempt_some ha
      | none =>
        have := ndjsonFallback_ok h
        exact ⟨this.1, this.2.1⟩

theorem parseJsonData_no_valid_objects_witness :
    parseJsonData noiseSample = .error .noValidObjects ∧
    ([Json.obj []] ≠ [] ∧ ∀ u ∈ [Json.obj []], u.is_object = true) :=
  ⟨parseJsonData_no_valid_objects.2.1 noiseSample (by
      have hg : getlines noiseSample =
          ["HTTP/1.1 404 Not Found".toList, [], "Connection: close".toList] := by rfl
      rw [hg]
      intro l hl
      simp only [List.mem_cons, List.mem_singleton, List.not_mem_nil, or_false] at hl
      rcases hl with rfl | rfl | rfl <;> rfl),
   parseJsonData_no_valid_objects.2.2 ['{', '}'] [.obj []] rfl⟩

set_option maxRecDepth 100000 in
/-- C7, as stated, fails: the whole-document attempt has no cap, and an array of 1,001
objects is returned whole. -/
theorem parseJsonData_array_exceeds_cap :
    parseJsonData manyObjectsArray = .ok (List.replicate 1001 (.obj [])) ∧
    ¬ (List.replicate 1001 (Json.obj [])).length ≤ 1000 :=
  ⟨by rfl, by decide⟩

/-- C7, amended: the object cap is a hard stop of the NDJSON scan: whenever the
whole-document attempt returns nothing and `parseJsonData` succeeds, the returned sequence
holds at most 1,000 objects. -/
theorem parseJsonData_scan_cap (s : List Char) (users : List Json)
    (ha : arrayAttempt s = .ok none) (h : parseJsonData s = .ok users) :
    users.length ≤ 1000 := by
  unfold parseJsonData at h
  rw [ha] at h
  exact (ndjsonFallback_ok h).2.2

theorem parseJsonData_scan_cap_witness :
    arrayAttempt "\x7b\x7d\n\x7b\x7d".toList = .ok none ∧
    parseJsonData "\x7b\x7d\n\x7b\x7d".toList = .ok [.obj [], .obj []] ∧
    [Json.obj [], Json.obj []].length ≤ 1000 :=
  ⟨rfl, rfl, parseJsonData_scan_cap "\x7b\x7d\n\x7b\x7d".toList [.obj [], .obj []] rfl rfl⟩

/-- C8, the defect: a stray closing brace takes the nesting count of the scan to -1, where
it stays, so the object on the next line never brings the count back to 0 with a buffer
that parses, and the extraction fails where the claim promises the object `a = 1`. -/
theorem parseJsonData_stray_brace :
    scanChars Scan.init ['}'] =
      .ok { users := [], currentObject := ['}'], braceCount := -1, inString := false,
            escapeNext := false } ∧
    jsonParse "\x7b\"a\":1\x7d".toList = .ok (.obj [("a".toList, .num 1 0)]) ∧
    parseJsonData "\x7d\n\x7b\"a\":1\x7d".toList = .error .noValidObjects :=
  ⟨rfl, rfl, rfl⟩

/-- C9, as stated, fails: the loop skips every line that starts with `HTTP/`, also one
that is no status line of the form `HTTP/<digit>.<digit> <code> <reason>`, such as the
status line of HTTP/2. -/
theorem isSkippedLine_not_only_noise :
    isSkippedLine "HTTP/2 200".toList = true ∧ isNoiseLine "HTTP/2 200".toList = false ∧
    isHttpErrorResponse "HTTP/2 200".toList = false :=
  ⟨rfl, rfl, rfl⟩

/-- C9, amended: the loop skips a line exactly when the line is blank (empty or only
whitespace), or starts with `HTTP/`, or starts with one of the five case-sensitive header
names; every noise line of the specification is among these. A skipped line changes
nothing but the line count. Any other line goes to the character loop, where each
character read joins the candidate buffer: the loop goes on with the buffer extended by
the character, or parses the buffer extended by the character. -/
theorem isSkippedLine_iff :
    (∀ line : List Char, isSkippedLine line = true ↔
      (allBlank line = true ∨ startsWith "HTTP/".toList line = true ∨
       startsWith "Server:".toList line = true ∨ startsWith "Date:".toList line = true ∨
       startsWith "Content-Type:".toList line = true ∨
       startsWith "Content-Length:".toList line = true ∨
       startsWith "Connection:".toList line = true)) ∧
    (∀ line : List Char, isNoiseLine line = true → isSkippedLine line = true) ∧
    isSkippedLine "server: x".toList = false ∧
    (∀ (st : Scan) (k : Nat) (line : List Char) (rest : List (List Char)),
      k < MAX_LINES → st.users.length < MAX_OBJECTS → isSkippedLine line = true →
      scanLines st k (line :: rest) = scanLines st (k + 1) rest) ∧
    (∀ (st : Scan) (k : Nat) (line : List Char) (rest : List (List Char)),
      k < MAX_LINES → st.users.length < MAX_OBJECTS → isSkippedLine line = false →
      scanLines st k (line :: rest) =
        match scanChars st line with
        | .ok st' => scanLines st' (k + 1) rest
        | .error e => .error e) ∧
    (∀ (st : Scan) (c : Char), (st.push c).currentObject = st.currentObject ++ [c] ∧
      ((∀ cs, scanChars st (c :: cs) = scanChars (st.push c) cs) ∨
       (∃ user, jsonParse (st.currentObject ++ [c]) = .ok user ∧ user.is_object = true ∧
         ((MAX_OBJECTS ≤ (st.users ++ [user]).length ∧
             ∀ cs, scanChars st (c :: cs) = .ok (Scan.clean (st.users ++ [user]))) ∨
          ((st.users ++ [user]).length < MAX_OBJECTS ∧
             ∀ cs, scanChars st (c :: cs) = scanChars (Scan.clean (st.users ++ [user])) cs))) ∨
       (jsonParse (st.currentObject ++ [c]) = .error .parseError ∧
         ∀ cs, scanChars st (c :: cs) = scanChars (Scan.clean st.users) cs) ∨
       (jsonParse (st.currentObject ++ [c]) = .error .outOfRange ∧
         ∀ cs, scanChars st (c :: cs) = .error .failedToParse))) := by
  refine ⟨?_, fun line => isNoiseLine_skipped, rfl, ?_, ?_, ?_⟩
  · intro line
    simp only [isSkippedLine, Bool.or_eq_true]
    constructor
    · intro h
      rcases h with ((((((h | h) | h) | h) | h) | h) | h) | h
      · left
        cases line with
        | nil => rfl
        | cons c cs => cases h
      all_goals tauto
    · intro h
      tauto
  · intro st k line rest hk hu hs
    rw [scanLines, if_pos ⟨hk, hu⟩, if_pos hs]
  · intro st k line rest hk hu hs
    rw [scanLines, if_pos ⟨hk, hu⟩, if_neg (by simp [hs])]
  · intro st c
    exact ⟨rfl, scanChars_cons_cases st c⟩

theorem isSkippedLine_iff_witness :
    scanLines Scan.init 0 ["HTTP/2 200".toList, "\x7b\x7d".toList] =
      scanLines Scan.init 1 ["\x7b\x7d".toList] ∧
    scanLines Scan.init 1 ["\x7b\x7d".toList] = .ok (Scan.clean [.obj []]) :=
  ⟨isSkippedLine_iff.2.2.2.1 Scan.init 0 "HTTP/2 200".toList ["\x7b\x7d".toList]
    (by decide) (by decide) rfl, rfl⟩

theorem scanLines_take (lines : List (List Char)) :
    ∀ (st : Scan) (lineCount : Nat),
      scanLines st lineCount lines = scanLines st lineCount (lines.take (MAX_LINES - lineCount)) := by
  induction lines with
  | nil => intro st k; simp
  | cons l ls ih =>
    intro st k
    by_cases hc : k < MAX_LINES ∧ st.users.length < MAX_OBJECTS
    · have hk : MAX_LINES - k = (MAX_LINES - (k + 1)) + 1 := by omega
      rw [hk, List.take_succ_cons, scanLines, scanLines, if_pos hc, if_pos hc]
      by_cases hs : isSkippedLine l = true
      · rw [if_pos hs, if_pos hs]
        exact ih st (k + 1)
      · rw [if_neg hs, if_neg hs]
        cases scanChars st l with
        | error e => rfl
        | ok st' => exact ih st' (k + 1)
    · rw [scanLines, if_neg hc]
      cases hl : (l :: ls).take (MAX_LINES - k) with
      | nil => rfl
      | cons l' ls' => rw [scanLines, if_neg hc]

theorem getlines_newlines (n : Nat) (s : List Char) :
    getlines (List.replicate n '\n' ++ s) = List.replicate n [] ++ getlines s := by
  induction n with
  | zero => rfl
  | succ n ih =>
    rw [List.replicate_succ, List.cons_append, getlines, if_pos rfl, ih]
    rfl

/-- C10: the NDJSON scan reads at most the first 10,000 lines: two texts with the same
first 10,000 lines, on both of which the whole-document attempt returns nothing, have the
same outcome; 10,000 blank lines followed by an object line fail with "No valid JSON
objects found in input". -/
theorem parseJsonData_line_cap :
    (∀ a b : List Char, (getlines a).take 10000 = (getlines b).take 10000 →
      arrayAttempt a = .ok none → arrayAttempt b = .ok none →
      parseJsonData a = parseJsonData b) ∧
    parseJsonData (List.replicate 10000 '\n' ++ "\x7b\"a\":1\x7d".toList) =
      .error .noValidObjects := by
  constructor
  · intro a b hab ha hb
    simp only [parseJsonData, ha, hb, ndjsonFallback]
    rw [scanLines_take (getlines a), scanLines_take (getlines b)]
    simp only [Nat.sub_zero]
    rw [show MAX_LINES = 10000 from rfl, hab]
  · have hg : getlines (List.replicate 10000 '\n' ++ "\x7b\"a\":1\x7d".toList) =
        List.replicate 10000 [] ++ ["\x7b\"a\":1\x7d".toList] := by
      rw [getlines_newlines]; rfl
    have hl : ∀ l ∈ getlines (List.replicate 10000 '\n' ++ "\x7b\"a\":1\x7d".toList),
        isSkippedLine l = true ∨ ∃ m, jsonParse l = .ok (.obj m) := by
      rw [hg]
      intro l hl
      rcases List.mem_append.1 hl with h | h
      · rw [List.eq_of_mem_replicate h]; exact Or.inl rfl
      · rw [List.mem_singleton.1 h]; exact Or.inr ⟨_, rfl⟩
    rw [parseJsonData_lines _ hl, hg]
    have ht : (List.replicate 10000 ([] : List Char) ++ ["\x7b\"a\":1\x7d".toList]).take
        MAX_LINES = List.replicate 10000 [] := by
      rw [List.take_left' (by rw [List.length_replicate]; rfl)]
    rw [ht, lineObjects_skipped _ (fun l h => by rw [List.eq_of_mem_replicate h]; rfl)]
    rfl

theorem parseJsonData_line_cap_witness :
    (getlines (List.replicate 10000 '\n' ++ "\x7b\x7d".toList)).take 10000 =
      (getlines (List.replicate 10000 '\n' ++ "x\ny".toList)).take 10000 ∧
    parseJsonData (List.replicate 10000 '\n' ++ "\x7b\x7d".toList) =
      parseJsonData (List.replicate 10000 '\n' ++ "x\ny".toList) := by
  have hlen : (List.replicate 10000 ([] : List Char)).length = 10000 := List.length_replicate _ _
  have hab : (getlines (List.replicate 10000 '\n' ++ "\x7b\x7d".toList)).take 10000 =
      (getlines (List.replicate 10000 '\n' ++ "x\ny".toList)).take 10000 := by
    rw [getlines_newlines, getlines_newlines, List.take_left' hlen, List.take_left' hlen]
  have hws : ∀ c ∈ List.replicate 10000 '\n', isJsonWs c = true :=
    fun c hc => by rw [List.eq_of_mem_replicate hc]; rfl
  have hp : ∀ s : List Char, jsonParse (List.replicate 10000 '\n' ++ s) = parseCore s := by
    intro s
    rcases jsonParse_cases (List.replicate 10000 '\n' ++ s) with ⟨cs, hs, _⟩ | ⟨_, hq⟩
    · cases hs
    · rw [hq, parseCore_eq, finishRun_append, run_idle_allWs rfl _ hws]
      rfl
  have ha : arrayAttempt (List.replicate 10000 '\n' ++ "\x7b\x7d".toList) = .ok none :=
    arrayAttempt_of_objOrErr (Or.inr ⟨[], by rw [hp]; rfl⟩)
  have hb : arrayAttempt (List.replicate 10000 '\n' ++ "x\ny".toList) = .ok none :=
    arrayAttempt_of_objOrErr (Or.inl (by rw [hp]; rfl))
  exact ⟨hab, parseJsonData_line_cap.1 _ _ hab ha hb⟩

/-- C17: on a text without double quote and backslash, `isCompleteJsonObject` returns true
exactly when the bracket characters of the text, in order, form a well-nested word
`W ::= empty | { W } W | [ W ] W`; the other characters are ignored, and a closing bracket
that meets an empty stack or an opening bracket of the other kind gives `false`. -/
theorem isCompleteJsonObject_iff_wellNested :
    (∀ s : List Char, '"' ∉ s → '\\' ∉ s →
      (isCompleteJsonObject s = true ↔ WellNested (s.filter isBracket))) ∧
    (∀ s : List Char, '"' ∉ s → '\\' ∉ s →
      isCompleteJsonObject s = isCompleteJsonObject (s.filter isBracket)) ∧
    (∀ cs : List Char,
      isCompleteLoop [] false false ('}' :: cs) = false ∧
      isCompleteLoop [] false false (']' :: cs) = false) ∧
    (∀ (st cs : List Char),
      isCompleteLoop ('[' :: st) false false ('}' :: cs) = false ∧
      isCompleteLoop ('{' :: st) false false (']' :: cs) = false) := by
  refine ⟨?_, ?_, ?_, ?_⟩
  · intro s hq hb
    unfold isCompleteJsonObject
    rw [isCompleteLoop_filter s hq hb]
    constructor
    · intro h
      exact isCompleteLoop_closes _ (fun c hc => (List.mem_filter.1 hc).2) [] h
    · intro h
      have := isCompleteLoop_wellNested h [] []
      rw [List.append_nil] at this
      rw [this]
      rfl
  · intro s hq hb
    exact isCompleteLoop_filter s hq hb []
  · intro cs
    exact ⟨rfl, rfl⟩
  · intro st cs
    exact ⟨rfl, rfl⟩

theorem isCompleteJsonObject_iff_wellNested_witness :
    WellNested ("\x7ba[b]\x7dc[]".toList.filter isBracket) ∧
    isCompleteJsonObject "\x7ba[b]\x7dc[]".toList = true :=
  ⟨(isCompleteJsonObject_iff_wellNested.1 "\x7ba[b]\x7dc[]".toList (by decide) (by decide)).1 rfl,
   rfl⟩

/-- C16, as stated, fails: after `[`, and after `}` followed by `{`, the inline tracker of
the scan is at nesting count 0 outside a string, and the scan does try the buffer `[`,
while `isCompleteJsonObject` returns false on both texts. -/
theorem inlineComplete_not_isComplete :
    inlineComplete ['['] = true ∧ isCompleteJsonObject ['['] = false ∧
    inlineComplete ['}', '{'] = true ∧ isCompleteJsonObject ['}', '{'] = false ∧
    scanChars Scan.init ['['] = .ok (Scan.clean []) :=
  ⟨rfl, rfl, rfl, rfl, rfl⟩

/-- C16, amended: whenever `isCompleteJsonObject` returns true on a text, the inline
tracker of the NDJSON scan, fed the text from its initial state, ends at nesting count 0
and outside a string. -/
theorem isComplete_inlineComplete (s : List Char) (h : isCompleteJsonObject s = true) :
    inlineComplete s = true ∧ (inlineTrack s).1 = 0 ∧ (inlineTrack s).2.1 = false := by
  have := isCompleteLoop_inline s [] false false 0 h
  simp only [braceDepth, add_zero] at this
  refine ⟨?_, this.1, this.2⟩
  simp only [inlineComplete, inlineTrack, this.1, this.2]
  rfl

theorem isComplete_inlineComplete_witness :
    isCompleteJsonObject "\x7b\"a\":\"\x7d\"\x7d".toList = true ∧
    inlineComplete "\x7b\"a\":\"\x7d\"\x7d".toList = true :=
  ⟨rfl, (isComplete_inlineComplete "\x7b\"a\":\"\x7d\"\x7d".toList rfl).1⟩

/-- C15, the defect: the buffer is not cleared after a parse that succeeds with a value that
is not an object, as it is after an object and after a `parse_error`. On a line made
of `5`, a space and an object, the text `5` parses, to a number, and stays in the buffer;
the object after it is added to the same buffer, which then never parses: the well-formed
object is lost and `parseJsonData` fails with "No valid JSON objects found in input". -/
theorem scanChars_keeps_non_object :
    jsonParse ['5'] = .ok (.num 5 0) ∧
    scanChars Scan.init ['5'] =
      .ok { users := [], currentObject := ['5'], braceCount := 0, inString := false,
            escapeNext := false } ∧
    jsonParse "\x7b\"a\":1\x7d".toList = .ok (.obj [("a".toList, .num 1 0)]) ∧
    parseJsonData "5 \x7b\"a\":1\x7d".toList = .error .noValidObjects :=
  ⟨rfl, rfl, rfl, rfl⟩

/-- The three outcomes of a parse attempt of the scan (nesting count 0, outside a string):
the buffer is empty afterwards if the parse failed with `parse_error` or gave an object,
which is then added to the output; if the parse gave a value that is not an object, the
buffer is kept as it is, with the character just read. -/
theorem scanChars_after_attempt (st : Scan) (c : Char) (cs : List Char)
    (hen : st.escapeNext = false)
    (h : trackStep (st.braceCount, st.inString, st.escapeNext) c = (0, false, false)) :
    (Scan.clean st.users).currentObject = [] ∧
    (st.push c).currentObject = st.currentObject ++ [c] ∧
    (jsonParse (st.currentObject ++ [c]) = .error .parseError →
      scanChars st (c :: cs) = scanChars (Scan.clean st.users) cs) ∧
    (∀ user, jsonParse (st.currentObject ++ [c]) = .ok user → user.is_object = true →
      (Scan.clean (st.users ++ [user])).currentObject = [] ∧
      scanChars st (c :: cs) =
        if MAX_OBJECTS ≤ (st.users ++ [user]).length then .ok (Scan.clean (st.users ++ [user]))
        else scanChars (Scan.clean (st.users ++ [user])) cs) ∧
    (∀ user, jsonParse (st.currentObject ++ [c]) = .ok user → user.is_object = false →
      scanChars st (c :: cs) = scanChars (st.push c) cs) := by
  refine ⟨rfl, rfl, ?_, ?_, ?_⟩
  · intro hp
    rw [scanChars_check cs hen h, hp]
  · intro user hp ho
    refine ⟨rfl, ?_⟩
    rw [scanChars_check cs hen h, hp]
    simp only [ho, if_true]
  · intro user hp ho
    rw [scanChars_check cs hen h, hp]
    simp only [ho, Bool.false_eq_true, if_false]

theorem scanChars_after_attempt_witness :
    scanChars Scan.init ('5' :: "\x7b\x7d".toList) =
      scanChars (Scan.init.push '5') "\x7b\x7d".toList ∧
    (Scan.init.push '5').currentObject = ['5'] :=
  ⟨(scanChars_after_attempt Scan.init '5' "\x7b\x7d".toList rfl rfl).2.2.2.2
    (.num 5 0) rfl rfl, rfl⟩

theorem lineObjects_forall2 (os : List (List Char))
    (hos : ∀ o ∈ os, ∃ m, jsonParse o = .ok (.obj m)) :
    List.Forall₂ (fun o v => jsonParse o = .ok v) os (lineObjects os) := by
  induction os with
  | nil => exact List.Forall₂.nil
  | cons o rest ih =>
    obtain ⟨m, hm⟩ := hos o (List.mem_cons_self _ _)
    have hobj : lineObjects (o :: rest) = .obj m :: lineObjects rest := by
      simp only [lineObjects, List.filterMap_cons, lineObject_object hm]
    rw [hobj]
    exact List.Forall₂.cons hm (ih (fun x hx => hos x (List.mem_cons_of_mem _ hx)))

/-- C19: the NDJSON scan does not count square brackets, so the objects of an unterminated
top-level array are still extracted: on a one-line text made of `[` followed by `k` texts
that each parse to a JSON object, `1 ≤ k ≤ 1000`, with a comma between each two and no
closing `]`, `parseJsonData` returns exactly the `k` objects, in order. -/
theorem parseJsonData_unterminated_array (os : List (List Char))
    (h1 : 1 ≤ os.length) (hk : os.length ≤ 1000)
    (hos : ∀ o ∈ os, ∃ m, jsonParse o = .ok (.obj m))
    (hline : '\n' ∉ joinComma os) :
    ∃ objs : List Json, parseJsonData ('[' :: joinComma os) = .ok objs ∧
      List.Forall₂ (fun o v => jsonParse o = .ok v) os objs :=
  ⟨lineObjects os,
    parseJsonData_open_array os (fun h => by rw [h] at h1; cases h1) hk hos hline,
    lineObjects_forall2 os hos⟩

theorem parseJsonData_unterminated_array_witness :
    ∃ objs : List Json,
      parseJsonData "[\x7b\"a\":1\x7d,\x7b\"b\":[2]\x7d".toList = .ok objs ∧
      List.Forall₂ (fun o v => jsonParse o = .ok v)
        ["\x7b\"a\":1\x7d".toList, "\x7b\"b\":[2]\x7d".toList] objs :=
  parseJsonData_unterminated_array ["\x7b\"a\":1\x7d".toList, "\x7b\"b\":[2]\x7d".toList]
    (by decide) (by decide)
    (by
      intro o ho
      simp only [List.mem_cons, List.mem_singleton, List.not_mem_nil, or_false] at ho
      rcases ho with rfl | rfl
      · exact ⟨_, rfl⟩
      · exact ⟨_, rfl⟩)
    (by decide)

/-- C11, as stated, fails: on `[{age:0.1},{age:0.2}]` the mean of the exact rational ages
is 3/20, and `calculateAverageAge` returns the double `0x1.3333333333334p-3`
(0.15000000000000002), which is not 3/20 and is not the double nearest to 3/20 either
(`0x1.3333333333333p-3`); on two ages of 1e308 the sum overflows and the result is
infinity. -/
theorem calculateAverageAge_not_exact_mean :
    exactMean decimalSample = 3 / 20 ∧
    calculateAverageAge decimalSample = .ok (.finite false (0x13333333333334 <<< 1019)) ∧
    Double.toRat (.finite false (0x13333333333334 <<< 1019)) ≠ some (3 / 20) ∧
    roundNearestEven false (3 <<< 1074) 20 = .finite false (0x13333333333333 <<< 1019) ∧
    calculateAverageAge overflowSample = .ok (.inf false) := by
  refine ⟨?_, rfl, ?_, rfl, rfl⟩
  · simp [exactMean, exactAges, decimalSample, ageNumber, Json.get?, List.lookup, exactValue]
    norm_num
  · intro h
    have h1 : ((0x13333333333334 <<< 1019 : Nat) : ℚ) / ((1 <<< 1074 : Nat) : ℚ) =
        ((3 : Nat) : ℚ) / ((20 : Nat) : ℚ) := by
      have h2 : (if false = true then
          -(((0x13333333333334 <<< 1019 : Nat) : ℚ) / ((1 <<< 1074 : Nat) : ℚ))
          else ((0x13333333333334 <<< 1019 : Nat) : ℚ) / ((1 <<< 1074 : Nat) : ℚ)) = 3 / 20 :=
        Option.some.inj h
      rw [if_neg (by decide)] at h2
      rw [h2, Nat.cast_ofNat, Nat.cast_ofNat]
    have h3 := toRat_eq_div (by decide) (by decide) h1
    revert h3
    decide

/-- C11, amended: `calculateAverageAge` fails exactly on the empty sequence. On a
non-empty sequence it returns `+0.0` when no object has a numeric `age`; otherwise it
returns the binary64 quotient of the running binary64 sum of the ages, each read as the
nearest double, in input order, of exactly the objects that have a numeric `age`, by their
number: every operation rounds to nearest, so the result need not be the exact mean. When
every age is a non-negative integer literal and their sum is below `2^53`, the sum is exact
and the result is the double nearest to the exact mean, equal to the exact mean when the
count divides the sum. When no age is negative the result satisfies `0.0 <= result`.
`[{age:10},{age:20},{}]` gives 15. -/
theorem calculateAverageAge_rounded (users : List Json) :
    ((∃ f, calculateAverageAge users = .error f) ↔ users = []) ∧
    (users ≠ [] → users.filterMap ageOf = [] →
      calculateAverageAge users = .ok Double.zero) ∧
    (users ≠ [] → users.filterMap ageOf ≠ [] → calculateAverageAge users =
      .ok (((users.filterMap ageOf).foldl Double.add Double.zero).divCount
        (users.filterMap ageOf).length)) ∧
    ((∀ u ∈ users, ∀ m e, ageNumber u = some (m, e) → 0 ≤ m ∧ e = 0) →
      users.filterMap ageNumber ≠ [] → natAgeSum users < 2 ^ 53 →
      calculateAverageAge users = .ok (roundNearestEven false (natAgeSum users <<< 1074)
        (users.filterMap ageNumber).length) ∧
      exactMean users = (natAgeSum users : ℚ) / ((users.filterMap ageNumber).length : ℚ) ∧
      ((users.filterMap ageNumber).length ∣ natAgeSum users →
        ∃ r, calculateAverageAge users = .ok r ∧ r.toRat = some (exactMean users))) ∧
    ((∀ u ∈ users, ∀ m e, ageNumber u = some (m, e) → 0 ≤ m) →
      ∀ r, calculateAverageAge users = .ok r → r.geZero = true) ∧
    (calculateAverageAge ageSample = .ok (.finite false (15 <<< 1074)) ∧
      Double.toRat (.finite false (15 <<< 1074)) = some 15) := by
  refine ⟨?_, ?_, ?_, ?_, ?_, rfl, ?_⟩
  · constructor
    · rintro ⟨f, hf⟩
      by_contra hne
      rw [calculateAverageAge_eq users hne] at hf
      split at hf <;> cases hf
    · intro h
      subst h
      exact ⟨_, rfl⟩
  · intro hne h0
    rw [calculateAverageAge_eq users hne, h0]
    rfl
  · intro hne h0
    rw [calculateAverageAge_eq users hne, if_neg (fun h => h0 (List.length_eq_zero.1 h))]
  · intro hclass hsome hlt
    have hne : users ≠ [] := by
      intro h
      rw [h] at hsome
      exact hsome rfl
    have hlits : ∀ p ∈ users.filterMap ageNumber, 0 ≤ p.1 ∧ p.2 = 0 := by
      intro p hp
      obtain ⟨u, hu, hpu⟩ := List.mem_filterMap.1 hp
      exact hclass u hu p.1 p.2 hpu
    have hlen : (users.filterMap ageOf).length = (users.filterMap ageNumber).length := by
      rw [filterMap_ageOf, List.length_map]
    have hcount : (users.filterMap ageNumber).length ≠ 0 :=
      fun h => hsome (List.length_eq_zero.1 h)
    have hsum : (users.filterMap ageOf).foldl Double.add Double.zero =
        .finite false (natAgeSum users <<< 1074) := by
      have := foldl_add_nat (users.filterMap ageNumber) 0 hlits (by
        rw [Nat.zero_add]; exact hlt)
      rw [Nat.zero_add, Nat.zero_shiftLeft] at this
      rw [filterMap_ageOf]
      exact this
    have hres : calculateAverageAge users = .ok (roundNearestEven false
        (natAgeSum users <<< 1074) (users.filterMap ageNumber).length) := by
      rw [calculateAverageAge_eq users hne, hlen, if_neg hcount, hsum]
      rfl
    have hmean : exactMean users =
        (natAgeSum users : ℚ) / ((users.filterMap ageNumber).length : ℚ) := by
      rw [exactMean, exactAges, exactAges_sum_nat _ hlits, List.length_map]
      rfl
    refine ⟨hres, hmean, ?_⟩
    rintro ⟨q, hq⟩
    have hpos : 0 < (users.filterMap ageNumber).length := Nat.pos_of_ne_zero hcount
    have hqlt : q < 2 ^ 53 := by
      have : q ≤ natAgeSum users := by
        rw [hq]
        exact Nat.le_mul_of_pos_left q hpos
      omega
    refine ⟨.finite false (q <<< 1074), ?_, ?_⟩
    · rw [hres]
      have h1 : natAgeSum users <<< 1074 =
          (q <<< 1074) * (users.filterMap ageNumber).length := by
        rw [hq, Nat.shiftLeft_eq, Nat.shiftLeft_eq]
        ring
      have h2 := roundNearestEven_scale false (q <<< 1074) 1
        (users.filterMap ageNumber).length hpos
      rw [Nat.one_mul] at h2
      rw [h1, h2]
      exact congrArg Except.ok (roundNearestEven_exact false q 1074 hqlt
        (shiftLeft_lt_shiftLeft _ _ _ hqlt (by decide)))
    · rw [toRat_nat q 1074 rfl, hmean, hq]
      have hc : (((users.filterMap ageNumber).length : Nat) : ℚ) ≠ 0 :=
        Nat.cast_ne_zero.2 hcount
      rw [Nat.cast_mul, mul_div_cancel_left₀ _ hc]
  · intro hnn r hr
    cases users with
    | nil => cases hr
    | cons u rest =>
      rw [calculateAverageAge_eq _ (List.cons_ne_nil _ _)] at hr
      split at hr
      · cases hr
        rfl
      · cases hr
        apply geZero_of_signClear
        apply divCount_signClear
        refine foldl_add_signClear _ Double.zero rfl ?_
        intro a ha
        obtain ⟨v, hv, hav⟩ := List.mem_filterMap.1 ha
        rw [ageOf_eq] at hav
        cases hn : ageNumber v with
        | none => rw [hn] at hav; cases hav
        | some p =>
          rw [hn] at hav
          cases hav
          exact toDouble_signClear _ _ (hnn v hv p.1 p.2 hn)
  · exact toRat_nat 15 1074 rfl

theorem calculateAverageAge_rounded_witness :
    calculateAverageAge ageSample =
      .ok (roundNearestEven false (natAgeSum ageSample <<< 1074)
        (ageSample.filterMap ageNumber).length) ∧
    exactMean ageSample =
      (natAgeSum ageSample : ℚ) / ((ageSample.filterMap ageNumber).length : ℚ) ∧
    ((ageSample.filterMap ageNumber).length ∣ natAgeSum ageSample →
      ∃ r, calculateAverageAge ageSample = .ok r ∧ r.toRat = some (exactMean ageSample)) :=
  (calculateAverageAge_rounded ageSample).2.2.2.1
    (by
      intro u hu m e h
      simp only [ageSample, List.mem_cons, List.mem_singleton, List.not_mem_nil,
        or_false] at hu
      rcases hu with rfl | rfl | rfl
      · cases h; exact ⟨by decide, rfl⟩
      · cases h; exact ⟨by decide, rfl⟩
      · cases h)
    (by decide) (by decide)

/-- C12: `findUsersWithMostFriends` fails exactly when no object of the input has a
non-empty `friends` array (the empty input included); otherwise, with `L` the largest
length of a `friends` array, it returns the objects whose `friends` array has length `L`,
each once and in their original order, and the result is not empty; and
`[{friends:[1,2]},{friends:[1]},{friends:[3,4]}]` gives the first and the third object. -/
theorem findUsersWithMostFriends_max_group (users : List Json) :
    ((∃ f, findUsersWithMostFriends users = .error f) ↔
      ∀ u ∈ users, ∀ friends, friendsOf u = some friends → friends = []) ∧
    (∀ result, findUsersWithMostFriends users = .ok result →
      ∃ L, 0 < L ∧
        (∀ u ∈ users, ∀ friends, friendsOf u = some friends → friends.length ≤ L) ∧
        (∃ u ∈ users, ∃ friends, friendsOf u = some friends ∧ friends.length = L) ∧
        result = users.filter (hasFriendCount L) ∧ result ≠ []) ∧
    (∀ L u, hasFriendCount L u = true ↔
      ∃ friends, friendsOf u = some friends ∧ friends.length = L) ∧
    findUsersWithMostFriends friendsSample =
      .ok [.obj [("friends".toList, .arr [.num 1 0, .num 2 0])],
           .obj [("friends".toList, .arr [.num 3 0, .num 4 0])]] := by
  have hzero : maxFriendsFrom 0 users = 0 ↔
      ∀ u ∈ users, ∀ friends, friendsOf u = some friends → friends = [] := by
    constructor
    · intro h0 u hu friends hf
      have := length_le_maxFriendsFrom users 0 u hu friends hf
      rw [h0] at this
      exact List.length_eq_zero.1 (Nat.le_zero.1 this)
    · intro hall
      rcases maxFriendsFrom_attained users 0 with h | ⟨u, hu, fs, hf, hl⟩
      · exact h
      · rw [← hl, hall u hu fs hf]
        rfl
  refine ⟨?_, ?_, hasFriendCount_iff, rfl⟩
  · constructor
    · rintro ⟨f, hf⟩
      cases users with
      | nil => intro u hu; cases hu
      | cons v rest =>
        apply hzero.1
        by_contra hne
        simp only [findUsersWithMostFriends, List.isEmpty_cons, Bool.false_eq_true, if_false,
          if_neg hne] at hf
        cases hf
    · intro hall
      cases users with
      | nil => exact ⟨_, rfl⟩
      | cons v rest =>
        simp only [findUsersWithMostFriends, List.isEmpty_cons, Bool.false_eq_true, if_false,
          if_pos (hzero.2 hall)]
        exact ⟨_, rfl⟩
  · intro result hr
    cases users with
    | nil => cases hr
    | cons v rest =>
      simp only [findUsersWithMostFriends, List.isEmpty_cons, Bool.false_eq_true,
        if_false] at hr
      by_cases h0 : maxFriendsFrom 0 (v :: rest) = 0
      · rw [if_pos h0] at hr; cases hr
      · rw [if_neg h0] at hr
        simp only [Except.ok.injEq] at hr
        have hatt : ∃ u ∈ v :: rest, ∃ friends, friendsOf u = some friends ∧
            friends.length = maxFriendsFrom 0 (v :: rest) := by
          rcases maxFriendsFrom_attained (v :: rest) 0 with h | h
          · exact absurd h h0
          · exact h
        refine ⟨maxFriendsFrom 0 (v :: rest), Nat.pos_of_ne_zero h0,
          length_le_maxFriendsFrom (v :: rest) 0, hatt, hr.symm, ?_⟩
        obtain ⟨u, hu, fs, hf, hl⟩ := hatt
        intro hnil
        have hmem : u ∈ result := by
          rw [← hr]
          exact List.mem_filter.2 ⟨hu, (hasFriendCount_iff _ _).2 ⟨fs, hf, hl⟩⟩
        rw [hnil] at hmem
        cases hmem

theorem findUsersWithMostFriends_max_group_witness :
    ∃ L, 0 < L ∧
      (∀ u ∈ friendsSample, ∀ friends, friendsOf u = some friends → friends.length ≤ L) ∧
      (∃ u ∈ friendsSample, ∃ friends, friendsOf u = some friends ∧ friends.length = L) ∧
      [Json.obj [("friends".toList, .arr [.num 1 0, .num 2 0])],
        Json.obj [("friends".toList, .arr [.num 3 0, .num 4 0])]] =
          friendsSample.filter (hasFriendCount L) ∧
      [Json.obj [("friends".toList, .arr [.num 1 0, .num 2 0])],
        Json.obj [("friends".toList, .arr [.num 3 0, .num 4 0])]] ≠ [] :=
  (findUsersWithMostFriends_max_group friendsSample).2.1 _ rfl

/-- C13: `findMostCommonHobby` fails exactly when no string occurs in a `hobbies` array of
an entry of a `friends` array of an object of the input (the empty input included);
otherwise it returns a string of the input whose number of occurrences, counted over every
object, every friend and every string hobby, is not exceeded by that of any string. Friends
and hobbies that are missing, not arrays or not strings are skipped: they add nothing to
`allHobbies`, and an object without a `friends` array in front of a non-empty input does
not change the outcome. -/
theorem findMostCommonHobby_most_frequent (users : List Json) :
    ((∃ f, findMostCommonHobby users = .error f) ↔ allHobbies users = []) ∧
    (allHobbies users ≠ [] → ∃ h, findMostCommonHobby users = .ok h ∧
      h ∈ allHobbies users ∧
      ∀ s, (allHobbies users).count s ≤ (allHobbies users).count h) ∧
    (∀ u, friendsOf u = none → users ≠ [] →
      findMostCommonHobby (u :: users) = findMostCommonHobby users) := by
  refine ⟨findMostCommonHobby_error_iff users, ?_, ?_⟩
  · intro hne
    cases hr : findMostCommonHobby users with
    | error f => exact absurd ((findMostCommonHobby_error_iff users).1 ⟨f, hr⟩) hne
    | ok h =>
      have := findMostCommonHobby_least hr
      exact ⟨h, rfl, this.1, this.2.1⟩
  · intro u hu hne
    cases users with
    | nil => exact absurd rfl hne
    | cons v rest =>
      simp only [findMostCommonHobby, List.isEmpty_cons, Bool.false_eq_true, if_false]
      rw [countUsers, hu]

theorem findMostCommonHobby_most_frequent_witness :
    ∃ h, findMostCommonHobby malformedSample = .ok h ∧ h ∈ allHobbies malformedSample ∧
      ∀ s, (allHobbies malformedSample).count s ≤ (allHobbies malformedSample).count h :=
  (findMostCommonHobby_most_frequent malformedSample).2.1 (by decide)

/-- C14, as stated, fails: with the hobbies `b`, `a` met in this order, one occurrence
each, the string met first among the most frequent is `b`, and `findMostCommonHobby`
returns `a`. -/
theorem findMostCommonHobby_not_first_encountered :
    allHobbies tieSample = ["b".toList, "a".toList] ∧
    firstEncounteredMode (allHobbies tieSample) = some "b".toList ∧
    findMostCommonHobby tieSample = .ok "a".toList :=
  ⟨rfl, by decide, rfl⟩

/-- C14, amended: when several hobby strings share the maximal frequency,
`findMostCommonHobby` returns the one whose entry comes first in the key-ordered count
table, whatever the order of encounter: the table, sorted by key, splits around the entry
of the answer with only smaller counts before it and no larger count after it, and two
inputs whose hobby occurrences are a permutation of each other get the same answer. -/
theorem findMostCommonHobby_first_in_table (users : List Json) (h : List Char)
    (hr : findMostCommonHobby users = .ok h) :
    (KeySorted (countUsers [] users) ∧
      ∃ n pre post, countUsers [] users = pre ++ (h, n) :: post ∧
        (∀ x ∈ pre, x.2 < n) ∧ (∀ x ∈ post, x.2 ≤ n)) ∧
    (∀ users' h', (allHobbies users').Perm (allHobbies users) →
      findMostCommonHobby users' = .ok h' → h' = h) := by
  refine ⟨⟨?_, ?_⟩, ?_⟩
  · rw [countUsers_eq]
    exact tally_sorted _ [] List.Pairwise.nil
  · rw [countUsers_eq]
    exact findMostCommonHobby_entry hr
  · intro users' h' hp hr'
    have h1 := findMostCommonHobby_least hr
    have h2 := findMostCommonHobby_least hr'
    by_contra hne
    have hc : ∀ s, (allHobbies users').count s = (allHobbies users).count s :=
      fun s => hp.countP_eq _
    have hle1 := h1.2.1 h'
    have hle2 := h2.2.1 h
    rw [hc, hc] at hle2
    have heq : (allHobbies users).count h' = (allHobbies users).count h := by omega
    have hlt1 := h1.2.2 h' heq hne
    have hlt2 := h2.2.2 h (by rw [hc, hc]; exact heq.symm) (fun e => hne e.symm)
    rw [strLt_asymm hlt1] at hlt2
    cases hlt2

theorem findMostCommonHobby_first_in_table_witness :
    (KeySorted (countUsers [] tieSample) ∧
      ∃ n pre post, countUsers [] tieSample = pre ++ ("a".toList, n) :: post ∧
        (∀ x ∈ pre, x.2 < n) ∧ (∀ x ∈ post, x.2 ≤ n)) ∧
    (∀ users' h', (allHobbies users').Perm (allHobbies tieSample) →
      findMostCommonHobby users' = .ok h' → h' = "a".toList) :=
  findMostCommonHobby_first_in_table tieSample "a".toList rfl

/-- C18, as stated, fails: when the only hobby string of the input is the empty string,
`findMostCommonHobby` succeeds and returns the empty string. -/
theorem findMostCommonHobby_empty_string :
    findMostCommonHobby emptyHobbySample = .ok [] :=
  rfl

/-- C18, amended: the string a successful `findMostCommonHobby` returns is one of the
hobby strings of the input, so it is non-empty whenever no hobby string of the input is
empty. -/
theorem findMostCommonHobby_mem (users : List Json) (h : List Char)
    (hr : findMostCommonHobby users = .ok h) :
    h ∈ allHobbies users ∧ ((∀ s ∈ allHobbies users, s ≠ []) → h ≠ []) :=
  ⟨(findMostCommonHobby_least hr).1, fun hall => hall h (findMostCommonHobby_least hr).1⟩

theorem findMostCommonHobby_mem_witness :
    "chess".toList ∈ allHobbies malformedSample ∧
      ((∀ s ∈ allHobbies malformedSample, s ≠ []) → "chess".toList ≠ []) :=
  findMostCommonHobby_mem malformedSample "chess".toList rfl

/-- C20: when several hobby strings share the maximal frequency, `findMostCommonHobby`
returns the smallest of them in the byte-wise lexicographic order of the map keys,
whatever their order in the input: the answer has maximal frequency, and it is below
every other string of maximal frequency. -/
theorem findMostCommonHobby_smallest_key (users : List Json) (h : List Char)
    (hr : findMostCommonHobby users = .ok h) :
    (∀ t, (allHobbies users).count t ≤ (allHobbies users).count h) ∧
    ∀ s, s ∈ allHobbies users →
      (∀ t, (allHobbies users).count t ≤ (allHobbies users).count s) → s ≠ h →
      strLt h s = true := by
  have h1 := findMostCommonHobby_least hr
  refine ⟨h1.2.1, ?_⟩
  intro s _ hs hne
  exact h1.2.2 s (Nat.le_antisymm (h1.2.1 s) (hs h)) hne

theorem findMostCommonHobby_smallest_key_witness :
    (∀ t, (allHobbies tieSample).count t ≤ (allHobbies tieSample).count "a".toList) ∧
    ∀ s, s ∈ allHobbies tieSample →
      (∀ t, (allHobbies tieSample).count t ≤ (allHobbies tieSample).count s) →
      s ≠ "a".toList → strLt "a".toList s = true :=
  findMostCommonHobby_smallest_key tieSample "a".toList rfl

end RestClient
